import Mathlib

/-!
Verification of the NoteKeep link-ingestion pipeline specification.

The development shallowly embeds the Python source of the repository
(`app/crud.py`, `app/tasks.py`, `app/link_preview.py`, `app/telegram_poller.py`,
`check_link_images.py`) together with the parts of the CPython 3.11 standard
library (`urllib/parse.py`) that `normalize_url` depends on.  Python strings
are modelled as `List Char`; bytes are modelled as `Nat` values below 256.

Modelling notes for the stdlib embedding (faithful to CPython 3.11.6):
* `unicodedata.normalize('NFKC', ·)` inside `_checknetloc` is modelled as the
  identity, so the NFKC rejection branch never fires; every concrete URL used
  in the theorems below has a pure-ASCII netloc, where CPython agrees.
* the `'replace'` error handler of UTF-8 decoding emits one replacement
  character per maximal invalid subpart and re-examines the offending byte,
  matching CPython's behaviour; the embedding was additionally validated
  against CPython 3.11.6 on several hundred differential test inputs.
-/

set_option autoImplicit false

namespace NoteKeep

/-- Python strings are modelled as lists of unicode scalar values. -/
abbrev PyStr := List Char

/-- Helper: split a list at the first occurrence of `d`, returning the parts
before and after it (`str.split(d, 1)` when `d` occurs). -/
def splitOnceChar (d : Char) : PyStr → Option (PyStr × PyStr)
  | [] => none
  | c :: cs =>
    if c = d then some ([], cs)
    else (splitOnceChar d cs).map (fun p => (c :: p.1, p.2))

@[simp] theorem splitOnceChar_nil (d : Char) : splitOnceChar d [] = none := rfl

theorem splitOnceChar_cons_self (d : Char) (cs : PyStr) :
    splitOnceChar d (d :: cs) = some ([], cs) := by
  simp [splitOnceChar]

theorem splitOnceChar_cons_ne (d c : Char) (cs : PyStr) (h : c ≠ d) :
    splitOnceChar d (c :: cs) = (splitOnceChar d cs).map (fun p => (c :: p.1, p.2)) := by
  simp [splitOnceChar, h]

theorem splitOnceChar_eq_none_iff (d : Char) (s : PyStr) :
    splitOnceChar d s = none ↔ d ∉ s := by
  induction s with
  | nil => simp
  | cons c cs ih =>
    by_cases hc : c = d
    · subst hc; simp [splitOnceChar_cons_self]
    · simp [splitOnceChar_cons_ne d c cs hc, ih, hc, Ne.symm hc]

theorem splitOnceChar_append (d : Char) (a b : PyStr) (ha : d ∉ a) :
    splitOnceChar d (a ++ d :: b) = some (a, b) := by
  induction a with
  | nil => simp [splitOnceChar_cons_self]
  | cons c cs ih =>
    have hc : c ≠ d := by intro h; exact ha (h ▸ List.mem_cons_self c cs)
    have hcs : d ∉ cs := fun h => ha (List.mem_cons_of_mem c h)
    simp [splitOnceChar_cons_ne d c _ hc, ih hcs]

theorem splitOnceChar_eq_some (d : Char) (s a b : PyStr)
    (h : splitOnceChar d s = some (a, b)) : s = a ++ d :: b ∧ d ∉ a := by
  induction s generalizing a b with
  | nil => simp at h
  | cons c cs ih =>
    by_cases hc : c = d
    · subst hc
      rw [splitOnceChar_cons_self] at h
      simp only [Option.some.injEq, Prod.mk.injEq] at h
      obtain ⟨h1, h2⟩ := h
      subst h1; subst h2
      simp
    · rw [splitOnceChar_cons_ne d c cs hc] at h
      cases ha : splitOnceChar d cs with
      | none => rw [ha] at h; simp at h
      | some p =>
        obtain ⟨a', b'⟩ := p
        rw [ha] at h
        simp only [Option.map_some', Option.some.injEq, Prod.mk.injEq] at h
        obtain ⟨h1, h2⟩ := h
        subst h1; subst h2
        obtain ⟨hs, hna⟩ := ih a' b' ha
        subst hs
        refine ⟨rfl, ?_⟩
        simp only [List.mem_cons, not_or]
        exact ⟨Ne.symm hc, hna⟩

theorem mem_of_splitOnceChar_left (d c : Char) (s a b : PyStr)
    (h : splitOnceChar d s = some (a, b)) (hc : c ∈ a) : c ∈ s := by
  obtain ⟨hs, _⟩ := splitOnceChar_eq_some d s a b h
  subst hs
  exact List.mem_append_left _ hc

theorem mem_of_splitOnceChar_right (d c : Char) (s a b : PyStr)
    (h : splitOnceChar d s = some (a, b)) (hc : c ∈ b) : c ∈ s := by
  obtain ⟨hs, _⟩ := splitOnceChar_eq_some d s a b h
  subst hs
  exact List.mem_append_right _ (List.mem_cons_of_mem d hc)

/-- Helper: split at the last occurrence of `d` (via the first occurrence in
the reversed list).  Models Python `rfind`-based splitting. -/
def splitLastChar (d : Char) (s : PyStr) : Option (PyStr × PyStr) :=
  (splitOnceChar d s.reverse).map (fun p => (p.2.reverse, p.1.reverse))

theorem splitLastChar_eq_none_iff (d : Char) (s : PyStr) :
    splitLastChar d s = none ↔ d ∉ s := by
  simp [splitLastChar, splitOnceChar_eq_none_iff]

theorem splitLastChar_eq_some (d : Char) (s a b : PyStr)
    (h : splitLastChar d s = some (a, b)) : s = a ++ d :: b ∧ d ∉ b := by
  unfold splitLastChar at h
  cases ha : splitOnceChar d s.reverse with
  | none => rw [ha] at h; simp at h
  | some p =>
    obtain ⟨x, y⟩ := p
    rw [ha] at h
    simp only [Option.map_some', Option.some.injEq, Prod.mk.injEq] at h
    obtain ⟨h1, h2⟩ := h
    subst h1; subst h2
    obtain ⟨hs, hnx⟩ := splitOnceChar_eq_some d s.reverse x y ha
    constructor
    · have := congrArg List.reverse hs
      simpa [List.reverse_append] using this
    · simpa using hnx

theorem splitLastChar_append (d : Char) (a b : PyStr) (hb : d ∉ b) :
    splitLastChar d (a ++ d :: b) = some (a, b) := by
  unfold splitLastChar
  have : (a ++ d :: b).reverse = b.reverse ++ d :: a.reverse := by
    simp [List.reverse_append]
  rw [this, splitOnceChar_append d _ _ (by simpa using hb)]
  simp

/-- Python `str.split(sep)` with a single-character separator (auxiliary,
carrying the accumulated current field). -/
def pySplitAux (sep : Char) : PyStr → PyStr → List PyStr
  | [], acc => [acc.reverse]
  | c :: cs, acc =>
    if c = sep then acc.reverse :: pySplitAux sep cs []
    else pySplitAux sep cs (c :: acc)

/-- Python `str.split(sep)` with a single-character separator. -/
def pySplit (sep : Char) (s : PyStr) : List PyStr :=
  pySplitAux sep s []

theorem pySplitAux_no_sep (sep : Char) (s acc : PyStr) (h : sep ∉ s) :
    pySplitAux sep s acc = [acc.reverse ++ s] := by
  induction s generalizing acc with
  | nil => simp [pySplitAux]
  | cons c cs ih =>
    have hc : c ≠ sep := fun hh => h (hh ▸ List.mem_cons_self c cs)
    have hcs : sep ∉ cs := fun hh => h (List.mem_cons_of_mem c hh)
    simp [pySplitAux, hc, ih (c :: acc) hcs]

theorem pySplitAux_append (sep : Char) (a b acc : PyStr) (ha : sep ∉ a) :
    pySplitAux sep (a ++ sep :: b) acc = (acc.reverse ++ a) :: pySplitAux sep b [] := by
  induction a generalizing acc with
  | nil => simp [pySplitAux]
  | cons c cs ih =>
    have hc : c ≠ sep := fun hh => ha (hh ▸ List.mem_cons_self c cs)
    have hcs : sep ∉ cs := fun hh => ha (List.mem_cons_of_mem c hh)
    simp [pySplitAux, hc, ih (c :: acc) hcs]

theorem pySplit_no_sep (sep : Char) (s : PyStr) (h : sep ∉ s) :
    pySplit sep s = [s] := by
  simp [pySplit, pySplitAux_no_sep sep s [] h]

theorem pySplit_append (sep : Char) (a b : PyStr) (ha : sep ∉ a) :
    pySplit sep (a ++ sep :: b) = a :: pySplit sep b := by
  simp [pySplit, pySplitAux_append sep a b [] ha]

/-- Python `str.split(sep)` on an intercalated join recovers the pieces,
provided no piece contains the separator. -/
theorem pySplit_intercalate (sep : Char) (ps : List PyStr) (hne : ps ≠ [])
    (h : ∀ p ∈ ps, sep ∉ p) :
    pySplit sep (List.intercalate [sep] ps) = ps := by
  induction ps with
  | nil => exact absurd rfl hne
  | cons p ps ih =>
    cases ps with
    | nil => simp [List.intercalate, pySplit_no_sep sep p (h p (List.mem_cons_self p []))]
    | cons q qs =>
      have hp : sep ∉ p := h p (List.mem_cons_self _ _)
      have hrest : ∀ r ∈ q :: qs, sep ∉ r := fun r hr => h r (List.mem_cons_of_mem p hr)
      have hjoin : List.intercalate [sep] (p :: q :: qs)
          = p ++ sep :: List.intercalate [sep] (q :: qs) := by
        simp [List.intercalate, List.intersperse]
      rw [hjoin, pySplit_append sep p _ hp, ih (by simp) hrest]

/-! UTF-8 encoding and decoding, as used by `str.encode('utf-8')` and
`bytes.decode('utf-8', 'replace')` inside `urllib.parse.quote` / `unquote`. -/

/-- UTF-8 encoding of one unicode scalar value. -/
def utf8EncodeCP (n : Nat) : List Nat :=
  if n < 0x80 then [n]
  else if n < 0x800 then [0xC0 + n / 64, 0x80 + n % 64]
  else if n < 0x10000 then [0xE0 + n / 4096, 0x80 + (n / 64) % 64, 0x80 + n % 64]
  else [0xF0 + n / 262144, 0x80 + (n / 4096) % 64, 0x80 + (n / 64) % 64, 0x80 + n % 64]

/-- UTF-8 encoding of a string to a byte list (`str.encode('utf-8')`).
Lean `Char` carries no surrogates, so encoding never fails. -/
def utf8Encode (s : PyStr) : List Nat :=
  (s.map (fun c => utf8EncodeCP c.toNat)).flatten

/-- Stream elements for mixed percent-decoding: decoded bytes interleaved with
characters that pass through verbatim (the non-ASCII runs of `unquote`). -/
abbrev ByteOrChar := Sum Nat Char

/-- Unicode replacement character U+FFFD, emitted by the `'replace'` error
handler. -/
def replChar : Char := Char.ofNat 0xFFFD

/-- Pending state of the streaming UTF-8 decoder: number of continuation
bytes still required, accumulated bits, and the admissible range of the next
byte (the range encodes the overlong/surrogate/out-of-range restrictions of
the second byte). -/
structure U8Pending where
  need : Nat
  acc : Nat
  lo : Nat
  hi : Nat
deriving DecidableEq

/-- Classification of a byte examined in the start state: an ASCII byte or an
invalid start byte yields a character (the replacement character in the
latter case); a lead byte yields the pending state for its continuation
bytes. -/
def u8start (b : Nat) : Sum Char U8Pending :=
  if b < 0x80 then .inl (Char.ofNat b)
  else if 0xC2 ≤ b ∧ b < 0xE0 then .inr ⟨1, b - 0xC0, 0x80, 0xBF⟩
  else if 0xE0 ≤ b ∧ b < 0xF0 then
    .inr ⟨2, b - 0xE0, if b = 0xE0 then 0xA0 else 0x80, if b = 0xED then 0x9F else 0xBF⟩
  else if 0xF0 ≤ b ∧ b ≤ 0xF4 then
    .inr ⟨3, b - 0xF0, if b = 0xF0 then 0x90 else 0x80, if b = 0xF4 then 0x8F else 0xBF⟩
  else .inl replChar

/-- UTF-8 decoding with replacement (`bytes.decode('utf-8', 'replace')`) over
a mixed stream: bytes are decoded, pass-through characters flush any pending
multi-byte sequence (they arise at the boundaries of the ASCII runs that
CPython's `unquote` decodes separately).  An invalid continuation byte emits
one replacement character for the consumed prefix and is then re-examined as
a start byte, matching CPython's maximal-subpart substitution. -/
def utf8DecodeMixed (st : Option U8Pending) : List ByteOrChar → PyStr
  | [] => if st = none then [] else [replChar]
  | .inr c :: rest =>
    if st = none then c :: utf8DecodeMixed none rest
    else replChar :: c :: utf8DecodeMixed none rest
  | .inl b :: rest =>
    match st with
    | some p =>
      if p.lo ≤ b ∧ b ≤ p.hi then
        if p.need = 1 then
          Char.ofNat (p.acc * 64 + (b - 0x80)) :: utf8DecodeMixed none rest
        else
          utf8DecodeMixed (some ⟨p.need - 1, p.acc * 64 + (b - 0x80), 0x80, 0xBF⟩) rest
      else
        replChar ::
          match u8start b with
          | .inl c => c :: utf8DecodeMixed none rest
          | .inr p' => utf8DecodeMixed (some p') rest
    | none =>
      match u8start b with
      | .inl c => c :: utf8DecodeMixed none rest
      | .inr p' => utf8DecodeMixed (some p') rest

theorem toNat_ofNat_valid (n : Nat) (h : Nat.isValidChar n) : (Char.ofNat n).toNat = n := by
  rw [Char.ofNat, dif_pos h]
  simp [Char.ofNatAux, Char.toNat, UInt32.toNat, BitVec.toNat_ofNatLt]

theorem char_valid_nat (c : Char) :
    c.toNat < 0xd800 ∨ (0xdfff < c.toNat ∧ c.toNat < 0x110000) := c.valid

theorem utf8DecodeMixed_none_inl (b : Nat) (rest : List ByteOrChar) :
    utf8DecodeMixed none (.inl b :: rest)
      = match u8start b with
        | .inl c => c :: utf8DecodeMixed none rest
        | .inr p' => utf8DecodeMixed (some p') rest := by
  rw [utf8DecodeMixed.eq_def]

theorem utf8DecodeMixed_some_inl (p : U8Pending) (b : Nat) (rest : List ByteOrChar) :
    utf8DecodeMixed (some p) (.inl b :: rest)
      = if p.lo ≤ b ∧ b ≤ p.hi then
          if p.need = 1 then
            Char.ofNat (p.acc * 64 + (b - 0x80)) :: utf8DecodeMixed none rest
          else
            utf8DecodeMixed (some ⟨p.need - 1, p.acc * 64 + (b - 0x80), 0x80, 0xBF⟩) rest
        else
          replChar ::
            match u8start b with
            | .inl c => c :: utf8DecodeMixed none rest
            | .inr p' => utf8DecodeMixed (some p') rest := by
  rw [utf8DecodeMixed.eq_def]

theorem utf8DecodeMixed_none_ascii (b : Nat) (hb : b < 0x80) (rest : List ByteOrChar) :
    utf8DecodeMixed none (.inl b :: rest) = Char.ofNat b :: utf8DecodeMixed none rest := by
  rw [utf8DecodeMixed_none_inl, u8start, if_pos hb]

/-- Round trip: decoding the UTF-8 encoding of one character at the head of a
mixed stream yields that character and leaves the remainder untouched. -/
theorem utf8DecodeMixed_encodeCP (c : Char) (rest : List ByteOrChar) :
    utf8DecodeMixed none ((utf8EncodeCP c.toNat).map Sum.inl ++ rest)
      = c :: utf8DecodeMixed none rest := by
  have hval := char_valid_nat c
  set n := c.toNat with hn
  have hofn : Char.ofNat n = c := hn ▸ Char.ofNat_toNat c
  by_cases h1 : n < 0x80
  · rw [utf8EncodeCP, if_pos h1]
    show utf8DecodeMixed none (.inl n :: rest) = c :: utf8DecodeMixed none rest
    rw [utf8DecodeMixed_none_ascii n h1, hofn]
  · by_cases h2 : n < 0x800
    · rw [utf8EncodeCP, if_neg h1, if_pos h2]
      show utf8DecodeMixed none (.inl (0xC0 + n / 64) :: .inl (0x80 + n % 64) :: rest)
        = c :: utf8DecodeMixed none rest
      rw [utf8DecodeMixed_none_inl, u8start, if_neg (by omega), if_pos (by omega)]
      dsimp only []
      rw [utf8DecodeMixed_some_inl]
      dsimp only []
      rw [if_pos (by constructor <;> omega), if_pos rfl]
      have harith : (0xC0 + n / 64 - 0xC0) * 64 + (0x80 + n % 64 - 0x80) = n := by omega
      rw [harith, hofn]
    · by_cases h3 : n < 0x10000
      · rw [utf8EncodeCP, if_neg h1, if_neg h2, if_pos h3]
        show utf8DecodeMixed none (.inl (0xE0 + n / 4096) :: .inl (0x80 + n / 64 % 64)
            :: .inl (0x80 + n % 64) :: rest) = c :: utf8DecodeMixed none rest
        rw [utf8DecodeMixed_none_inl, u8start, if_neg (by omega), if_neg (by omega),
          if_pos (by omega)]
        dsimp only []
        rw [utf8DecodeMixed_some_inl]
        dsimp only []
        rw [if_pos ?c1, if_neg (by omega), utf8DecodeMixed_some_inl]
        case c1 =>
          constructor
          · split
            · rename_i he
              have hz : n / 4096 = 0 := by omega
              omega
            · omega
          · split
            · rename_i he
              have hd : n / 4096 = 13 := by omega
              rcases hval with hv | hv
              · omega
              · omega
            · omega
        dsimp only []
        rw [if_pos (by constructor <;> omega), if_pos rfl]
        have harith : ((0xE0 + n / 4096 - 0xE0) * 64 + (0x80 + n / 64 % 64 - 0x80)) * 64
            + (0x80 + n % 64 - 0x80) = n := by omega
        rw [harith, hofn]
      · rw [utf8EncodeCP, if_neg h1, if_neg h2, if_neg h3]
        show utf8DecodeMixed none (.inl (0xF0 + n / 262144) :: .inl (0x80 + n / 4096 % 64)
            :: .inl (0x80 + n / 64 % 64) :: .inl (0x80 + n % 64) :: rest)
          = c :: utf8DecodeMixed none rest
        have hup : n < 0x110000 := by
          rcases hval with hv | hv
          · omega
          · exact hv.2
        rw [utf8DecodeMixed_none_inl, u8start, if_neg (by omega), if_neg (by omega),
          if_neg (by omega), if_pos (by omega)]
        dsimp only []
        rw [utf8DecodeMixed_some_inl]
        dsimp only []
        rw [if_pos ?c2, if_neg (by omega), utf8DecodeMixed_some_inl]
        case c2 =>
          constructor
          · split
            · rename_i he
              have hz : n / 262144 = 0 := by omega
              omega
            · omega
          · split
            · rename_i he
              have hf : n / 262144 = 4 := by omega
              omega
            · omega
        dsimp only []
        rw [if_pos (by constructor <;> omega), if_neg (by omega), utf8DecodeMixed_some_inl]
        dsimp only []
        rw [if_pos (by constructor <;> omega), if_pos rfl]
        have harith : (((0xF0 + n / 262144 - 0xF0) * 64 + (0x80 + n / 4096 % 64 - 0x80)) * 64
            + (0x80 + n / 64 % 64 - 0x80)) * 64 + (0x80 + n % 64 - 0x80) = n := by omega
        rw [harith, hofn]

/-- Round trip over whole strings. -/
theorem utf8DecodeMixed_utf8Encode (s : PyStr) (rest : List ByteOrChar) :
    utf8DecodeMixed none ((utf8Encode s).map Sum.inl ++ rest)
      = s ++ utf8DecodeMixed none rest := by
  induction s with
  | nil => simp [utf8Encode]
  | cons c cs ih =>
    have henc : utf8Encode (c :: cs) = utf8EncodeCP c.toNat ++ utf8Encode cs := by
      simp [utf8Encode]
    rw [henc, List.map_append, List.append_assoc, utf8DecodeMixed_encodeCP, ih]
    rfl

/-! Percent-quoting (`urllib.parse.quote_plus` with `safe=''`) and
percent-decoding (`urllib.parse.unquote`), as used by `urlencode` and
`parse_qsl`. -/

/-- Bytes in `urllib.parse._ALWAYS_SAFE`: ASCII letters, digits, and
`_`, `.`, `-`, `~`. -/
def AlwaysSafeByte (b : Nat) : Prop :=
  (65 ≤ b ∧ b ≤ 90) ∨ (97 ≤ b ∧ b ≤ 122) ∨ (48 ≤ b ∧ b ≤ 57) ∨
    b = 95 ∨ b = 46 ∨ b = 45 ∨ b = 126

instance (b : Nat) : Decidable (AlwaysSafeByte b) := by unfold AlwaysSafeByte; infer_instance

/-- Uppercase hexadecimal digit, as produced by `'%{:02X}'.format(b)`. -/
def hexUpper (n : Nat) : Char :=
  if n < 10 then Char.ofNat (48 + n) else Char.ofNat (55 + n)

/-- Python hexadecimal digits (`string.hexdigits`), both cases. -/
def IsHexPy (c : Char) : Prop :=
  ('0' ≤ c ∧ c ≤ '9') ∨ ('A' ≤ c ∧ c ≤ 'F') ∨ ('a' ≤ c ∧ c ≤ 'f')

instance (c : Char) : Decidable (IsHexPy c) := by unfold IsHexPy; infer_instance

/-- Value of a hexadecimal digit. -/
def hexVal (c : Char) : Nat :=
  if c.toNat ≤ 57 then c.toNat - 48 else if c.toNat ≤ 70 then c.toNat - 55 else c.toNat - 87

/-- Encoding of a single byte by `quote_plus` with `safe=''`: space becomes
`+`, always-safe bytes stay literal, everything else becomes `%XX` with
uppercase hex. -/
def quoteByte (b : Nat) : PyStr :=
  if b = 32 then ['+']
  else if AlwaysSafeByte b then [Char.ofNat b]
  else ['%', hexUpper (b / 16), hexUpper (b % 16)]

/-- Python `urllib.parse.quote_plus(s, safe='')`: UTF-8 encode, then quote
each byte (spaces to `+`). -/
def quote_plus (s : PyStr) : PyStr :=
  ((utf8Encode s).map quoteByte).flatten

/-- Python `str.replace('+', ' ')`, applied by `parse_qsl` before unquoting. -/
def plusToSpace (s : PyStr) : PyStr :=
  s.map (fun c => if c = '+' then ' ' else c)

/-- Percent-decoding into a mixed byte/char stream: `%XX` with two hex digits
becomes the byte `XX`, other ASCII characters become their code, non-ASCII
characters pass through (they form the runs that CPython's `unquote` does not
decode).  A `%` not followed by two hex digits stays a literal `%` byte,
exactly as in `unquote_to_bytes`. -/
def percentDecodeMixed : PyStr → List ByteOrChar
  | [] => []
  | '%' :: h1 :: h2 :: rest =>
    if IsHexPy h1 ∧ IsHexPy h2 then
      .inl (16 * hexVal h1 + hexVal h2) :: percentDecodeMixed rest
    else .inl 37 :: percentDecodeMixed (h1 :: h2 :: rest)
  | ['%', h1] => .inl 37 :: percentDecodeMixed [h1]
  | ['%'] => [.inl 37]
  | c :: rest => (if c.toNat ≤ 0x7f then .inl c.toNat else .inr c) :: percentDecodeMixed rest

/-- Python `urllib.parse.unquote(s)` (UTF-8, `errors='replace'`). -/
def unquote (s : PyStr) : PyStr :=
  if '%' ∉ s then s else utf8DecodeMixed none (percentDecodeMixed s)

theorem percentDecodeMixed_cons_ne (c : Char) (rest : PyStr) (h : c ≠ '%') :
    percentDecodeMixed (c :: rest)
      = (if c.toNat ≤ 0x7f then .inl c.toNat else .inr c) :: percentDecodeMixed rest := by
  match rest with
  | [] => simp [percentDecodeMixed, h]
  | [h1] => simp [percentDecodeMixed, h]
  | h1 :: h2 :: rest2 => simp [percentDecodeMixed, h]

theorem percentDecodeMixed_esc (h1 h2 : Char) (rest : PyStr)
    (hh : IsHexPy h1 ∧ IsHexPy h2) :
    percentDecodeMixed ('%' :: h1 :: h2 :: rest)
      = .inl (16 * hexVal h1 + hexVal h2) :: percentDecodeMixed rest := by
  simp [percentDecodeMixed, hh]

theorem char_eq_iff_toNat (c d : Char) : c = d ↔ c.toNat = d.toNat := by
  constructor
  · intro h; rw [h]
  · intro h
    have := congrArg Char.ofNat h
    rwa [Char.ofNat_toNat, Char.ofNat_toNat] at this

theorem char_le_iff_toNat (c d : Char) : c ≤ d ↔ c.toNat ≤ d.toNat := by
  rw [Char.le_def, UInt32.le_def]
  exact ⟨fun h => h, fun h => h⟩

theorem utf8EncodeCP_lt_256 (n : Nat) (hn : n < 0x110000) (b : Nat)
    (hb : b ∈ utf8EncodeCP n) : b < 256 := by
  unfold utf8EncodeCP at hb
  split at hb
  · simp at hb; omega
  · split at hb
    · simp at hb
      rcases hb with h | h <;> omega
    · split at hb
      · simp at hb
        rcases hb with h | h | h <;> omega
      · simp at hb
        rcases hb with h | h | h | h <;> omega

theorem utf8Encode_lt_256 (s : PyStr) (b : Nat) (hb : b ∈ utf8Encode s) : b < 256 := by
  unfold utf8Encode at hb
  simp only [List.mem_flatten, List.mem_map] at hb
  obtain ⟨l, ⟨c, _, rfl⟩, hbl⟩ := hb
  have hv : c.toNat < 0x110000 := by
    rcases char_valid_nat c with h | h
    · omega
    · exact h.2
  exact utf8EncodeCP_lt_256 _ hv b hbl

theorem isHexPy_hexUpper (n : Nat) (h : n < 16) : IsHexPy (hexUpper n) := by
  interval_cases n <;> decide

theorem hexVal_hexUpper (n : Nat) (h : n < 16) : hexVal (hexUpper n) = n := by
  interval_cases n <;> decide

/-- Characters that can appear in the output of `quote_plus`. -/
def EncChar (c : Char) : Prop := c = '+' ∨ c = '%' ∨ AlwaysSafeByte c.toNat

instance (c : Char) : Decidable (EncChar c) := by unfold EncChar; infer_instance

theorem alwaysSafeByte_lt_128 (b : Nat) (h : AlwaysSafeByte b) : b < 128 := by
  unfold AlwaysSafeByte at h
  omega

theorem alwaysSafeByte_hexUpper (n : Nat) (h : n < 16) :
    AlwaysSafeByte (hexUpper n).toNat := by
  interval_cases n <;> decide

theorem hexUpper_ne_plus (n : Nat) (h : n < 16) : hexUpper n ≠ '+' := by
  interval_cases n <;> decide

theorem encChar_quoteByte (b : Nat) (hb : b < 256) (c : Char) (hc : c ∈ quoteByte b) :
    EncChar c := by
  unfold quoteByte at hc
  split at hc
  · simp at hc
    subst hc
    left; rfl
  · split at hc
    · rename_i hsafe
      simp at hc
      subst hc
      right; right
      rwa [toNat_ofNat_valid _ (Or.inl (by have := alwaysSafeByte_lt_128 b hsafe; omega))]
    · simp at hc
      rcases hc with rfl | rfl | rfl
      · right; left; rfl
      · right; right; exact alwaysSafeByte_hexUpper _ (by omega)
      · right; right; exact alwaysSafeByte_hexUpper _ (by omega)

theorem encChar_quote_plus (s : PyStr) (c : Char) (hc : c ∈ quote_plus s) : EncChar c := by
  unfold quote_plus at hc
  simp only [List.mem_flatten, List.mem_map] at hc
  obtain ⟨l, ⟨b, hbs, rfl⟩, hcl⟩ := hc
  exact encChar_quoteByte b (utf8Encode_lt_256 s b hbs) c hcl

theorem encChar_facts (c : Char) (h : EncChar c) :
    c.toNat ≤ 127 ∧ c ≠ '?' ∧ c ≠ '#' ∧ c ≠ ':' ∧ c ≠ '/' ∧ c ≠ ';' ∧
      c ≠ '\t' ∧ c ≠ '\r' ∧ c ≠ '\n' ∧ c ≠ '&' ∧ c ≠ '=' ∧ c ≠ '[' ∧ c ≠ ']' := by
  rcases h with rfl | rfl | hsafe
  · decide
  · decide
  · have hlt := alwaysSafeByte_lt_128 c.toNat hsafe
    have hne : ∀ d : Char, ¬ AlwaysSafeByte d.toNat → c ≠ d := by
      intro d hd he
      exact hd (he ▸ hsafe)
    exact ⟨by omega, hne _ (by decide), hne _ (by decide), hne _ (by decide),
      hne _ (by decide), hne _ (by decide), hne _ (by decide), hne _ (by decide),
      hne _ (by decide), hne _ (by decide), hne _ (by decide), hne _ (by decide),
      hne _ (by decide)⟩

/-- Net effect of `quote_plus` followed by the `.replace('+', ' ')` step of
`parse_qsl` on a single byte. -/
def quoteByteSp (b : Nat) : PyStr :=
  if b = 32 then [' '] else quoteByte b

theorem plusToSpace_quoteByte (b : Nat) (hb : b < 256) :
    plusToSpace (quoteByte b) = quoteByteSp b := by
  by_cases h32 : b = 32
  · subst h32
    decide
  · rw [quoteByteSp, if_neg h32]
    unfold quoteByte
    rw [if_neg h32]
    split
    · rename_i hsafe
      have hne : Char.ofNat b ≠ '+' := by
        intro he
        have hcast := congrArg Char.toNat he
        rw [toNat_ofNat_valid _ (Or.inl (by have := alwaysSafeByte_lt_128 b hsafe; omega))]
          at hcast
        revert hsafe
        rw [hcast]
        decide
      simp [plusToSpace, hne]
    · simp [plusToSpace, hexUpper_ne_plus (b / 16) (by omega),
        hexUpper_ne_plus (b % 16) (by omega)]

theorem percentDecodeMixed_quoteByteSp (b : Nat) (hb : b < 256) (tail : PyStr) :
    percentDecodeMixed (quoteByteSp b ++ tail) = .inl b :: percentDecodeMixed tail := by
  unfold quoteByteSp
  split
  · rename_i h32
    subst h32
    rw [List.cons_append, List.nil_append, percentDecodeMixed_cons_ne _ _ (by decide)]
    rfl
  · unfold quoteByte
    split
    · omega
    · split
      · rename_i hsafe
        have hlt : b < 128 := alwaysSafeByte_lt_128 b hsafe
        have htn : (Char.ofNat b).toNat = b := toNat_ofNat_valid _ (Or.inl (by omega))
        have hne : Char.ofNat b ≠ '%' := by
          intro he
          have := congrArg Char.toNat he
          rw [htn] at this
          revert hsafe
          rw [this]
          decide
        rw [List.cons_append, List.nil_append, percentDecodeMixed_cons_ne _ _ hne, htn,
          if_pos (by omega)]
      · rw [List.cons_append, List.cons_append, List.cons_append, List.nil_append,
          percentDecodeMixed_esc _ _ _
            ⟨isHexPy_hexUpper _ (by omega), isHexPy_hexUpper _ (by omega)⟩,
          hexVal_hexUpper _ (by omega), hexVal_hexUpper _ (by omega)]
        congr 1
        congr 1
        omega

theorem percentDecodeMixed_quote_bytes (bs : List Nat) (h : ∀ b ∈ bs, b < 256) :
    percentDecodeMixed ((bs.map quoteByteSp).flatten) = bs.map .inl := by
  induction bs with
  | nil => rfl
  | cons b bs ih =>
    rw [List.map_cons, List.flatten_cons,
      percentDecodeMixed_quoteByteSp b (h b (List.mem_cons_self b bs)) _,
      ih (fun x hx => h x (List.mem_cons_of_mem b hx)), List.map_cons]

theorem decode_percentDecodeMixed_ascii (w : PyStr)
    (h : ∀ c ∈ w, c ≠ '%' ∧ c.toNat ≤ 127) :
    utf8DecodeMixed none (percentDecodeMixed w) = w := by
  induction w with
  | nil => rfl
  | cons c cs ih =>
    obtain ⟨hne, hlt⟩ := h c (List.mem_cons_self c cs)
    rw [percentDecodeMixed_cons_ne c cs hne, if_pos hlt,
      utf8DecodeMixed_none_ascii _ (by omega), Char.ofNat_toNat,
      ih (fun x hx => h x (List.mem_cons_of_mem c hx))]

/-- Round trip through the field processing of `parse_qsl`: `quote_plus`
followed by `.replace('+', ' ')` and `unquote` restores the original value. -/
theorem unquote_plusToSpace_quote_plus (v : PyStr) :
    unquote (plusToSpace (quote_plus v)) = v := by
  have hw : plusToSpace (quote_plus v) = ((utf8Encode v).map quoteByteSp).flatten := by
    unfold quote_plus plusToSpace
    rw [List.map_flatten, List.map_map]
    congr 1
    apply List.map_congr_left
    intro b hb
    exact plusToSpace_quoteByte b (utf8Encode_lt_256 v b hb)
  have hpdm : percentDecodeMixed (plusToSpace (quote_plus v)) = (utf8Encode v).map .inl := by
    rw [hw]
    exact percentDecodeMixed_quote_bytes _ (utf8Encode_lt_256 v)
  have hdec : utf8DecodeMixed none (percentDecodeMixed (plusToSpace (quote_plus v))) = v := by
    rw [hpdm]
    have hrt := utf8DecodeMixed_utf8Encode v []
    have hnil : utf8DecodeMixed none ([] : List ByteOrChar) = [] := rfl
    rw [hnil, List.append_nil, List.append_nil] at hrt
    exact hrt
  unfold unquote
  split
  · rename_i hno
    have hascii : ∀ c ∈ plusToSpace (quote_plus v), c ≠ '%' ∧ c.toNat ≤ 127 := by
      intro c hc
      constructor
      · intro he
        exact hno (he ▸ hc)
      · rcases List.mem_map.mp hc with ⟨d, hd, rfl⟩
        by_cases hdp : d = '+'
        · simp [hdp]
        · simp only [if_neg hdp]
          exact (encChar_facts d (encChar_quote_plus v d hd)).1
    calc plusToSpace (quote_plus v)
        = utf8DecodeMixed none (percentDecodeMixed (plusToSpace (quote_plus v))) :=
          (decode_percentDecodeMixed_ascii _ hascii).symm
      _ = v := hdec
  · exact hdec

/-! Query-string parsing and encoding: `parse_qsl`, `parse_qs` (with
`keep_blank_values=True`, `strict_parsing=False`, separator `&`) and
`urlencode(..., doseq=True)` from `urllib.parse`. -/

/-- Processing of one `name=value` field by `parse_qsl` with
`keep_blank_values=True`: empty fields are skipped, the field is split at the
first `=` (a missing `=` yields a blank value), and name and value have `+`
replaced by spaces and are percent-decoded. -/
def qslField (f : PyStr) : Option (PyStr × PyStr) :=
  if f = [] then none
  else
    match splitOnceChar '=' f with
    | some (n, v) => some (unquote (plusToSpace n), unquote (plusToSpace v))
    | none => some (unquote (plusToSpace f), unquote (plusToSpace []))

/-- Python `urllib.parse.parse_qsl(qs, keep_blank_values=True)`. -/
def parse_qsl (qs : PyStr) : List (PyStr × PyStr) :=
  (if qs = [] then [] else pySplit '&' qs).filterMap qslField

/-- One step of the dict building of `parse_qs`: append the value if the name
is already present, otherwise add a new entry (dicts preserve insertion
order). -/
def qsInsert (d : List (PyStr × List PyStr)) (k : PyStr) (v : PyStr) :
    List (PyStr × List PyStr) :=
  if d.any (fun kv => kv.1 = k) then
    d.map (fun kv => if kv.1 = k then (kv.1, kv.2 ++ [v]) else kv)
  else d ++ [(k, [v])]

/-- Python `urllib.parse.parse_qs(qs, keep_blank_values=True)`, modelled as an
insertion-ordered association list. -/
def parse_qs (qs : PyStr) : List (PyStr × List PyStr) :=
  (parse_qsl qs).foldl (fun d kv => qsInsert d kv.1 kv.2) []

/-- Python `urllib.parse.urlencode(d, doseq=True)` (with `quote_via`
defaulting to `quote_plus`): one `key=value` field per sequence element,
joined with `&`. -/
def urlencode (d : List (PyStr × List PyStr)) : PyStr :=
  List.intercalate ['&']
    ((d.map (fun kv => kv.2.map (fun v => quote_plus kv.1 ++ '=' :: quote_plus v))).flatten)

/-- Keys of an association list. -/
def qsKeys (d : List (PyStr × List PyStr)) : List PyStr := d.map Prod.fst

theorem qsInsert_mem_keys (d : List (PyStr × List PyStr)) (k : PyStr) (v : PyStr)
    (h : k ∈ qsKeys d) :
    qsInsert d k v = d.map (fun kv => if kv.1 = k then (kv.1, kv.2 ++ [v]) else kv) := by
  unfold qsInsert
  rw [if_pos]
  rw [List.any_eq_true]
  unfold qsKeys at h
  obtain ⟨kv, hkv, hfst⟩ := List.mem_map.mp h
  exact ⟨kv, hkv, by simp [hfst]⟩

theorem qsInsert_not_mem_keys (d : List (PyStr × List PyStr)) (k : PyStr) (v : PyStr)
    (h : k ∉ qsKeys d) : qsInsert d k v = d ++ [(k, [v])] := by
  unfold qsInsert
  rw [if_neg]
  rw [List.any_eq_true]
  rintro ⟨kv, hkv, hfst⟩
  simp only [decide_eq_true_eq] at hfst
  exact h (hfst ▸ List.mem_map_of_mem Prod.fst hkv)

theorem qsInsert_run (k : PyStr) (vs : List PyStr) (acc : List (PyStr × List PyStr))
    (l : List PyStr) (hk : k ∉ qsKeys acc) :
    (vs.map (fun v => ((k, v) : PyStr × PyStr))).foldl
        (fun d kv => qsInsert d kv.1 kv.2) (acc ++ [(k, l)])
      = acc ++ [(k, l ++ vs)] := by
  induction vs generalizing l with
  | nil => simp
  | cons v vs ih =>
    rw [List.map_cons, List.foldl_cons]
    have hins : qsInsert (acc ++ [(k, l)]) k v = acc ++ [(k, l ++ [v])] := by
      rw [qsInsert_mem_keys _ _ _ (by simp [qsKeys])]
      rw [List.map_append]
      congr 1
      · conv_rhs => rw [← List.map_id acc]
        apply List.map_congr_left
        intro kv hkv
        have hne : kv.1 ≠ k := by
          intro he
          exact hk (he ▸ List.mem_map_of_mem Prod.fst hkv)
        simp [hne]
      · simp
    rw [hins, ih (l ++ [v])]
    simp

/-- Grouping the flattened pairs of a well-formed association list restores
the list. -/
theorem foldl_qsInsert_flat (F : List (PyStr × List PyStr))
    (acc : List (PyStr × List PyStr))
    (hnd : (qsKeys F).Nodup) (hdisj : ∀ k ∈ qsKeys F, k ∉ qsKeys acc)
    (hvals : ∀ kv ∈ F, kv.2 ≠ []) :
    ((F.map (fun kv => kv.2.map (fun v => ((kv.1, v) : PyStr × PyStr)))).flatten).foldl
        (fun d kv => qsInsert d kv.1 kv.2) acc
      = acc ++ F := by
  induction F generalizing acc with
  | nil => simp
  | cons kv F ih =>
    obtain ⟨k, vs⟩ := kv
    rw [List.map_cons, List.flatten_cons, List.foldl_append]
    have hkacc : k ∉ qsKeys acc := hdisj k (by simp [qsKeys])
    have hvs : vs ≠ [] := hvals (k, vs) (List.mem_cons_self _ _)
    obtain ⟨v0, vs', rfl⟩ := List.exists_cons_of_ne_nil hvs
    rw [List.map_cons, List.foldl_cons]
    have hfirst : qsInsert acc k v0 = acc ++ [(k, [v0])] := qsInsert_not_mem_keys acc k v0 hkacc
    rw [hfirst, qsInsert_run k vs' acc [v0] hkacc, List.singleton_append]
    have hnd' : (qsKeys F).Nodup := by
      unfold qsKeys at hnd ⊢
      exact (List.nodup_cons.mp hnd).2
    have hknotF : k ∉ qsKeys F := by
      unfold qsKeys at hnd ⊢
      exact (List.nodup_cons.mp hnd).1
    have hdisj' : ∀ k' ∈ qsKeys F, k' ∉ qsKeys (acc ++ [(k, v0 :: vs')]) := by
      intro k' hk'
      unfold qsKeys
      rw [List.map_append, List.mem_append]
      rintro (h | h)
      · exact hdisj k' (List.mem_cons_of_mem _ hk') h
      · simp only [List.map_cons, List.map_nil, List.mem_singleton] at h
        exact hknotF (h ▸ hk')
    have hvals' : ∀ kv ∈ F, kv.2 ≠ [] := fun kv hkv => hvals kv (List.mem_cons_of_mem _ hkv)
    rw [ih (acc ++ [(k, v0 :: vs')]) hnd' hdisj' hvals']
    simp

theorem encChar_ne_amp_eq (c : Char) (h : EncChar c) : c ≠ '&' ∧ c ≠ '=' := by
  have hf := encChar_facts c h
  exact ⟨hf.2.2.2.2.2.2.2.2.2.1, hf.2.2.2.2.2.2.2.2.2.2.1⟩

/-- One encoded field processed by `qslField` decodes back to its pair. -/
theorem qslField_encoded (k v : PyStr) :
    qslField (quote_plus k ++ '=' :: quote_plus v) = some (k, v) := by
  unfold qslField
  have hne : quote_plus k ++ '=' :: quote_plus v ≠ [] := by
    intro h
    have := congrArg List.length h
    simp at this
  rw [if_neg hne]
  have hsplit : splitOnceChar '=' (quote_plus k ++ '=' :: quote_plus v)
      = some (quote_plus k, quote_plus v) := by
    apply splitOnceChar_append
    intro hmem
    exact (encChar_ne_amp_eq _ (encChar_quote_plus k _ hmem)).2 rfl
  rw [hsplit]
  dsimp only []
  rw [unquote_plusToSpace_quote_plus, unquote_plusToSpace_quote_plus]

theorem filterMap_qslField_pieces (F : List (PyStr × List PyStr)) :
    ((F.map (fun kv => kv.2.map (fun v => quote_plus kv.1 ++ '=' :: quote_plus v))).flatten).filterMap
        qslField
      = (F.map (fun kv => kv.2.map (fun v => ((kv.1, v) : PyStr × PyStr)))).flatten := by
  induction F with
  | nil => rfl
  | cons kv F ih =>
    rw [List.map_cons, List.map_cons, List.flatten_cons, List.flatten_cons,
      List.filterMap_append, ih]
    congr 1
    induction kv.2 with
    | nil => rfl
    | cons v vs ihv =>
      rw [List.map_cons, List.map_cons, List.filterMap_cons, qslField_encoded, ihv]

/-- Parsing the fields of `urlencode F` yields exactly the flattened pairs of
`F`. -/
theorem parse_qsl_urlencode (F : List (PyStr × List PyStr))
    (hvals : ∀ kv ∈ F, kv.2 ≠ []) (hF : F ≠ []) :
    parse_qsl (urlencode F)
      = (F.map (fun kv => kv.2.map (fun v => ((kv.1, v) : PyStr × PyStr)))).flatten := by
  unfold parse_qsl urlencode
  set pieces := (F.map (fun kv => kv.2.map
    (fun v => quote_plus kv.1 ++ '=' :: quote_plus v))).flatten with hp
  have hpieces_ne : pieces ≠ [] := by
    rw [hp]
    obtain ⟨kv0, F', rfl⟩ := List.exists_cons_of_ne_nil hF
    obtain ⟨v0, vs', hv⟩ := List.exists_cons_of_ne_nil (hvals kv0 (List.mem_cons_self _ _))
    simp [hv]
  have hpiece_mem : ∀ p ∈ pieces, ∃ k v, p = quote_plus k ++ '=' :: quote_plus v := by
    intro p hmem
    rw [hp] at hmem
    simp only [List.mem_flatten, List.mem_map] at hmem
    obtain ⟨l, ⟨kv, _, rfl⟩, hpl⟩ := hmem
    obtain ⟨v, _, rfl⟩ := List.mem_map.mp hpl
    exact ⟨kv.1, v, rfl⟩
  have hno_amp : ∀ p ∈ pieces, '&' ∉ p := by
    intro p hmem hc
    obtain ⟨k, v, rfl⟩ := hpiece_mem p hmem
    rcases List.mem_append.mp hc with h | h
    · exact (encChar_ne_amp_eq _ (encChar_quote_plus k _ h)).1 rfl
    · rcases List.mem_cons.mp h with h | h
      · exact absurd h.symm (by decide)
      · exact (encChar_ne_amp_eq _ (encChar_quote_plus v _ h)).1 rfl
  have hpiece_ne_nil : ∀ p ∈ pieces, p ≠ [] := by
    intro p hmem h
    obtain ⟨k, v, rfl⟩ := hpiece_mem p hmem
    have := congrArg List.length h
    simp at this
  have henc_ne : List.intercalate ['&'] pieces ≠ [] := by
    obtain ⟨p0, ps', hps⟩ := List.exists_cons_of_ne_nil hpieces_ne
    have hp0 : p0 ≠ [] := hpiece_ne_nil p0 (by rw [hps]; exact List.mem_cons_self _ _)
    rw [hps]
    intro h
    cases ps' with
    | nil =>
      have hsing : List.intercalate ['&'] [p0] = p0 := by
        simp [List.intercalate, List.intersperse]
      rw [hsing] at h
      exact hp0 h
    | cons q qs =>
      have hcc : List.intercalate ['&'] (p0 :: q :: qs)
          = p0 ++ '&' :: List.intercalate ['&'] (q :: qs) := by
        simp [List.intercalate, List.intersperse]
      rw [hcc] at h
      have := congrArg List.length h
      simp at this
  rw [if_neg henc_ne, pySplit_intercalate '&' pieces hpieces_ne hno_amp, hp]
  exact filterMap_qslField_pieces F

theorem parse_qs_urlencode (F : List (PyStr × List PyStr))
    (hnd : (qsKeys F).Nodup) (hvals : ∀ kv ∈ F, kv.2 ≠ []) (hF : F ≠ []) :
    parse_qs (urlencode F) = F := by
  unfold parse_qs
  rw [parse_qsl_urlencode F hvals hF]
  have h := foldl_qsInsert_flat F [] hnd (by simp [qsKeys]) hvals
  simpa using h

/-- Well-formedness of a `parse_qs` result: distinct keys, non-empty value
lists. -/
def QsWF (d : List (PyStr × List PyStr)) : Prop :=
  (qsKeys d).Nodup ∧ ∀ kv ∈ d, kv.2 ≠ []

theorem qsKeys_map_upd (d : List (PyStr × List PyStr)) (k : PyStr) (v : PyStr) :
    qsKeys (d.map (fun kv => if kv.1 = k then (kv.1, kv.2 ++ [v]) else kv)) = qsKeys d := by
  unfold qsKeys
  rw [List.map_map]
  apply List.map_congr_left
  intro kv _
  by_cases h : kv.1 = k <;> simp [h]

theorem qsInsert_wf (d : List (PyStr × List PyStr)) (k : PyStr) (v : PyStr)
    (h : QsWF d) : QsWF (qsInsert d k v) := by
  obtain ⟨hnd, hvals⟩ := h
  by_cases hk : k ∈ qsKeys d
  · rw [qsInsert_mem_keys d k v hk]
    refine ⟨by rwa [qsKeys_map_upd], ?_⟩
    intro kv hkv
    obtain ⟨kv', hkv', hmap⟩ := List.mem_map.mp hkv
    by_cases he : kv'.1 = k
    · rw [if_pos he] at hmap
      rw [← hmap]
      simp
    · rw [if_neg he] at hmap
      exact hmap ▸ hvals kv' hkv'
  · rw [qsInsert_not_mem_keys d k v hk]
    constructor
    · unfold qsKeys
      rw [List.map_append]
      simp only [List.map_cons, List.map_nil]
      rw [List.nodup_append]
      refine ⟨hnd, List.nodup_singleton k, ?_⟩
      rw [List.disjoint_singleton]
      exact hk
    · intro kv hkv
      rcases List.mem_append.mp hkv with hm | hm
      · exact hvals kv hm
      · simp only [List.mem_singleton] at hm
        rw [hm]
        simp

theorem foldl_qsInsert_wf (pairs : List (PyStr × PyStr)) (d : List (PyStr × List PyStr))
    (h : QsWF d) : QsWF (pairs.foldl (fun d kv => qsInsert d kv.1 kv.2) d) := by
  induction pairs generalizing d with
  | nil => exact h
  | cons kv pairs ih => exact ih _ (qsInsert_wf d kv.1 kv.2 h)

theorem parse_qs_wf (qs : PyStr) : QsWF (parse_qs qs) :=
  foldl_qsInsert_wf _ [] ⟨List.nodup_nil, by simp⟩

theorem filter_qsWF (p : (PyStr × List PyStr) → Bool) (d : List (PyStr × List PyStr))
    (h : QsWF d) : QsWF (d.filter p) := by
  obtain ⟨hnd, hvals⟩ := h
  constructor
  · unfold qsKeys
    exact hnd.sublist (List.Sublist.map Prod.fst (List.filter_sublist d))
  · intro kv hkv
    exact hvals kv (List.mem_of_mem_filter hkv)

/-- The nine tracking-query keys stripped by `normalize_url`
(`UTM_PARAMS` in `app/crud.py`; a Python `set` used only for membership,
modelled as a list). -/
def UTM_PARAMS : List PyStr :=
  ["utm_source".toList, "utm_medium".toList, "utm_campaign".toList, "utm_term".toList,
    "utm_content".toList, "utm_id".toList, "utm_source_platform".toList,
    "utm_creative_format".toList, "utm_marketing_tactic".toList]

/-! The URL parser of `urllib.parse` (CPython 3.11.6): `urlsplit`,
`urlparse`, `urlunsplit`, `urlunparse` and their helpers. -/

/-- Characters valid in scheme names (`urllib.parse.scheme_chars`). -/
def schemeChars : PyStr :=
  "abcdefghijklmnopqrstuvwxyzABCDEFGHIJKLMNOPQRSTUVWXYZ0123456789+-.".toList

/-- Schemes using parameters (`urllib.parse.uses_params`). -/
def usesParams : List PyStr :=
  ["".toList, "ftp".toList, "hdl".toList, "prospero".toList, "http".toList,
    "imap".toList, "https".toList, "shttp".toList, "rtsp".toList, "rtspu".toList,
    "sip".toList, "sips".toList, "mms".toList, "sftp".toList, "tel".toList]

/-- Schemes using a netloc (`urllib.parse.uses_netloc`). -/
def usesNetloc : List PyStr :=
  ["".toList, "ftp".toList, "http".toList, "gopher".toList, "nntp".toList,
    "telnet".toList, "imap".toList, "wais".toList, "file".toList, "mms".toList,
    "https".toList, "shttp".toList, "snews".toList, "prospero".toList, "rtsp".toList,
    "rtspu".toList, "rsync".toList, "svn".toList, "svn+ssh".toList, "sftp".toList,
    "nfs".toList, "git".toList, "git+ssh".toList, "ws".toList, "wss".toList]

/-- Decimal value of a digit string. -/
def decimalVal (s : PyStr) : Nat := s.foldl (fun a c => a * 10 + (c.toNat - 48)) 0

/-- Python `ipaddress.IPv4Address._parse_octet`: non-empty, ASCII digits
only, at most three characters, no leading zero (except `0` itself), value at
most 255. -/
def parseOctetOk (s : PyStr) : Bool :=
  !s.isEmpty && s.all (fun c => decide (48 ≤ c.toNat ∧ c.toNat ≤ 57)) &&
    decide (s.length ≤ 3) && (s == ['0'] || !(s.take 1 == ['0'])) &&
    decide (decimalVal s ≤ 255)

/-- Python `ipaddress.IPv4Address(str)` parses successfully: no `/`, and four
dot-separated valid octets. -/
def ipv4Ok (s : PyStr) : Bool :=
  !s.contains '/' &&
    match pySplit '.' s with
    | [a, b, c, d] => parseOctetOk a && parseOctetOk b && parseOctetOk c && parseOctetOk d
    | _ => false

/-- Python `ipaddress.IPv6Address._parse_hextet` succeeds: non-empty, hex
digits only, at most four characters. -/
def parseHextetOk (s : PyStr) : Bool :=
  !s.isEmpty && s.all (fun c => decide (IsHexPy c)) && decide (s.length ≤ 4)

/-- Python `ipaddress.IPv6Address._ip_int_from_string` succeeds (validity
only; the numeric value is irrelevant here).  An IPv4-style final part is
checked with the IPv4 parser and replaced by two dummy hextets, mirroring the
source, which appends the two 16-bit halves in hexadecimal. -/
def ipv6AddrOk (s : PyStr) : Bool :=
  if s.isEmpty then false
  else
    let parts0 := pySplit ':' s
    if parts0.length < 3 then false
    else
      let lastP := parts0.getLast?.getD []
      let hasV4 := lastP.contains '.'
      if hasV4 && !ipv4Ok lastP then false
      else
        let parts := if hasV4 then parts0.dropLast ++ [['0'], ['0']] else parts0
        if 9 < parts.length then false
        else
          let empties := (List.range parts.length).filter
            (fun i => decide (0 < i) && decide (i + 1 < parts.length) &&
              (parts.getD i [' ']).isEmpty)
          match empties with
          | [] =>
            decide (parts.length = 8) && !(parts.getD 0 [' ']).isEmpty &&
              !(parts.getLast?.getD [' ']).isEmpty && parts.all parseHextetOk
          | [i] =>
            let firstEmpty := (parts.getD 0 [' ']).isEmpty
            let lastEmpty := (parts.getLast?.getD [' ']).isEmpty
            let hi := if firstEmpty then i - 1 else i
            let lo0 := parts.length - i - 1
            let lo := if lastEmpty then lo0 - 1 else lo0
            (!firstEmpty || decide (hi = 0)) && (!lastEmpty || decide (lo = 0)) &&
              decide (hi + lo + 1 ≤ 8) && (parts.take hi).all parseHextetOk &&
              (parts.drop (parts.length - lo)).all parseHextetOk
          | _ => false

/-- Python `ipaddress.IPv6Address(str)` succeeds: no `/`, optional non-empty
scope id after the first `%` (itself free of `%`), and a valid address
part. -/
def ipv6Ok (s : PyStr) : Bool :=
  !s.contains '/' &&
    match splitOnceChar '%' s with
    | some (addr, scope) => !scope.isEmpty && !scope.contains '%' && ipv6AddrOk addr
    | none => ipv6AddrOk s

/-- Python `urllib.parse._check_bracketed_host` does not raise: an IPvFuture
literal `v` + hex digits + `.` + non-empty remainder (`re.match` with a `.`
that does not cross newlines), or a valid IPv6 address that is not an IPv4
address. -/
def bracketedHostOk (h : PyStr) : Bool :=
  if h.take 1 = ['v'] then
    let sp := (h.drop 1).span (fun c => decide (IsHexPy c))
    !sp.1.isEmpty && sp.2.take 1 == ['.'] && !(sp.2.drop 1).isEmpty &&
      !(sp.2.drop 1).contains '\n'
  else !ipv4Ok h && ipv6Ok h

/-- Text between the first `[` of a netloc and the following `]`
(`netloc.partition('[')[2].partition(']')[0]`). -/
def bracketedHostOf (netloc : PyStr) : PyStr :=
  match splitOnceChar '[' netloc with
  | none => []
  | some (_, post) =>
    match splitOnceChar ']' post with
    | none => post
    | some (h, _) => h

/-- Scheme extraction of `urlsplit`: the text before the first `:` is taken as
the scheme when it is non-empty, starts with an ASCII letter, and consists of
scheme characters only; it is then lowercased. -/
def extractScheme (url : PyStr) : Option (PyStr × PyStr) :=
  match splitOnceChar ':' url with
  | none => none
  | some ([], _) => none
  | some (c :: pre, rest) =>
    if c.toNat ≤ 127 ∧ c.isAlpha = true ∧ ∀ x ∈ c :: pre, x ∈ schemeChars then
      some ((c :: pre).map Char.toLower, rest)
    else none

/-- Python `urllib.parse._splitnetloc(url, 2)`, applied to the text after the
leading `//`: the netloc extends to the first `/`, `?` or `#`. -/
def splitNetloc (s : PyStr) : PyStr × PyStr :=
  s.span (fun c => ¬(c = '/' ∨ c = '?' ∨ c = '#'))

/-- Result record of `urlsplit`. -/
structure SplitResult where
  scheme : PyStr
  netloc : PyStr
  path : PyStr
  query : PyStr
  fragment : PyStr
deriving DecidableEq

/-- Python `urllib.parse.urlsplit` (CPython 3.11.6, `allow_fragments=True`):
WHATWG strip of leading C0-control/space characters, tab/CR/LF removal,
scheme extraction, netloc extraction with the unmatched-bracket and
bracketed-host `ValueError`s (modelled as `none`), fragment split at the
first `#`, query split at the first `?`.  The NFKC check of `_checknetloc`
never raises for ASCII netlocs and is modelled as a no-op (NFKC is treated as
the identity). -/
def urlsplitRest (scheme rest : PyStr) : Option SplitResult :=
  let np := if rest.take 2 = ['/', '/'] then splitNetloc (rest.drop 2)
    else (([] : PyStr), rest)
  if ('[' ∈ np.1 ∧ ']' ∉ np.1) ∨ (']' ∈ np.1 ∧ '[' ∉ np.1) then none
  else if '[' ∈ np.1 ∧ ']' ∈ np.1 ∧ ¬ bracketedHostOk (bracketedHostOf np.1) then none
  else
    let fr := match splitOnceChar '#' np.2 with
      | some p => p
      | none => (np.2, ([] : PyStr))
    let qr := match splitOnceChar '?' fr.1 with
      | some p => p
      | none => (fr.1, ([] : PyStr))
    some ⟨scheme, np.1, qr.1, qr.2, fr.2⟩

/-- The WHATWG strip of leading C0-control/space characters and the removal
of tab, CR and LF performed at the start of `urlsplit`. -/
def whatwgClean (u : PyStr) : PyStr :=
  (u.dropWhile (fun c => c.toNat ≤ 32)).filter
    (fun c => ¬(c = '\t' ∨ c = '\r' ∨ c = '\n'))

/-- The WHATWG strip, tab/CR/LF removal and scheme extraction of `urlsplit`,
followed by `urlsplitRest`. -/
def urlsplit (url0 : PyStr) : Option SplitResult :=
  let url1 := whatwgClean url0
  match extractScheme url1 with
  | some p => urlsplitRest p.1 p.2
  | none => urlsplitRest [] url1

/-- Result record of `urlparse`. -/
structure ParseResult where
  scheme : PyStr
  netloc : PyStr
  path : PyStr
  params : PyStr
  query : PyStr
  fragment : PyStr
deriving DecidableEq

/-- Python `urllib.parse._splitparams`: split the last path segment at its
first `;`. -/
def splitparams (url : PyStr) : PyStr × PyStr :=
  if '/' ∈ url then
    match splitLastChar '/' url with
    | some (a, b) =>
      match splitOnceChar ';' b with
      | some (b1, b2) => (a ++ '/' :: b1, b2)
      | none => (url, [])
    | none => (url, [])
  else
    match splitOnceChar ';' url with
    | some (a, b) => (a, b)
    | none => (url, [])

/-- The parameter-splitting step of `urlparse`: split only for schemes in
`uses_params` and paths containing `;`. -/
def splitParamsGuarded (scheme url : PyStr) : PyStr × PyStr :=
  if scheme ∈ usesParams ∧ ';' ∈ url then splitparams url else (url, [])

/-- Python `urllib.parse.urlparse`: `urlsplit` plus parameter splitting for
schemes in `uses_params`. -/
def urlparse (url : PyStr) : Option ParseResult :=
  (urlsplit url).map fun r =>
    ⟨r.scheme, r.netloc, (splitParamsGuarded r.scheme r.path).1,
      (splitParamsGuarded r.scheme r.path).2, r.query, r.fragment⟩

/-- Python `urllib.parse.urlunsplit` (CPython 3.11.6). -/
def urlunsplit (scheme netloc url query fragment : PyStr) : PyStr :=
  let url1 :=
    if netloc ≠ [] ∨ (scheme ≠ [] ∧ scheme ∈ usesNetloc ∧ url.take 2 ≠ ['/', '/']) then
      '/' :: '/' :: (netloc ++ (if url ≠ [] ∧ url.take 1 ≠ ['/'] then '/' :: url else url))
    else url
  let url2 := if scheme ≠ [] then scheme ++ ':' :: url1 else url1
  let url3 := if query ≠ [] then url2 ++ '?' :: query else url2
  if fragment ≠ [] then url3 ++ '#' :: fragment else url3

/-- The path/params rejoining of `urlunparse`. -/
def rejoinParams (path params : PyStr) : PyStr :=
  if params ≠ [] then path ++ ';' :: params else path

/-- Python `urllib.parse.urlunparse`: rejoin path and params, then
`urlunsplit`. -/
def urlunparse (p : ParseResult) : PyStr :=
  urlunsplit p.scheme p.netloc (rejoinParams p.path p.params) p.query p.fragment

/-- The URL normalizer of NoteKeep (`normalize_url` in `app/crud.py`): parse,
drop the tracking keys from the query, reassemble; return the input unchanged
when there is no query or when parsing raises. -/
def normalize_url_list (url : PyStr) : PyStr :=
  match urlparse url with
  | none => url
  | some p =>
    if p.query = [] then url
    else
      let params := parse_qs p.query
      let filtered := params.filter (fun kv => kv.1 ∉ UTM_PARAMS)
      let newQuery := if filtered ≠ [] then urlencode filtered else []
      urlunparse ⟨p.scheme, p.netloc, p.path, p.params, newQuery, p.fragment⟩

/-- String-level wrapper of `normalize_url_list`. -/
def normalize_url (s : String) : String := ⟨normalize_url_list s.data⟩

/-! Inversion and evaluation lemmas for the URL parser, used to prove the
normalization properties. -/

theorem extractScheme_some_inv (s sc rest : PyStr)
    (h : extractScheme s = some (sc, rest)) :
    ∃ a, s = a ++ ':' :: rest ∧ ':' ∉ a ∧ a ≠ [] ∧
      (∀ c t, a = c :: t → c.toNat ≤ 127 ∧ c.isAlpha = true) ∧
      (∀ x ∈ a, x ∈ schemeChars) ∧ sc = a.map Char.toLower := by
  unfold extractScheme at h
  cases hsp : splitOnceChar ':' s with
  | none => rw [hsp] at h; simp at h
  | some p =>
    obtain ⟨a, b⟩ := p
    rw [hsp] at h
    obtain ⟨hs, hna⟩ := splitOnceChar_eq_some ':' s a b hsp
    cases a with
    | nil => simp at h
    | cons c t =>
      dsimp only [] at h
      split at h
      · rename_i hcond
        simp only [Option.some.injEq, Prod.mk.injEq] at h
        obtain ⟨h1, h2⟩ := h
        subst h2
        refine ⟨c :: t, hs, hna, by simp, ?_, hcond.2.2, h1.symm⟩
        intro c' t' he
        injection he with he1 he2
        subst he1
        exact ⟨hcond.1, hcond.2.1⟩
      · simp at h

theorem extractScheme_none_of_no_colon (s : PyStr) (h : ':' ∉ s) :
    extractScheme s = none := by
  unfold extractScheme
  rw [(splitOnceChar_eq_none_iff ':' s).mpr h]

/-- Whether `extractScheme` rejects a string depends only on the text before
the first colon. -/
theorem extractScheme_none_iff_decomp (a b : PyStr) (hna : ':' ∉ a) :
    extractScheme (a ++ ':' :: b) = none ↔
      (a = [] ∨ ∀ c t, a = c :: t →
        ¬(c.toNat ≤ 127 ∧ c.isAlpha = true ∧ ∀ x ∈ c :: t, x ∈ schemeChars)) := by
  unfold extractScheme
  rw [splitOnceChar_append ':' a b hna]
  cases a with
  | nil => simp
  | cons c t =>
    dsimp only []
    constructor
    · intro h
      refine Or.inr fun c' t' he hguard => ?_
      injection he with he1 he2
      subst he1; subst he2
      rw [if_pos hguard] at h
      simp at h
    · intro h
      rcases h with h | h
      · simp at h
      · rw [if_neg (h c t rfl)]

theorem extractScheme_none_of_bad (a b : PyStr) (hna : ':' ∉ a)
    (hbad : ∃ x ∈ a, x ∉ schemeChars) :
    extractScheme (a ++ ':' :: b) = none := by
  rw [extractScheme_none_iff_decomp a b hna]
  refine Or.inr fun c t he hguard => ?_
  obtain ⟨x, hx, hxn⟩ := hbad
  rw [he] at hx
  exact hxn (hguard.2.2 x hx)

theorem extractScheme_head_not_alpha (c : Char) (w : PyStr)
    (hc : ¬(c.toNat ≤ 127 ∧ c.isAlpha = true)) :
    extractScheme (c :: w) = none := by
  unfold extractScheme
  cases hsp : splitOnceChar ':' (c :: w) with
  | none => rfl
  | some p =>
    obtain ⟨a, b⟩ := p
    obtain ⟨hs, hna⟩ := splitOnceChar_eq_some ':' (c :: w) a b hsp
    cases a with
    | nil => rfl
    | cons a0 t =>
      dsimp only []
      rw [List.cons_append] at hs
      injection hs with hs1 hs2
      subst hs1
      rw [if_neg]
      rintro ⟨h1, h2, h3⟩
      exact hc ⟨h1, h2⟩

theorem extractScheme_valid (s rest : PyStr) (hne : s ≠ [])
    (hhead : ∀ c t, s = c :: t → c.toNat ≤ 127 ∧ c.isAlpha = true)
    (hchars : ∀ x ∈ s, x ∈ schemeChars) (hlower : s.map Char.toLower = s) :
    extractScheme (s ++ ':' :: rest) = some (s, rest) := by
  have hnc : ':' ∉ s := by
    intro hmem
    have := hchars ':' hmem
    revert this
    decide
  unfold extractScheme
  rw [splitOnceChar_append ':' s rest hnc]
  cases s with
  | nil => exact absurd rfl hne
  | cons c t =>
    dsimp only []
    rw [if_pos ⟨(hhead c t rfl).1, (hhead c t rfl).2, hchars⟩, hlower]

/-- Characters of `schemeChars` stay in `schemeChars` under lowering, lowering
is idempotent on them, and lowering preserves the ASCII-alpha head
condition. -/
theorem schemeChars_toLower : ∀ x ∈ schemeChars,
    Char.toLower x ∈ schemeChars ∧ Char.toLower (Char.toLower x) = Char.toLower x ∧
      (x.isAlpha = true → (Char.toLower x).toNat ≤ 127 ∧ (Char.toLower x).isAlpha = true) := by
  decide

theorem takeWhile_append_of (p : Char → Bool) (a b : PyStr) (ha : ∀ c ∈ a, p c = true)
    (hb : ∀ hd tl, b = hd :: tl → p hd = false) : (a ++ b).takeWhile p = a := by
  rw [List.takeWhile_append_of_pos ha]
  cases b with
  | nil => simp
  | cons hd tl => simp [List.takeWhile_cons, hb hd tl rfl]

theorem dropWhile_append_of (p : Char → Bool) (a b : PyStr) (ha : ∀ c ∈ a, p c = true)
    (hb : ∀ hd tl, b = hd :: tl → p hd = false) : (a ++ b).dropWhile p = b := by
  rw [List.dropWhile_append_of_pos ha]
  cases b with
  | nil => rfl
  | cons hd tl => simp [List.dropWhile_cons, hb hd tl rfl]

theorem span_append_eval (p : Char → Bool) (a b : PyStr) (ha : ∀ c ∈ a, p c = true)
    (hb : ∀ hd tl, b = hd :: tl → p hd = false) :
    (a ++ b).span p = (a, b) := by
  rw [List.span_eq_take_drop, takeWhile_append_of p a b ha hb,
    dropWhile_append_of p a b ha hb]

theorem filter_eq_self_of (p : Char → Bool) (w : PyStr) (h : ∀ c ∈ w, p c = true) :
    w.filter p = w := List.filter_eq_self.mpr h

theorem dropWhile_eq_self_of (p : Char → Bool) (w : PyStr)
    (h : ∀ hd tl, w = hd :: tl → p hd = false) : w.dropWhile p = w := by
  cases w with
  | nil => rfl
  | cons hd tl => simp [List.dropWhile_cons, h hd tl rfl]

theorem dropWhile_head_false (p : Char → Bool) (s : PyStr) (hd : Char) (tl : PyStr)
    (h : s.dropWhile p = hd :: tl) : p hd = false := by
  induction s with
  | nil => simp at h
  | cons c cs ih =>
    rw [List.dropWhile_cons] at h
    by_cases hc : p c = true
    · rw [if_pos hc] at h; exact ih h
    · rw [if_neg hc] at h
      injection h with h1 h2
      subst h1
      simp only [Bool.not_eq_true] at hc
      exact hc

theorem splitNetloc_inv (s a b : PyStr) (h : splitNetloc s = (a, b)) :
    s = a ++ b ∧ (∀ c ∈ a, ¬(c = '/' ∨ c = '?' ∨ c = '#')) ∧
      (∀ hd tl, b = hd :: tl → (hd = '/' ∨ hd = '?' ∨ hd = '#')) := by
  unfold splitNetloc at h
  rw [List.span_eq_take_drop] at h
  injection h with h1 h2
  subst h1; subst h2
  refine ⟨(List.takeWhile_append_dropWhile _ s).symm, ?_, ?_⟩
  · intro c hc
    have := List.mem_takeWhile_imp hc
    simpa using this
  · intro hd tl hb
    have := dropWhile_head_false _ s hd tl hb
    exact not_not.mp (of_decide_eq_false this)

/-- Inversion of a successful `urlsplitRest`: the intermediate strings and the
branch taken at every stage. -/
theorem urlsplitRest_inv (sc rest : PyStr) (r : SplitResult)
    (h : urlsplitRest sc rest = some r) :
    ∃ u3 u4, r.scheme = sc ∧
      ((rest.take 2 = ['/', '/'] ∧ splitNetloc (rest.drop 2) = (r.netloc, u3)) ∨
        (rest.take 2 ≠ ['/', '/'] ∧ r.netloc = [] ∧ u3 = rest)) ∧
      ¬(('[' ∈ r.netloc ∧ ']' ∉ r.netloc) ∨ (']' ∈ r.netloc ∧ '[' ∉ r.netloc)) ∧
      ¬('[' ∈ r.netloc ∧ ']' ∈ r.netloc ∧ ¬ bracketedHostOk (bracketedHostOf r.netloc)) ∧
      (splitOnceChar '#' u3 = some (u4, r.fragment) ∨
        (splitOnceChar '#' u3 = none ∧ u4 = u3 ∧ r.fragment = [])) ∧
      (splitOnceChar '?' u4 = some (r.path, r.query) ∨
        (splitOnceChar '?' u4 = none ∧ r.path = u4 ∧ r.query = [])) := by
  rw [urlsplitRest.eq_def] at h
  dsimp only [] at h
  by_cases hnp : rest.take 2 = ['/', '/']
  · rw [if_pos hnp] at h
    cases hsnl : splitNetloc (rest.drop 2) with
    | mk nl u3 =>
      rw [hsnl] at h
      dsimp only [] at h
      by_cases hbr1 : ('[' ∈ nl ∧ ']' ∉ nl) ∨ (']' ∈ nl ∧ '[' ∉ nl)
      · rw [if_pos hbr1] at h; simp at h
      rw [if_neg hbr1] at h
      by_cases hbr2 : '[' ∈ nl ∧ ']' ∈ nl ∧ ¬ bracketedHostOk (bracketedHostOf nl)
      · rw [if_pos hbr2] at h; simp at h
      rw [if_neg hbr2] at h
      cases hfr : splitOnceChar '#' u3 with
      | some pf =>
        obtain ⟨u4, f⟩ := pf
        rw [hfr] at h
        dsimp only [] at h
        cases hqr : splitOnceChar '?' u4 with
        | some pq =>
          obtain ⟨pa, q⟩ := pq
          rw [hqr] at h
          dsimp only [] at h
          injection h with h2
          subst h2
          exact ⟨u3, u4, rfl, Or.inl ⟨hnp, rfl⟩, hbr1, hbr2, Or.inl hfr, Or.inl hqr⟩
        | none =>
          rw [hqr] at h
          dsimp only [] at h
          injection h with h2
          subst h2
          exact ⟨u3, u4, rfl, Or.inl ⟨hnp, rfl⟩, hbr1, hbr2, Or.inl hfr,
            Or.inr ⟨hqr, rfl, rfl⟩⟩
      | none =>
        rw [hfr] at h
        dsimp only [] at h
        cases hqr : splitOnceChar '?' u3 with
        | some pq =>
          obtain ⟨pa, q⟩ := pq
          rw [hqr] at h
          dsimp only [] at h
          injection h with h2
          subst h2
          exact ⟨u3, u3, rfl, Or.inl ⟨hnp, rfl⟩, hbr1, hbr2,
            Or.inr ⟨hfr, rfl, rfl⟩, Or.inl hqr⟩
        | none =>
          rw [hqr] at h
          dsimp only [] at h
          injection h with h2
          subst h2
          exact ⟨u3, u3, rfl, Or.inl ⟨hnp, rfl⟩, hbr1, hbr2,
            Or.inr ⟨hfr, rfl, rfl⟩, Or.inr ⟨hqr, rfl, rfl⟩⟩
  · rw [if_neg hnp] at h
    dsimp only [] at h
    rw [if_neg (by simp), if_neg (by simp)] at h
    cases hfr : splitOnceChar '#' rest with
    | some pf =>
      obtain ⟨u4, f⟩ := pf
      rw [hfr] at h
      dsimp only [] at h
      cases hqr : splitOnceChar '?' u4 with
      | some pq =>
        obtain ⟨pa, q⟩ := pq
        rw [hqr] at h
        dsimp only [] at h
        injection h with h2
        subst h2
        exact ⟨rest, u4, rfl, Or.inr ⟨hnp, rfl, rfl⟩, by simp, by simp,
          Or.inl hfr, Or.inl hqr⟩
      | none =>
        rw [hqr] at h
        dsimp only [] at h
        injection h with h2
        subst h2
        exact ⟨rest, u4, rfl, Or.inr ⟨hnp, rfl, rfl⟩, by simp, by simp,
          Or.inl hfr, Or.inr ⟨hqr, rfl, rfl⟩⟩
    | none =>
      rw [hfr] at h
      dsimp only [] at h
      cases hqr : splitOnceChar '?' rest with
      | some pq =>
        obtain ⟨pa, q⟩ := pq
        rw [hqr] at h
        dsimp only [] at h
        injection h with h2
        subst h2
        exact ⟨rest, rest, rfl, Or.inr ⟨hnp, rfl, rfl⟩, by simp, by simp,
          Or.inr ⟨hfr, rfl, rfl⟩, Or.inl hqr⟩
      | none =>
        rw [hqr] at h
        dsimp only [] at h
        injection h with h2
        subst h2
        exact ⟨rest, rest, rfl, Or.inr ⟨hnp, rfl, rfl⟩, by simp, by simp,
          Or.inr ⟨hfr, rfl, rfl⟩, Or.inr ⟨hqr, rfl, rfl⟩⟩

/-- Inversion of a successful `urlsplit` into the scheme stage and
`urlsplitRest`. -/
theorem urlsplit_inv (u : PyStr) (r : SplitResult) (h : urlsplit u = some r) :
    ∃ rest2,
      (extractScheme (whatwgClean u) = some (r.scheme, rest2) ∨
        (extractScheme (whatwgClean u) = none ∧ r.scheme = [] ∧
          rest2 = whatwgClean u)) ∧
      urlsplitRest r.scheme rest2 = some r := by
  rw [urlsplit.eq_def] at h
  set u1 := whatwgClean u with hu1
  dsimp only [] at h
  cases hsc : extractScheme u1 with
  | some p =>
    obtain ⟨sc, rest2⟩ := p
    rw [hsc] at h
    dsimp only [] at h
    obtain ⟨u3, u4, hscheme, -⟩ := urlsplitRest_inv sc rest2 r h
    subst hscheme
    exact ⟨rest2, Or.inl rfl, h⟩
  | none =>
    rw [hsc] at h
    dsimp only [] at h
    obtain ⟨u3, u4, hscheme, -⟩ := urlsplitRest_inv [] u1 r h
    refine ⟨u1, Or.inr ⟨rfl, hscheme, rfl⟩, ?_⟩
    rw [hscheme]
    exact h

/-! Stability of the path/params split-and-rejoin round trip. -/

/-- `urlparse`'s params split rejoined by `urlunparse`'s `rejoinParams`. -/
def paramsNormal (s w : PyStr) : PyStr :=
  rejoinParams (splitParamsGuarded s w).1 (splitParamsGuarded s w).2

theorem splitOnceChar_isSome_of_mem (d : Char) (s : PyStr) (h : d ∈ s) :
    ∃ a b, splitOnceChar d s = some (a, b) := by
  cases hx : splitOnceChar d s with
  | none => exact absurd h ((splitOnceChar_eq_none_iff d s).mp hx)
  | some p =>
    obtain ⟨a, b⟩ := p
    exact ⟨a, b, rfl⟩

theorem splitLastChar_isSome_of_mem (d : Char) (s : PyStr) (h : d ∈ s) :
    ∃ a b, splitLastChar d s = some (a, b) := by
  cases hx : splitLastChar d s with
  | none => exact absurd h ((splitLastChar_eq_none_iff d s).mp hx)
  | some p =>
    obtain ⟨a, b⟩ := p
    exact ⟨a, b, rfl⟩

/-- `paramsNormal` returns its input, or its input less a trailing `;`. -/
theorem paramsNormal_trail (s w : PyStr) :
    ∃ z, paramsNormal s w ++ z = w ∧ (z = [] ∨ z = [';']) := by
  unfold paramsNormal splitParamsGuarded
  by_cases hg : s ∈ usesParams ∧ ';' ∈ w
  · rw [if_pos hg]
    rw [splitparams.eq_def]
    by_cases hsl : '/' ∈ w
    · rw [if_pos hsl]
      obtain ⟨a, b, hL⟩ := splitLastChar_isSome_of_mem '/' w hsl
      obtain ⟨hw, hnb⟩ := splitLastChar_eq_some '/' w a b hL
      rw [hL]
      try dsimp only []
      cases hS : splitOnceChar ';' b with
      | none =>
        try dsimp only []
        exact ⟨[], by simp [rejoinParams], Or.inl rfl⟩
      | some pxy =>
        obtain ⟨x, y⟩ := pxy
        obtain ⟨hb, hnx⟩ := splitOnceChar_eq_some ';' b x y hS
        try dsimp only []
        by_cases hy : y = []
        · subst hy
          refine ⟨[';'], ?_, Or.inr rfl⟩
          rw [rejoinParams, if_neg (by simp)]
          rw [hw, hb]
          simp
        · refine ⟨[], ?_, Or.inl rfl⟩
          rw [rejoinParams, if_pos (by simpa using hy)]
          rw [hw, hb]
          simp
    · rw [if_neg hsl]
      obtain ⟨x, y, hS⟩ := splitOnceChar_isSome_of_mem ';' w hg.2
      obtain ⟨hb, hnx⟩ := splitOnceChar_eq_some ';' w x y hS
      rw [hS]
      try dsimp only []
      by_cases hy : y = []
      · subst hy
        refine ⟨[';'], ?_, Or.inr rfl⟩
        rw [rejoinParams, if_neg (by simp)]
        rw [hb]
      · refine ⟨[], ?_, Or.inl rfl⟩
        rw [rejoinParams, if_pos (by simpa using hy)]
        rw [hb]
        simp
  · rw [if_neg hg]
    exact ⟨[], by simp [rejoinParams], Or.inl rfl⟩

/-- `paramsNormal` is idempotent. -/
theorem paramsNormal_idem (s w : PyStr) :
    paramsNormal s (paramsNormal s w) = paramsNormal s w := by
  by_cases hg : s ∈ usesParams ∧ ';' ∈ w
  case neg =>
    have hjw : paramsNormal s w = w := by
      unfold paramsNormal splitParamsGuarded
      rw [if_neg hg]
      simp [rejoinParams]
    rw [hjw, hjw]
  case pos =>
  have hguard : ∀ v : PyStr, (splitParamsGuarded s v).1 = v ∧ (splitParamsGuarded s v).2 = [] →
      paramsNormal s v = v := by
    intro v hv
    unfold paramsNormal
    rw [hv.1, hv.2]
    simp [rejoinParams]
  have hjdef : paramsNormal s w =
      rejoinParams (splitParamsGuarded s w).1 (splitParamsGuarded s w).2 := rfl
  rw [hjdef]
  rw [splitParamsGuarded, if_pos hg, splitparams.eq_def]
  by_cases hsl : '/' ∈ w
  · rw [if_pos hsl]
    obtain ⟨a, b, hL⟩ := splitLastChar_isSome_of_mem '/' w hsl
    obtain ⟨hw, hnb⟩ := splitLastChar_eq_some '/' w a b hL
    rw [hL]
    try dsimp only []
    cases hS : splitOnceChar ';' b with
    | none =>
      try dsimp only []
      rw [rejoinParams, if_neg (by simp)]
      try dsimp only []
      unfold paramsNormal splitParamsGuarded
      rw [if_pos hg, splitparams.eq_def, if_pos hsl, hL]
      try dsimp only []
      rw [hS]
      try dsimp only []
      simp [rejoinParams]
    | some pxy =>
      obtain ⟨x, y⟩ := pxy
      obtain ⟨hb, hnx⟩ := splitOnceChar_eq_some ';' b x y hS
      try dsimp only []
      by_cases hy : y = []
      · subst hy
        rw [rejoinParams, if_neg (by simp)]
        try dsimp only []
        have hnsx : ';' ∉ ('/' :: x : PyStr) := by
          simp only [List.mem_cons, not_or]
          exact ⟨by decide, hnx⟩
        have hnbx : '/' ∉ x := by
          intro hmem
          exact hnb (hb ▸ List.mem_append_left _ hmem)
        by_cases hsa : ';' ∈ a
        · have hmem2 : ';' ∈ (a ++ '/' :: x : PyStr) := List.mem_append_left _ hsa
          unfold paramsNormal splitParamsGuarded
          rw [if_pos ⟨hg.1, hmem2⟩, splitparams.eq_def,
            if_pos (List.mem_append_right a (List.mem_cons_self '/' x)),
            splitLastChar_append '/' a x hnbx]
          try dsimp only []
          rw [(splitOnceChar_eq_none_iff ';' x).mpr hnx]
          try dsimp only []
          simp [rejoinParams]
        · have hnsj : ';' ∉ (a ++ '/' :: x : PyStr) := by
            intro hmem
            rcases List.mem_append.mp hmem with hmm | hmm
            · exact hsa hmm
            · exact hnsx hmm
          unfold paramsNormal splitParamsGuarded
          rw [if_neg (fun hc => hnsj hc.2)]
          simp [rejoinParams]
      · rw [rejoinParams, if_pos (by simpa using hy)]
        try dsimp only []
        have hwj : a ++ '/' :: x ++ ';' :: y = w := by
          rw [hw, hb]
          simp
        rw [hwj]
        have hjw : paramsNormal s w = w := by
          unfold paramsNormal splitParamsGuarded
          rw [if_pos hg, splitparams.eq_def, if_pos hsl, hL]
          try dsimp only []
          rw [hS]
          try dsimp only []
          rw [rejoinParams, if_pos (by simpa using hy)]
          try dsimp only []
          rw [hwj]
        rw [hjw]
  · rw [if_neg hsl]
    obtain ⟨x, y, hS⟩ := splitOnceChar_isSome_of_mem ';' w hg.2
    obtain ⟨hb, hnx⟩ := splitOnceChar_eq_some ';' w x y hS
    rw [hS]
    try dsimp only []
    by_cases hy : y = []
    · subst hy
      rw [rejoinParams, if_neg (by simp)]
      try dsimp only []
      unfold paramsNormal splitParamsGuarded
      rw [if_neg (fun hc => hnx hc.2)]
      simp [rejoinParams]
    · rw [rejoinParams, if_pos (by simpa using hy)]
      try dsimp only []
      rw [← hb]
      have hjw : paramsNormal s w = w := by
        unfold paramsNormal splitParamsGuarded
        rw [if_pos hg, splitparams.eq_def, if_neg hsl, hS]
        try dsimp only []
        rw [rejoinParams, if_pos (by simpa using hy)]
        try dsimp only []
        rw [← hb]
      rw [hjw]

/-- Prepending a `/` to a `paramsNormal` fixed point gives another fixed
point. -/
theorem paramsNormal_slash (s j : PyStr) (hj : paramsNormal s j = j) :
    paramsNormal s ('/' :: j) = '/' :: j := by
  by_cases hg : s ∈ usesParams ∧ ';' ∈ ('/' :: j : PyStr)
  case neg =>
    unfold paramsNormal splitParamsGuarded
    rw [if_neg hg]
    simp [rejoinParams]
  case pos =>
  have hsem : ';' ∈ j := by
    rcases List.mem_cons.mp hg.2 with hc | hc
    · exact absurd hc (by decide)
    · exact hc
  have hslash : '/' ∈ ('/' :: j : PyStr) := List.mem_cons_self '/' j
  by_cases hslj : '/' ∈ j
  · obtain ⟨aj, bj, hLj⟩ := splitLastChar_isSome_of_mem '/' j hslj
    obtain ⟨hwj, hnbj⟩ := splitLastChar_eq_some '/' j aj bj hLj
    have hLj2 : splitLastChar '/' ('/' :: j) = some ('/' :: aj, bj) := by
      have : ('/' :: j : PyStr) = ('/' :: aj) ++ '/' :: bj := by rw [hwj]; rfl
      rw [this]
      exact splitLastChar_append '/' ('/' :: aj) bj hnbj
    unfold paramsNormal splitParamsGuarded at hj ⊢
    rw [if_pos hg, splitparams.eq_def, if_pos hslash, hLj2]
    rw [if_pos ⟨hg.1, hsem⟩, splitparams.eq_def, if_pos hslj, hLj] at hj
    try dsimp only [] at hj ⊢
    cases hSj : splitOnceChar ';' bj with
    | none =>
      try dsimp only []
      simp [rejoinParams]
    | some pxy =>
      obtain ⟨x, y⟩ := pxy
      obtain ⟨hbj, hnx⟩ := splitOnceChar_eq_some ';' bj x y hSj
      rw [hSj] at hj
      try dsimp only [] at hj ⊢
      by_cases hy : y = []
      · subst hy
        rw [rejoinParams, if_neg (by simp)] at hj
        try dsimp only [] at hj
        have h2 : ('/' :: x : PyStr) = '/' :: bj := List.append_cancel_left (hj.trans hwj)
        have hx : x = bj := by injection h2
        rw [hbj] at hx
        simp at hx
      · rw [rejoinParams, if_pos (by simpa using hy)] at hj
        try dsimp only [] at hj
        rw [rejoinParams, if_pos (by simpa using hy)]
        try dsimp only []
        have : ('/' :: aj) ++ '/' :: x ++ ';' :: y = '/' :: (aj ++ '/' :: x ++ ';' :: y) := by
          simp
        rw [this, hj]
  · have hLj2 : splitLastChar '/' ('/' :: j) = some ([], j) := by
      have : ('/' :: j : PyStr) = ([] : PyStr) ++ '/' :: j := rfl
      rw [this]
      exact splitLastChar_append '/' [] j hslj
    obtain ⟨x, y, hS⟩ := splitOnceChar_isSome_of_mem ';' j hsem
    obtain ⟨hb, hnx⟩ := splitOnceChar_eq_some ';' j x y hS
    unfold paramsNormal splitParamsGuarded at hj ⊢
    rw [if_pos hg, splitparams.eq_def, if_pos hslash, hLj2]
    rw [if_pos ⟨hg.1, hsem⟩, splitparams.eq_def, if_neg hslj, hS] at hj
    try dsimp only [] at hj ⊢
    rw [hS]
    try dsimp only []
    by_cases hy : y = []
    · subst hy
      rw [rejoinParams, if_neg (by simp)] at hj
      try dsimp only [] at hj
      rw [hj] at hb
      simp at hb
    · rw [rejoinParams, if_pos (by simpa using hy)] at hj
      try dsimp only [] at hj
      rw [rejoinParams, if_pos (by simpa using hy)]
      try dsimp only []
      simp only [List.nil_append]
      have : ('/' :: x : PyStr) ++ ';' :: y = '/' :: (x ++ ';' :: y) := by simp
      rw [this, hj]

/-! Character-level facts used by the reassembly proofs. -/

theorem whatwgClean_facts (u : PyStr) :
    (∀ c ∈ whatwgClean u, ¬(c = '\t' ∨ c = '\r' ∨ c = '\n')) ∧
      (∀ hd tl, whatwgClean u = hd :: tl → 32 < hd.toNat) := by
  constructor
  · intro c hc
    unfold whatwgClean at hc
    have := List.of_mem_filter hc
    simpa using this
  · intro hd tl h
    unfold whatwgClean at h
    cases hd2 : u.dropWhile (fun c => c.toNat ≤ 32) with
    | nil => rw [hd2] at h; simp at h
    | cons c cs =>
      have hc := dropWhile_head_false _ u c cs hd2
      have hc32 : ¬ c.toNat ≤ 32 := by simpa using hc
      rw [hd2, List.filter_cons] at h
      rw [if_pos (by
        simp only [decide_eq_true_eq]
        rintro (rfl | rfl | rfl) <;> exact hc32 (by decide))] at h
      injection h with h1 h2
      rw [← h1]
      omega

theorem whatwgClean_eq_self (w : PyStr)
    (h1 : ∀ c ∈ w, ¬(c = '\t' ∨ c = '\r' ∨ c = '\n'))
    (h2 : ∀ hd tl, w = hd :: tl → 32 < hd.toNat) :
    whatwgClean w = w := by
  unfold whatwgClean
  rw [dropWhile_eq_self_of _ w (by
    intro hd tl hw
    have := h2 hd tl hw
    simp only [decide_eq_false_iff_not]
    omega)]
  exact filter_eq_self_of _ w (fun c hc => by simpa using h1 c hc)

theorem alpha_gt32 (c : Char) (h : c.isAlpha = true) : 32 < c.toNat := by
  by_contra hle
  have hsmall : ∀ n < 33, (Char.ofNat n).isAlpha = false := by decide
  have h2 := hsmall c.toNat (by omega)
  rw [Char.ofNat_toNat, h] at h2
  exact absurd h2 (by decide)

theorem schemeChars_facts : ∀ x ∈ schemeChars,
    ¬(x = '\t' ∨ x = '\r' ∨ x = '\n') ∧ ¬(x = '/' ∨ x = '?' ∨ x = '#') ∧
      x ≠ ':' ∧ 32 < x.toNat := by decide

theorem extractScheme_scheme_facts (s sc rest : PyStr)
    (h : extractScheme s = some (sc, rest)) :
    sc ≠ [] ∧ (∀ c t, sc = c :: t → c.toNat ≤ 127 ∧ c.isAlpha = true) ∧
      (∀ x ∈ sc, x ∈ schemeChars) ∧ sc.map Char.toLower = sc := by
  obtain ⟨a, hsu, hna, hane, hahead, hachars, hsc⟩ := extractScheme_some_inv s sc rest h
  subst hsc
  refine ⟨by simpa using hane, ?_, ?_, ?_⟩
  · intro c t hmap
    obtain ⟨a0, a', rfl⟩ := List.exists_cons_of_ne_nil hane
    rw [List.map_cons] at hmap
    injection hmap with h1 h2
    have ha0 := hahead a0 a' rfl
    have hmem := hachars a0 (List.mem_cons_self _ _)
    have hfacts := (schemeChars_toLower a0 hmem).2.2 ha0.2
    exact h1 ▸ hfacts
  · intro x hx
    obtain ⟨y, hy, rfl⟩ := List.mem_map.mp hx
    exact (schemeChars_toLower y (hachars y hy)).1
  · rw [List.map_map]
    apply List.map_congr_left
    intro y hy
    exact (schemeChars_toLower y (hachars y hy)).2.1

theorem urlsplit_eval_some (w sc rest : PyStr) (hcl : whatwgClean w = w)
    (hsc : extractScheme w = some (sc, rest)) :
    urlsplit w = urlsplitRest sc rest := by
  rw [urlsplit.eq_def]
  dsimp only []
  rw [hcl, hsc]

theorem urlsplit_eval_none (w : PyStr) (hcl : whatwgClean w = w)
    (hsc : extractScheme w = none) :
    urlsplit w = urlsplitRest [] w := by
  rw [urlsplit.eq_def]
  dsimp only []
  rw [hcl, hsc]

/-- Evaluation of the fragment split on a composed tail. -/
theorem frSplit_eval (body q f qPart fPart : PyStr)
    (hq : (qPart = [] ∧ q = []) ∨ qPart = '?' :: q)
    (hf : (fPart = [] ∧ f = []) ∨ fPart = '#' :: f)
    (hbody1 : '#' ∉ body) (hqnof : '#' ∉ q) :
    (match splitOnceChar '#' (body ++ qPart ++ fPart) with
      | some p => p
      | none => (body ++ qPart ++ fPart, ([] : PyStr))) = (body ++ qPart, f) := by
  have hnofront : '#' ∉ body ++ qPart := by
    rw [List.mem_append]
    rintro (h | h)
    · exact hbody1 h
    · rcases hq with ⟨rfl, rfl⟩ | rfl
      · simp at h
      · rcases List.mem_cons.mp h with h | h
        · exact absurd h (by decide)
        · exact hqnof h
  rcases hf with ⟨rfl, rfl⟩ | rfl
  · rw [List.append_nil, (splitOnceChar_eq_none_iff '#' _).mpr hnofront]
  · rw [splitOnceChar_append '#' (body ++ qPart) f hnofront]

/-- Evaluation of the query split on a composed tail. -/
theorem qrSplit_eval (body q qPart : PyStr)
    (hq : (qPart = [] ∧ q = []) ∨ qPart = '?' :: q)
    (hbody2 : '?' ∉ body) :
    (match splitOnceChar '?' (body ++ qPart) with
      | some p => p
      | none => (body ++ qPart, ([] : PyStr))) = (body, q) := by
  rcases hq with ⟨rfl, rfl⟩ | rfl
  · rw [List.append_nil, (splitOnceChar_eq_none_iff '?' _).mpr hbody2]
  · rw [splitOnceChar_append '?' body q hbody2]

/-- Evaluation of `urlsplitRest` on a reassembled URL without a netloc
marker. -/
theorem urlsplitRest_eval_nonetloc (sc body q f qPart fPart : PyStr)
    (hq : (qPart = [] ∧ q = []) ∨ qPart = '?' :: q)
    (hf : (fPart = [] ∧ f = []) ∨ fPart = '#' :: f)
    (hbody1 : '#' ∉ body) (hbody2 : '?' ∉ body) (hqnof : '#' ∉ q)
    (htake : (body ++ qPart ++ fPart).take 2 ≠ ['/', '/']) :
    urlsplitRest sc (body ++ qPart ++ fPart) = some ⟨sc, [], body, q, f⟩ := by
  rw [urlsplitRest.eq_def]
  dsimp only []
  rw [if_neg htake]
  dsimp only []
  rw [if_neg (by simp), if_neg (by simp)]
  rw [frSplit_eval body q f qPart fPart hq hf hbody1 hqnof]
  dsimp only []
  rw [qrSplit_eval body q qPart hq hbody2]

/-- Evaluation of `urlsplitRest` on a reassembled URL with a netloc marker. -/
theorem urlsplitRest_eval_netloc (sc n body q f qPart fPart : PyStr)
    (hq : (qPart = [] ∧ q = []) ∨ qPart = '?' :: q)
    (hf : (fPart = [] ∧ f = []) ∨ fPart = '#' :: f)
    (hn : ∀ c ∈ n, ¬(c = '/' ∨ c = '?' ∨ c = '#'))
    (hbr1 : ¬(('[' ∈ n ∧ ']' ∉ n) ∨ (']' ∈ n ∧ '[' ∉ n)))
    (hbr2 : ¬('[' ∈ n ∧ ']' ∈ n ∧ ¬ bracketedHostOk (bracketedHostOf n)))
    (hbody0 : body = [] ∨ ∃ t, body = '/' :: t)
    (hbody1 : '#' ∉ body) (hbody2 : '?' ∉ body) (hqnof : '#' ∉ q) :
    urlsplitRest sc ('/' :: '/' :: (n ++ (body ++ qPart ++ fPart)))
      = some ⟨sc, n, body, q, f⟩ := by
  have hhead : ∀ hd tl, (body ++ qPart ++ fPart) = hd :: tl →
      (hd = '/' ∨ hd = '?' ∨ hd = '#') := by
    intro hd tl hcons
    rcases hbody0 with rfl | ⟨t, rfl⟩
    · rcases hq with ⟨rfl, rfl⟩ | rfl
      · rcases hf with ⟨rfl, rfl⟩ | rfl
        · simp at hcons
        · simp only [List.nil_append] at hcons
          injection hcons with h1 h2
          exact Or.inr (Or.inr h1.symm)
      · simp only [List.nil_append, List.cons_append] at hcons
        injection hcons with h1 h2
        exact Or.inr (Or.inl h1.symm)
    · simp only [List.cons_append] at hcons
      injection hcons with h1 h2
      exact Or.inl h1.symm
  rw [urlsplitRest.eq_def]
  dsimp only []
  have htake : (('/' :: '/' :: (n ++ (body ++ qPart ++ fPart))) : PyStr).take 2
      = ['/', '/'] := rfl
  rw [if_pos htake]
  have hdrop : (('/' :: '/' :: (n ++ (body ++ qPart ++ fPart))) : PyStr).drop 2
      = n ++ (body ++ qPart ++ fPart) := rfl
  rw [hdrop]
  have hspan : splitNetloc (n ++ (body ++ qPart ++ fPart)) = (n, body ++ qPart ++ fPart) := by
    unfold splitNetloc
    apply span_append_eval
    · intro c hc
      simpa using hn c hc
    · intro hd tl hcons
      have := hhead hd tl hcons
      rcases this with rfl | rfl | rfl <;> decide
  rw [hspan]
  dsimp only []
  rw [if_neg hbr1, if_neg hbr2]
  rw [frSplit_eval body q f qPart fPart hq hf hbody1 hqnof]
  dsimp only []
  rw [qrSplit_eval body q qPart hq hbody2]

theorem mem_intersperse_py (sep x : PyStr) (xs : List PyStr) (h : x ∈ xs.intersperse sep) :
    x = sep ∨ x ∈ xs := by
  induction xs with
  | nil => simp at h
  | cons a t ih =>
    cases t with
    | nil =>
      simp only [List.intersperse_single, List.mem_singleton] at h
      exact Or.inr (by simp [h])
    | cons b t2 =>
      rw [List.intersperse_cons₂] at h
      rcases List.mem_cons.mp h with rfl | h
      · exact Or.inr (List.mem_cons_self _ _)
      · rcases List.mem_cons.mp h with rfl | h
        · exact Or.inl rfl
        · rcases ih h with h | h
          · exact Or.inl h
          · exact Or.inr (List.mem_cons_of_mem a h)

theorem mem_urlencode (F : List (PyStr × List PyStr)) (c : Char) (hc : c ∈ urlencode F) :
    EncChar c ∨ c = '&' ∨ c = '=' := by
  unfold urlencode at hc
  rw [List.intercalate] at hc
  rw [List.mem_flatten] at hc
  obtain ⟨l, hl, hcl⟩ := hc
  rcases mem_intersperse_py _ l _ hl with rfl | hl2
  · rcases List.mem_singleton.mp hcl with rfl
    exact Or.inr (Or.inl rfl)
  · rw [List.mem_flatten] at hl2
    obtain ⟨g, hg, hlg⟩ := hl2
    obtain ⟨kv, -, rfl⟩ := List.mem_map.mp hg
    obtain ⟨v, -, rfl⟩ := List.mem_map.mp hlg
    rcases List.mem_append.mp hcl with h | h
    · exact Or.inl (encChar_quote_plus _ c h)
    · rcases List.mem_cons.mp h with rfl | h
      · exact Or.inr (Or.inr rfl)
      · exact Or.inl (encChar_quote_plus _ c h)

theorem rejoinParams_take2 (path params : PyStr)
    (h : (rejoinParams path params).take 2 = ['/', '/']) : path.take 2 = ['/', '/'] := by
  rw [rejoinParams] at h
  by_cases hp : params ≠ []
  · rw [if_pos hp] at h
    cases path with
    | nil => simp at h
    | cons c1 rest =>
      cases rest with
      | nil => simp at h
      | cons c2 rest2 => simpa using h
  · rwa [if_neg hp] at h

theorem urlsplit_mem_clean (u : PyStr) (R : SplitResult) (h : urlsplit u = some R)
    (c : Char) (hc : c ∈ R.netloc ∨ c ∈ R.path ∨ c ∈ R.query ∨ c ∈ R.fragment) :
    c ∈ whatwgClean u := by
  obtain ⟨rest2, hsch, hrest⟩ := urlsplit_inv u R h
  obtain ⟨u3, u4, -, hnp, -, -, hfr, hqr⟩ := urlsplitRest_inv _ _ _ hrest
  have hrest_sub : ∀ x, x ∈ rest2 → x ∈ whatwgClean u := by
    rcases hsch with hs | ⟨-, -, hid⟩
    · obtain ⟨a, hsu, -, -, -, -, -⟩ := extractScheme_some_inv _ _ _ hs
      intro x hx
      rw [hsu]
      exact List.mem_append_right a (List.mem_cons_of_mem ':' hx)
    · exact fun x hx => hid ▸ hx
  have hnet_sub : ∀ x, x ∈ R.netloc → x ∈ whatwgClean u := by
    rcases hnp with ⟨-, hsn⟩ | ⟨-, hnl, -⟩
    · obtain ⟨hsplit, -, -⟩ := splitNetloc_inv _ _ _ hsn
      intro x hx
      apply hrest_sub
      have hdrop : x ∈ rest2.drop 2 := by
        rw [hsplit]
        exact List.mem_append_left _ hx
      exact List.mem_of_mem_drop hdrop
    · intro x hx
      rw [hnl] at hx
      simp at hx
  have hu3_sub : ∀ x, x ∈ u3 → x ∈ whatwgClean u := by
    rcases hnp with ⟨-, hsn⟩ | ⟨-, -, hid⟩
    · obtain ⟨hsplit, -, -⟩ := splitNetloc_inv _ _ _ hsn
      intro x hx
      apply hrest_sub
      have hdrop : x ∈ rest2.drop 2 := by
        rw [hsplit]
        exact List.mem_append_right _ hx
      exact List.mem_of_mem_drop hdrop
    · exact fun x hx => hrest_sub x (hid ▸ hx)
  have hu4_sub : ∀ x, x ∈ u4 → x ∈ whatwgClean u := by
    rcases hfr with hsome | ⟨-, hid, -⟩
    · exact fun x hx => hu3_sub x (mem_of_splitOnceChar_left '#' x u3 u4 R.fragment hsome hx)
    · exact fun x hx => hu3_sub x (hid ▸ hx)
  have hfrag_sub : ∀ x, x ∈ R.fragment → x ∈ whatwgClean u := by
    rcases hfr with hsome | ⟨-, -, hnilf⟩
    · exact fun x hx => hu3_sub x (mem_of_splitOnceChar_right '#' x u3 u4 R.fragment hsome hx)
    · intro x hx
      rw [hnilf] at hx
      simp at hx
  have hpath_sub : ∀ x, x ∈ R.path → x ∈ whatwgClean u := by
    rcases hqr with hsome | ⟨-, hid, -⟩
    · exact fun x hx => hu4_sub x (mem_of_splitOnceChar_left '?' x u4 R.path R.query hsome hx)
    · exact fun x hx => hu4_sub x (hid ▸ hx)
  have hquery_sub : ∀ x, x ∈ R.query → x ∈ whatwgClean u := by
    rcases hqr with hsome | ⟨-, -, hnilq⟩
    · exact fun x hx => hu4_sub x (mem_of_splitOnceChar_right '?' x u4 R.path R.query hsome hx)
    · intro x hx
      rw [hnilq] at hx
      simp at hx
  rcases hc with hc | hc | hc | hc
  · exact hnet_sub c hc
  · exact hpath_sub c hc
  · exact hquery_sub c hc
  · exact hfrag_sub c hc

/-! Auxiliary lemmas for the reassembly proof. -/

theorem urlencode_ne_nil (F : List (PyStr × List PyStr))
    (hvals : ∀ kv ∈ F, kv.2 ≠ []) (hF : F ≠ []) : urlencode F ≠ [] := by
  unfold urlencode
  set pieces := (F.map (fun kv => kv.2.map
    (fun v => quote_plus kv.1 ++ '=' :: quote_plus v))).flatten with hp
  have hpieces_ne : pieces ≠ [] := by
    rw [hp]
    obtain ⟨kv0, F', rfl⟩ := List.exists_cons_of_ne_nil hF
    obtain ⟨v0, vs', hv⟩ := List.exists_cons_of_ne_nil (hvals kv0 (List.mem_cons_self _ _))
    simp [hv]
  obtain ⟨p0, ps', hps⟩ := List.exists_cons_of_ne_nil hpieces_ne
  have hp0 : p0 ≠ [] := by
    intro hnil
    have hmem : p0 ∈ pieces := by rw [hps]; exact List.mem_cons_self _ _
    rw [hp] at hmem
    simp only [List.mem_flatten, List.mem_map] at hmem
    obtain ⟨l, ⟨kv, -, rfl⟩, hpl⟩ := hmem
    obtain ⟨v, -, heq⟩ := List.mem_map.mp hpl
    rw [hnil] at heq
    have := congrArg List.length heq
    simp at this
  rw [hps]
  intro h
  cases ps' with
  | nil =>
    have hsing : List.intercalate ['&'] [p0] = p0 := by
      simp [List.intercalate, List.intersperse]
    rw [hsing] at h
    exact hp0 h
  | cons qq qs =>
    have hcc : List.intercalate ['&'] (p0 :: qq :: qs)
        = p0 ++ '&' :: List.intercalate ['&'] (qq :: qs) := by
      simp [List.intercalate, List.intersperse]
    rw [hcc] at h
    have := congrArg List.length h
    simp at this

theorem encChar_gt32 (c : Char) (h : EncChar c) : 32 < c.toNat := by
  rcases h with rfl | rfl | hsafe
  · decide
  · decide
  · unfold AlwaysSafeByte at hsafe
    omega

theorem urlencode_char_facts (F : List (PyStr × List PyStr)) (c : Char)
    (hc : c ∈ urlencode F) :
    ¬(c = '\t' ∨ c = '\r' ∨ c = '\n') ∧ c ≠ '#' ∧ c ≠ '?' ∧ c ≠ ':' ∧ 32 < c.toNat := by
  rcases mem_urlencode F c hc with h | rfl | rfl
  · have hf := encChar_facts c h
    refine ⟨?_, hf.2.2.1, hf.2.1, hf.2.2.2.1, encChar_gt32 c h⟩
    rintro (rfl | rfl | rfl)
    · exact hf.2.2.2.2.2.2.1 rfl
    · exact hf.2.2.2.2.2.2.2.1 rfl
    · exact hf.2.2.2.2.2.2.2.2.1 rfl
  · exact ⟨by decide, by decide, by decide, by decide, by decide⟩
  · exact ⟨by decide, by decide, by decide, by decide, by decide⟩

theorem take2_append_ne (J X : PyStr) (hJ : J.take 2 ≠ ['/', '/'])
    (hX : ∀ hd tl, X = hd :: tl → hd ≠ '/') : (J ++ X).take 2 ≠ ['/', '/'] := by
  cases J with
  | nil =>
    cases X with
    | nil => simp
    | cons c t =>
      have hne := hX c t rfl
      intro h
      simp only [List.nil_append, List.take_succ_cons, List.cons.injEq] at h
      exact hne h.1
  | cons c1 rest =>
    cases rest with
    | nil =>
      cases X with
      | nil => simp
      | cons c2 t2 =>
        have hne := hX c2 t2 rfl
        intro h
        simp only [List.cons_append, List.nil_append, List.take_succ_cons,
          List.take_zero, List.cons.injEq, and_true] at h
        exact hne h.2
    | cons c2 rest2 =>
      intro h
      apply hJ
      simp only [List.cons_append, List.take_succ_cons, List.take_zero,
        List.cons.injEq, and_true] at h ⊢
      exact h

theorem paramsNormal_nil (s : PyStr) : paramsNormal s [] = [] := by
  unfold paramsNormal splitParamsGuarded
  rw [if_neg (by simp)]
  simp [rejoinParams]

theorem filter_idem_list {α : Type} (p : α → Bool) (l : List α) :
    (l.filter p).filter p = l.filter p := by
  induction l with
  | nil => rfl
  | cons c t ih =>
    by_cases hc : p c = true
    · simp [List.filter_cons, hc, ih]
    · simp [List.filter_cons, hc, ih]

theorem parse_qs_nil : parse_qs [] = [] := rfl

/-- Central reassembly lemma: `urlunsplit` output, built from components
satisfying the invariants that `urlsplit` guarantees, reparses to the same
components (with a possibly `/`-adjusted path) and reassembles identically. -/
theorem reassemble_master (sc n J newQ f : PyStr)
    (hschemeF : sc = [] ∨ (sc ≠ [] ∧
      (∀ c t, sc = c :: t → c.toNat ≤ 127 ∧ c.isAlpha = true) ∧
      (∀ x ∈ sc, x ∈ schemeChars) ∧ sc.map Char.toLower = sc))
    (hnetF : ∀ c ∈ n, ¬(c = '/' ∨ c = '?' ∨ c = '#'))
    (hbr1 : ¬(('[' ∈ n ∧ ']' ∉ n) ∨ (']' ∈ n ∧ '[' ∉ n)))
    (hbr2 : ¬('[' ∈ n ∧ ']' ∈ n ∧ ¬ bracketedHostOk (bracketedHostOf n)))
    (hJfix : paramsNormal sc J = J)
    (hnfJ : '#' ∉ J) (hnqJ : '?' ∉ J)
    (hnone : sc = [] → n = [] → extractScheme (J ++ ((if newQ ≠ [] then '?' :: newQ
      else []) ++ (if f ≠ [] then '#' :: f else []))) = none)
    (hJhead : sc = [] → n = [] → ∀ hd tl, J = hd :: tl → 32 < hd.toNat)
    (htabn : ∀ c ∈ n, ¬(c = '\t' ∨ c = '\r' ∨ c = '\n'))
    (htabJ : ∀ c ∈ J, ¬(c = '\t' ∨ c = '\r' ∨ c = '\n'))
    (htabf : ∀ c ∈ f, ¬(c = '\t' ∨ c = '\r' ∨ c = '\n'))
    (hnewqF : ∀ c ∈ newQ, ¬(c = '\t' ∨ c = '\r' ∨ c = '\n') ∧ c ≠ '#' ∧ 32 < c.toNat)
    (hdegJ : n = [] → J.take 2 ≠ ['/', '/']) :
    ∃ body, urlsplit (urlunsplit sc n J newQ f) = some ⟨sc, n, body, newQ, f⟩ ∧
      paramsNormal sc body = body ∧
      urlunsplit sc n body newQ f = urlunsplit sc n J newQ f := by
  have hP : ∀ (a b : PyStr) (P : Char → Prop), (∀ c ∈ a, P c) → (∀ c ∈ b, P c) →
      ∀ c ∈ a ++ b, P c := by
    intro a b P ha hb c hc
    exact (List.mem_append.mp hc).elim (ha c) (hb c)
  have hqdisj : ((if newQ ≠ [] then '?' :: newQ else ([] : PyStr)) = [] ∧ newQ = []) ∨
      (if newQ ≠ [] then '?' :: newQ else ([] : PyStr)) = '?' :: newQ := by
    by_cases h : newQ = []
    · exact Or.inl ⟨by rw [if_neg (fun hh => hh h)], h⟩
    · exact Or.inr (by rw [if_pos h])
  have hfdisj : ((if f ≠ [] then '#' :: f else ([] : PyStr)) = [] ∧ f = []) ∨
      (if f ≠ [] then '#' :: f else ([] : PyStr)) = '#' :: f := by
    by_cases h : f = []
    · exact Or.inl ⟨by rw [if_neg (fun hh => hh h)], h⟩
    · exact Or.inr (by rw [if_pos h])
  set qPart := (if newQ ≠ [] then '?' :: newQ else ([] : PyStr)) with hqPdef
  set fPart := (if f ≠ [] then '#' :: f else ([] : PyStr)) with hfPdef
  have hqfhead : ∀ hd tl, qPart ++ fPart = hd :: tl → hd ≠ '/' ∧ 32 < hd.toNat := by
    intro hd tl h
    rcases hqdisj with ⟨hqe, -⟩ | hqe
    · rw [hqe, List.nil_append] at h
      rcases hfdisj with ⟨hfe, -⟩ | hfe
      · rw [hfe] at h; simp at h
      · rw [hfe] at h
        injection h with h1 h2
        subst h1
        exact ⟨by decide, by decide⟩
    · rw [hqe] at h
      injection h with h1 h2
      subst h1
      exact ⟨by decide, by decide⟩
  have htabq : ∀ c ∈ qPart, ¬(c = '\t' ∨ c = '\r' ∨ c = '\n') := by
    intro c hc
    rcases hqdisj with ⟨hqe, -⟩ | hqe
    · rw [hqe] at hc; simp at hc
    · rw [hqe] at hc
      rcases List.mem_cons.mp hc with rfl | hc
      · decide
      · exact (hnewqF c hc).1
  have htabfp : ∀ c ∈ fPart, ¬(c = '\t' ∨ c = '\r' ∨ c = '\n') := by
    intro c hc
    rcases hfdisj with ⟨hfe, -⟩ | hfe
    · rw [hfe] at hc; simp at hc
    · rw [hfe] at hc
      rcases List.mem_cons.mp hc with rfl | hc
      · decide
      · exact htabf c hc
  have hnfq : '#' ∉ newQ := fun h => (hnewqF '#' h).2.1 rfl
  have htabsc : ∀ c ∈ sc, ¬(c = '\t' ∨ c = '\r' ∨ c = '\n') := by
    rcases hschemeF with rfl | ⟨-, -, hchars, -⟩
    · simp
    · exact fun c hc => (schemeChars_facts c (hchars c hc)).1
  have hsp : ∀ X : PyStr, (if sc ≠ [] then sc ++ ':' :: X else X)
      = (if sc ≠ [] then sc ++ [':'] else []) ++ X := by
    intro X
    by_cases hsc : sc = []
    · rw [if_neg (fun hh => hh hsc), if_neg (fun hh => hh hsc)]
      simp
    · rw [if_pos hsc, if_pos hsc]
      simp
  have hqlevel : ∀ X : PyStr, (if newQ ≠ [] then X ++ '?' :: newQ else X) = X ++ qPart := by
    intro X
    by_cases h : newQ = []
    · rw [if_neg (fun hh => hh h), hqPdef, if_neg (fun hh => hh h)]
      simp
    · rw [if_pos h, hqPdef, if_pos h]
  have hflevel : ∀ X : PyStr, (if f ≠ [] then X ++ '#' :: f else X) = X ++ fPart := by
    intro X
    by_cases h : f = []
    · rw [if_neg (fun hh => hh h), hfPdef, if_neg (fun hh => hh h)]
      simp
    · rw [if_pos h, hfPdef, if_pos h]
  have htabSP : ∀ c ∈ (if sc ≠ [] then sc ++ [':'] else ([] : PyStr)),
      ¬(c = '\t' ∨ c = '\r' ∨ c = '\n') := by
    by_cases hsc : sc = []
    · rw [if_neg (fun hh => hh hsc)]; simp
    · rw [if_pos hsc]
      apply hP
      · exact htabsc
      · intro c hc
        rw [List.mem_singleton] at hc
        subst hc
        decide
  by_cases hC1 : n ≠ [] ∨ (sc ≠ [] ∧ sc ∈ usesNetloc ∧ J.take 2 ≠ ['/', '/'])
  · -- netloc marker present in the reassembled URL
    set B := (if J ≠ [] ∧ J.take 1 ≠ ['/'] then '/' :: J else J) with hBdef
    have hBshape : B = [] ∨ ∃ t, B = '/' :: t := by
      rw [hBdef]
      by_cases h : J ≠ [] ∧ J.take 1 ≠ ['/']
      · rw [if_pos h]; exact Or.inr ⟨J, rfl⟩
      · rw [if_neg h]
        cases hJcase : J with
        | nil => exact Or.inl rfl
        | cons j0 t =>
          rw [not_and_or] at h
          rcases h with h | h
          · rw [hJcase] at h; simp at h
          · rw [not_not, hJcase] at h
            simp only [List.take_succ_cons, List.take_zero, List.cons.injEq, and_true] at h
            exact Or.inr ⟨t, by rw [h]⟩
    have hBsub : ∀ c ∈ B, c = '/' ∨ c ∈ J := by
      intro c hc
      rw [hBdef] at hc
      by_cases h : J ≠ [] ∧ J.take 1 ≠ ['/']
      · rw [if_pos h] at hc
        rcases List.mem_cons.mp hc with rfl | hc
        · exact Or.inl rfl
        · exact Or.inr hc
      · rw [if_neg h] at hc
        exact Or.inr hc
    have hnfB : '#' ∉ B := by
      intro h
      rcases hBsub '#' h with h | h
      · exact absurd h (by decide)
      · exact hnfJ h
    have hnqB : '?' ∉ B := by
      intro h
      rcases hBsub '?' h with h | h
      · exact absurd h (by decide)
      · exact hnqJ h
    have htabB : ∀ c ∈ B, ¬(c = '\t' ∨ c = '\r' ∨ c = '\n') := by
      intro c hc
      rcases hBsub c hc with rfl | hc
      · decide
      · exact htabJ c hc
    have hBfix : paramsNormal sc B = B := by
      rw [hBdef]
      by_cases h : J ≠ [] ∧ J.take 1 ≠ ['/']
      · rw [if_pos h]; exact paramsNormal_slash sc J hJfix
      · rw [if_neg h]; exact hJfix
    have hBinner : (if B ≠ [] ∧ B.take 1 ≠ ['/'] then '/' :: B else B) = B := by
      rcases hBshape with hB0 | ⟨t, hB0⟩
      · rw [hB0]; simp
      · rw [hB0]
        rw [if_neg]
        rintro ⟨-, h2⟩
        simp at h2
    have hout : urlunsplit sc n J newQ f
        = (if sc ≠ [] then sc ++ [':'] else []) ++
          ('/' :: '/' :: (n ++ (B ++ qPart ++ fPart))) := by
      rw [urlunsplit.eq_def]
      dsimp only []
      rw [if_pos hC1, ← hBdef, hflevel, hqlevel, hsp]
      simp [List.append_assoc]
    have hcl : whatwgClean (urlunsplit sc n J newQ f) = urlunsplit sc n J newQ f := by
      rw [hout]
      apply whatwgClean_eq_self
      · apply hP
        · exact htabSP
        · intro c hc
          rcases List.mem_cons.mp hc with rfl | hc
          · decide
          rcases List.mem_cons.mp hc with rfl | hc
          · decide
          rcases List.mem_append.mp hc with hc | hc
          · exact htabn c hc
          rcases List.mem_append.mp hc with hc | hc
          · rcases List.mem_append.mp hc with hc | hc
            · exact htabB c hc
            · exact htabq c hc
          · exact htabfp c hc
      · intro hd tl h
        by_cases hsc : sc = []
        · rw [if_neg (fun hh => hh hsc), List.nil_append] at h
          injection h with h1 h2
          subst h1
          decide
        · rw [if_pos hsc] at h
          obtain ⟨c0, t0, hsc0⟩ := List.exists_cons_of_ne_nil hsc
          rw [hsc0] at h
          simp only [List.cons_append] at h
          injection h with h1 h2
          subst h1
          rcases hschemeF with h0 | ⟨-, hhead, -, -⟩
          · exact absurd h0 hsc
          · exact alpha_gt32 _ (hhead _ _ hsc0).2
    have hrest : urlsplitRest sc ('/' :: '/' :: (n ++ (B ++ qPart ++ fPart)))
        = some ⟨sc, n, B, newQ, f⟩ :=
      urlsplitRest_eval_netloc sc n B newQ f qPart fPart hqdisj hfdisj hnetF hbr1 hbr2
        hBshape hnfB hnqB hnfq
    have hsplit : urlsplit (urlunsplit sc n J newQ f) = some ⟨sc, n, B, newQ, f⟩ := by
      by_cases hsc : sc = []
      · have hout0 : urlunsplit sc n J newQ f
            = '/' :: '/' :: (n ++ (B ++ qPart ++ fPart)) := by
          rw [hout, if_neg (fun hh => hh hsc), List.nil_append]
        rw [hout0] at hcl ⊢
        rw [urlsplit_eval_none _ hcl (extractScheme_head_not_alpha '/' _ (by decide))]
        rw [hsc] at hrest ⊢
        exact hrest
      · rcases hschemeF with h0 | ⟨-, hhead, hchars, hlow⟩
        · exact absurd h0 hsc
        have houts : urlunsplit sc n J newQ f
            = sc ++ ':' :: ('/' :: '/' :: (n ++ (B ++ qPart ++ fPart))) := by
          rw [hout, if_pos hsc]
          simp
        rw [urlsplit_eval_some _ sc _ hcl (by
          rw [houts]
          exact extractScheme_valid sc _ hsc hhead hchars hlow)]
        exact hrest
    have hC1' : n ≠ [] ∨ (sc ≠ [] ∧ sc ∈ usesNetloc ∧ B.take 2 ≠ ['/', '/']) := by
      rcases hC1 with h | h
      · exact Or.inl h
      · by_cases hn0 : n = []
        · refine Or.inr ⟨h.1, h.2.1, ?_⟩
          have hJ2 := hdegJ hn0
          rw [hBdef]
          by_cases hif : J ≠ [] ∧ J.take 1 ≠ ['/']
          · rw [if_pos hif]
            intro hcontra
            simp only [List.take_succ_cons, List.cons.injEq, true_and] at hcontra
            exact hif.2 hcontra
          · rw [if_neg hif]; exact hJ2
        · exact Or.inl hn0
    have huns : urlunsplit sc n B newQ f = urlunsplit sc n J newQ f := by
      rw [urlunsplit.eq_def, urlunsplit.eq_def]
      dsimp only []
      rw [if_pos hC1', if_pos hC1, hBinner, ← hBdef]
    exact ⟨B, hsplit, hBfix, huns⟩
  · -- no netloc marker in the reassembled URL
    rw [not_or] at hC1
    obtain ⟨hn0', hnosch⟩ := hC1
    have hn0 : n = [] := not_not.mp hn0'
    subst hn0
    have htake : ((J ++ qPart) ++ fPart).take 2 ≠ ['/', '/'] := by
      have h := take2_append_ne J (qPart ++ fPart) (hdegJ rfl)
        (fun hd tl hh => (hqfhead hd tl hh).1)
      intro hcontra
      apply h
      rw [← List.append_assoc]
      exact hcontra
    have hout2 : urlunsplit sc [] J newQ f
        = (if sc ≠ [] then sc ++ [':'] else []) ++ (J ++ qPart ++ fPart) := by
      have hC1f : ¬(([] : PyStr) ≠ [] ∨ (sc ≠ [] ∧ sc ∈ usesNetloc ∧
          J.take 2 ≠ ['/', '/'])) := by
        rw [not_or]
        exact ⟨hn0', hnosch⟩
      rw [urlunsplit.eq_def]
      dsimp only []
      rw [if_neg hC1f, hflevel, hqlevel, hsp]
      simp [List.append_assoc]
    have hcl2 : whatwgClean (urlunsplit sc [] J newQ f) = urlunsplit sc [] J newQ f := by
      rw [hout2]
      apply whatwgClean_eq_self
      · apply hP
        · exact htabSP
        · intro c hc
          rcases List.mem_append.mp hc with hc | hc
          · rcases List.mem_append.mp hc with hc | hc
            · exact htabJ c hc
            · exact htabq c hc
          · exact htabfp c hc
      · intro hd tl h
        by_cases hsc : sc = []
        · rw [if_neg (fun hh => hh hsc), List.nil_append] at h
          cases J with
          | nil =>
            rw [List.nil_append] at h
            exact (hqfhead hd tl h).2
          | cons j0 t =>
            simp only [List.cons_append] at h
            injection h with h1 h2
            subst h1
            exact hJhead hsc rfl _ _ rfl
        · rw [if_pos hsc] at h
          obtain ⟨c0, t0, hsc0⟩ := List.exists_cons_of_ne_nil hsc
          rw [hsc0] at h
          simp only [List.cons_append] at h
          injection h with h1 h2
          subst h1
          rcases hschemeF with h0 | ⟨-, hhead, -, -⟩
          · exact absurd h0 hsc
          · exact alpha_gt32 _ (hhead _ _ hsc0).2
    have hrest2 : urlsplitRest sc (J ++ qPart ++ fPart) = some ⟨sc, [], J, newQ, f⟩ :=
      urlsplitRest_eval_nonetloc sc J newQ f qPart fPart hqdisj hfdisj hnfJ hnqJ hnfq htake
    have hsplit2 : urlsplit (urlunsplit sc [] J newQ f) = some ⟨sc, [], J, newQ, f⟩ := by
      by_cases hsc : sc = []
      · have hout0 : urlunsplit sc [] J newQ f = J ++ qPart ++ fPart := by
          rw [hout2, if_neg (fun hh => hh hsc), List.nil_append]
        rw [hout0] at hcl2 ⊢
        have hnone2 : extractScheme ((J ++ qPart) ++ fPart) = none := by
          have h := hnone hsc rfl
          rw [List.append_assoc]
          exact h
        rw [urlsplit_eval_none _ hcl2 hnone2]
        rw [hsc] at hrest2 ⊢
        exact hrest2
      · rcases hschemeF with h0 | ⟨-, hhead, hchars, hlow⟩
        · exact absurd h0 hsc
        have houts : urlunsplit sc [] J newQ f
            = sc ++ ':' :: (J ++ qPart ++ fPart) := by
          rw [hout2, if_pos hsc]
          simp
        rw [urlsplit_eval_some _ sc _ hcl2 (by
          rw [houts]
          exact extractScheme_valid sc _ hsc hhead hchars hlow)]
        exact hrest2
    exact ⟨J, hsplit2, hJfix, rfl⟩

theorem extractScheme_none_of_split (s a b : PyStr)
    (hsp : splitOnceChar ':' s = some (a, b))
    (hbad : a = [] ∨ ∀ c t, a = c :: t →
      ¬(c.toNat ≤ 127 ∧ c.isAlpha = true ∧ ∀ x ∈ c :: t, x ∈ schemeChars)) :
    extractScheme s = none := by
  unfold extractScheme
  rw [hsp]
  cases a with
  | nil => rfl
  | cons c t =>
    dsimp only []
    rcases hbad with h | h
    · simp at h
    · rw [if_neg (h c t rfl)]

/-- Transfer of scheme rejection: if `J ++ w` has no valid scheme prefix, then
neither does `J` followed by a reassembled query/fragment tail. -/
theorem extractScheme_none_tail (J nq f w : PyStr)
    (hw : extractScheme (J ++ w) = none) (hnqc : ':' ∉ nq) :
    extractScheme (J ++ ((if nq ≠ [] then '?' :: nq else []) ++
      (if f ≠ [] then '#' :: f else []))) = none := by
  have hqdisj : ((if nq ≠ [] then '?' :: nq else ([] : PyStr)) = [] ∧ nq = []) ∨
      (if nq ≠ [] then '?' :: nq else ([] : PyStr)) = '?' :: nq := by
    by_cases h : nq = []
    · exact Or.inl ⟨by rw [if_neg (fun hh => hh h)], h⟩
    · exact Or.inr (by rw [if_pos h])
  have hfdisj : ((if f ≠ [] then '#' :: f else ([] : PyStr)) = [] ∧ f = []) ∨
      (if f ≠ [] then '#' :: f else ([] : PyStr)) = '#' :: f := by
    by_cases h : f = []
    · exact Or.inl ⟨by rw [if_neg (fun hh => hh h)], h⟩
    · exact Or.inr (by rw [if_pos h])
  set qPart := (if nq ≠ [] then '?' :: nq else ([] : PyStr)) with hqPdef
  set fPart := (if f ≠ [] then '#' :: f else ([] : PyStr)) with hfPdef
  have hnq2 : ':' ∉ qPart := by
    intro hmem
    rcases hqdisj with ⟨hqe, -⟩ | hqe
    · rw [hqe] at hmem; simp at hmem
    · rw [hqe] at hmem
      rcases List.mem_cons.mp hmem with h | h
      · exact absurd h (by decide)
      · exact hnqc h
  cases hspl : splitOnceChar ':' (J ++ (qPart ++ fPart)) with
  | none =>
    exact extractScheme_none_of_no_colon _ ((splitOnceChar_eq_none_iff ':' _).mp hspl)
  | some ab =>
    obtain ⟨a', b'⟩ := ab
    obtain ⟨hsplit', hna'⟩ := splitOnceChar_eq_some ':' _ a' b' hspl
    apply extractScheme_none_of_split _ a' b' hspl
    by_cases hcolJ : ':' ∈ J
    · obtain ⟨a, b, hJs⟩ := splitOnceChar_isSome_of_mem ':' J hcolJ
      obtain ⟨hJdec, hna⟩ := splitOnceChar_eq_some ':' J a b hJs
      have hap : J ++ (qPart ++ fPart) = a ++ ':' :: (b ++ (qPart ++ fPart)) := by
        rw [hJdec]; simp
      have hspl2 : splitOnceChar ':' (J ++ (qPart ++ fPart)) = some (a, b ++ (qPart ++ fPart)) := by
        rw [hap]
        exact splitOnceChar_append ':' a _ hna
      rw [hspl] at hspl2
      simp only [Option.some.injEq, Prod.mk.injEq] at hspl2
      obtain ⟨ha, -⟩ := hspl2
      subst ha
      have hapw : J ++ w = a' ++ ':' :: (b ++ w) := by rw [hJdec]; simp
      rw [hapw] at hw
      exact (extractScheme_none_iff_decomp a' _ hna').mp hw
    · rcases List.append_eq_append_iff.mp hsplit' with ⟨w1, haw, htw⟩ | ⟨w1, hJw, hw2⟩
      · have hhash : '#' ∈ w1 := by
          rcases List.append_eq_append_iff.mp htw.symm with ⟨v, hqv, hv2⟩ | ⟨v, hwv, hfv⟩
          · cases v with
            | nil =>
              rw [List.nil_append] at hv2
              rcases hfdisj with ⟨hfe, -⟩ | hfe
              · rw [hfe] at hv2; simp at hv2
              · rw [hfe] at hv2
                injection hv2 with h1 h2
                exact absurd h1 (by decide)
            | cons v0 v' =>
              rw [List.cons_append] at hv2
              injection hv2 with h1 h2
              exfalso
              apply hnq2
              rw [hqv, h1]
              exact List.mem_append_right _ (List.mem_cons_self _ _)
          · cases v with
            | nil =>
              rw [List.nil_append] at hfv
              rcases hfdisj with ⟨hfe, -⟩ | hfe
              · rw [hfe] at hfv; simp at hfv
              · rw [hfe] at hfv
                injection hfv with h1 h2
                exact absurd h1.symm (by decide)
            | cons v0 v' =>
              rcases hfdisj with ⟨hfe, -⟩ | hfe
              · rw [hfe] at hfv; simp at hfv
              · rw [hfe] at hfv
                rw [List.cons_append] at hfv
                injection hfv with h1 h2
                rw [hwv, h1]
                exact List.mem_append_right _ (List.mem_cons_self _ _)
        refine Or.inr fun c t hct hguard => ?_
        have hmem : '#' ∈ a' := by
          rw [haw]
          exact List.mem_append_right _ hhash
        rw [hct] at hmem
        exact absurd (hguard.2.2 '#' hmem) (by decide)
      · cases w1 with
        | nil =>
          rw [List.nil_append] at hw2
          exfalso
          rcases hqdisj with ⟨hqe, -⟩ | hqe
          · rw [hqe, List.nil_append] at hw2
            rcases hfdisj with ⟨hfe, -⟩ | hfe
            · rw [hfe] at hw2; simp at hw2
            · rw [hfe] at hw2
              injection hw2 with h1 h2
              exact absurd h1 (by decide)
          · rw [hqe] at hw2
            rw [List.cons_append] at hw2
            injection hw2 with h1 h2
            exact absurd h1 (by decide)
        | cons w0 w1' =>
          exfalso
          apply hcolJ
          rw [List.cons_append] at hw2
          injection hw2 with h1 h2
          rw [hJw, h1]
          exact List.mem_append_right _ (List.mem_cons_self _ _)

set_option maxHeartbeats 1600000 in
/-- Full behaviour of `normalize_url_list` on a parsed input with a query,
outside the degenerate `netloc = '' ∧ path startswith '//'` class: the output
reparses with the same scheme, netloc and fragment, its query parses to the
filtered parameters, and a second normalization is the identity. -/
theorem normalize_master (u : PyStr) (p : ParseResult)
    (hp : urlparse u = some p) (hq : p.query ≠ [])
    (hdeg : ¬(p.netloc = [] ∧ p.path.take 2 = ['/', '/'])) :
    ∃ p2 : ParseResult, urlparse (normalize_url_list u) = some p2 ∧
      p2.scheme = p.scheme ∧ p2.netloc = p.netloc ∧ p2.fragment = p.fragment ∧
      parse_qs p2.query = (parse_qs p.query).filter (fun kv => kv.1 ∉ UTM_PARAMS) ∧
      normalize_url_list (normalize_url_list u) = normalize_url_list u := by
  cases hsp : urlsplit u with
  | none =>
    rw [urlparse.eq_def, hsp] at hp
    simp at hp
  | some R =>
  have hpu : urlparse u = some ⟨R.scheme, R.netloc, (splitParamsGuarded R.scheme R.path).1,
      (splitParamsGuarded R.scheme R.path).2, R.query, R.fragment⟩ := by
    rw [urlparse.eq_def, hsp]
    rfl
  have hpeq : p = ⟨R.scheme, R.netloc, (splitParamsGuarded R.scheme R.path).1,
      (splitParamsGuarded R.scheme R.path).2, R.query, R.fragment⟩ := by
    rw [hp] at hpu
    injection hpu
  subst hpeq
  dsimp only [] at hq hdeg ⊢
  obtain ⟨rest2, hsch, hrest⟩ := urlsplit_inv u R hsp
  obtain ⟨u3, u4, -, hnp, hbr1, hbr2, hfr, hqr0⟩ := urlsplitRest_inv R.scheme rest2 R hrest
  have hqr := hqr0.resolve_right (fun hB => hq hB.2.2)
  obtain ⟨hu4eq, hnqpath⟩ := splitOnceChar_eq_some '?' u4 R.path R.query hqr
  have hnfu4 : '#' ∉ u4 := by
    rcases hfr with hfr | ⟨hfrn, hfreq, -⟩
    · exact (splitOnceChar_eq_some '#' u3 u4 R.fragment hfr).2
    · rw [hfreq]
      exact (splitOnceChar_eq_none_iff '#' u3).mp hfrn
  have hnfpath : '#' ∉ R.path := by
    intro hmem
    apply hnfu4
    rw [hu4eq]
    exact List.mem_append_left _ hmem
  obtain ⟨z, hJz, hzc⟩ := paramsNormal_trail R.scheme R.path
  have hJsub : ∀ c, c ∈ paramsNormal R.scheme R.path → c ∈ R.path := by
    intro c hc
    rw [← hJz]
    exact List.mem_append_left _ hc
  have hnfJ : '#' ∉ paramsNormal R.scheme R.path := fun h => hnfpath (hJsub _ h)
  have hnqJ : '?' ∉ paramsNormal R.scheme R.path := fun h => hnqpath (hJsub _ h)
  have hcleanF := whatwgClean_facts u
  have htabcomp : ∀ c, (c ∈ R.netloc ∨ c ∈ R.path ∨ c ∈ R.query ∨ c ∈ R.fragment) →
      ¬(c = '\t' ∨ c = '\r' ∨ c = '\n') :=
    fun c hc => hcleanF.1 c (urlsplit_mem_clean u R hsp c hc)
  have hschemeF : R.scheme = [] ∨ (R.scheme ≠ [] ∧
      (∀ c t, R.scheme = c :: t → c.toNat ≤ 127 ∧ c.isAlpha = true) ∧
      (∀ x ∈ R.scheme, x ∈ schemeChars) ∧ R.scheme.map Char.toLower = R.scheme) := by
    rcases hsch with hs | ⟨-, hs0, -⟩
    · obtain ⟨hne, hhead, hchars, hlow⟩ := extractScheme_scheme_facts _ _ _ hs
      exact Or.inr ⟨hne, hhead, hchars, hlow⟩
    · exact Or.inl hs0
  have hnetF : ∀ c ∈ R.netloc, ¬(c = '/' ∨ c = '?' ∨ c = '#') := by
    rcases hnp with ⟨-, hsn⟩ | ⟨-, hnl, -⟩
    · exact (splitNetloc_inv _ _ _ hsn).2.1
    · rw [hnl]; simp
  have hdegJ : R.netloc = [] → (paramsNormal R.scheme R.path).take 2 ≠ ['/', '/'] := by
    intro hn0 hcontra
    unfold paramsNormal at hcontra
    exact hdeg ⟨hn0, rejoinParams_take2 _ _ hcontra⟩
  have hFwf : QsWF ((parse_qs R.query).filter (fun kv => kv.1 ∉ UTM_PARAMS)) :=
    filter_qsWF _ _ (parse_qs_wf R.query)
  have hnewqF : ∀ c ∈ (if ((parse_qs R.query).filter (fun kv => kv.1 ∉ UTM_PARAMS)) ≠ []
      then urlencode ((parse_qs R.query).filter (fun kv => kv.1 ∉ UTM_PARAMS))
      else ([] : PyStr)),
      ¬(c = '\t' ∨ c = '\r' ∨ c = '\n') ∧ c ≠ '#' ∧ 32 < c.toNat := by
    intro c hc
    split at hc
    · have h := urlencode_char_facts _ c hc
      exact ⟨h.1, h.2.1, h.2.2.2.2⟩
    · simp at hc
  have hnqcolon : ':' ∉ (if ((parse_qs R.query).filter (fun kv => kv.1 ∉ UTM_PARAMS)) ≠ []
      then urlencode ((parse_qs R.query).filter (fun kv => kv.1 ∉ UTM_PARAMS))
      else ([] : PyStr)) := by
    intro hc
    split at hc
    · exact (urlencode_char_facts _ ':' hc).2.2.2.1 rfl
    · simp at hc
  have hu4u3 : ∃ t4, u3 = u4 ++ t4 := by
    rcases hfr with hfr | ⟨-, hfreq, -⟩
    · obtain ⟨h1, -⟩ := splitOnceChar_eq_some '#' u3 u4 R.fragment hfr
      exact ⟨'#' :: R.fragment, h1⟩
    · exact ⟨[], by rw [hfreq, List.append_nil]⟩
  have hprefix_or_slash : R.scheme = [] → R.netloc = [] →
      ((∃ t, whatwgClean u = R.path ++ t) ∨ (R.path = [] ∨ ∃ tp, R.path = '/' :: tp)) := by
    intro hs0 hn0
    obtain ⟨t4, hu3t⟩ := hu4u3
    rcases hnp with ⟨-, hsn⟩ | ⟨-, -, hu3r⟩
    · right
      obtain ⟨hsplit, -, hdelim⟩ := splitNetloc_inv _ _ _ hsn
      cases hpc : R.path with
      | nil => exact Or.inl rfl
      | cons p0 pt =>
        right
        have hu3c : u3 = p0 :: (pt ++ '?' :: R.query ++ t4) := by
          rw [hu3t, hu4eq, hpc]
          simp
        have hd := hdelim p0 _ hu3c
        have hp0path : p0 ∈ R.path := by
          rw [hpc]
          exact List.mem_cons_self _ _
        rcases hd with h | h | h
        · exact ⟨pt, by rw [h]⟩
        · rw [h] at hp0path
          exact absurd hp0path hnqpath
        · rw [h] at hp0path
          exact absurd hp0path hnfpath
    · left
      rcases hsch with hs | ⟨-, -, hrest2u1⟩
      · obtain ⟨hne, -, -, -⟩ := extractScheme_scheme_facts _ _ _ hs
        exact absurd hs0 hne
      refine ⟨'?' :: R.query ++ t4, ?_⟩
      rw [← hrest2u1, ← hu3r, hu3t, hu4eq]
      simp
  have hJhead : R.scheme = [] → R.netloc = [] → ∀ hd tl,
      paramsNormal R.scheme R.path = hd :: tl → 32 < hd.toNat := by
    intro hs0 hn0 hd tl hJc
    have hpathc : R.path = hd :: (tl ++ z) := by
      rw [← hJz, hJc]
      simp
    rcases hprefix_or_slash hs0 hn0 with ⟨t, hu1⟩ | hsl
    · apply hcleanF.2 hd ((tl ++ z) ++ t)
      rw [hu1, hpathc]
      simp
    · rcases hsl with hnil | ⟨tp2, hslc⟩
      · rw [hnil] at hpathc
        simp at hpathc
      · rw [hslc] at hpathc
        injection hpathc with h1 h2
        rw [← h1]
        decide
  have hnone : R.scheme = [] → R.netloc = [] →
      extractScheme (paramsNormal R.scheme R.path ++
        ((if (if ((parse_qs R.query).filter (fun kv => kv.1 ∉ UTM_PARAMS)) ≠ []
            then urlencode ((parse_qs R.query).filter (fun kv => kv.1 ∉ UTM_PARAMS))
            else ([] : PyStr)) ≠ []
          then '?' :: (if ((parse_qs R.query).filter (fun kv => kv.1 ∉ UTM_PARAMS)) ≠ []
            then urlencode ((parse_qs R.query).filter (fun kv => kv.1 ∉ UTM_PARAMS))
            else ([] : PyStr))
          else []) ++ (if R.fragment ≠ [] then '#' :: R.fragment else []))) = none := by
    intro hs0 hn0
    rcases hprefix_or_slash hs0 hn0 with ⟨t, hu1⟩ | hsl
    · have hsNone : extractScheme (whatwgClean u) = none := by
        rcases hsch with hs | ⟨hsn2, -, -⟩
        · obtain ⟨hne, -, -, -⟩ := extractScheme_scheme_facts _ _ _ hs
          exact absurd hs0 hne
        · exact hsn2
      have hu1J : whatwgClean u = paramsNormal R.scheme R.path ++ (z ++ t) := by
        rw [hu1, ← List.append_assoc, hJz]
      rw [hu1J] at hsNone
      exact extractScheme_none_tail _ _ _ _ hsNone hnqcolon
    · have hJshape : paramsNormal R.scheme R.path = [] ∨
          ∃ j', paramsNormal R.scheme R.path = '/' :: j' := by
        rcases hsl with hnil | ⟨tp, hslc⟩
        · left
          rw [hnil]
          exact paramsNormal_nil _
        · cases hJc : paramsNormal R.scheme R.path with
          | nil => exact Or.inl rfl
          | cons j0 j' =>
            right
            have h2 : j0 :: (j' ++ z) = '/' :: tp := by
              rw [← hslc, ← hJz, hJc]
              simp
            injection h2 with h1 h2b
            exact ⟨j', by rw [h1]⟩
      rcases hJshape with hJ0 | ⟨j', hJ0⟩
      · rw [hJ0, List.nil_append]
        by_cases hnq : (if ((parse_qs R.query).filter (fun kv => kv.1 ∉ UTM_PARAMS)) ≠ []
            then urlencode ((parse_qs R.query).filter (fun kv => kv.1 ∉ UTM_PARAMS))
            else ([] : PyStr)) = []
        · rw [if_neg (fun hh => hh hnq), List.nil_append]
          by_cases hf : R.fragment = []
          · rw [if_neg (fun hh => hh hf)]
            exact extractScheme_none_of_no_colon [] (by simp)
          · rw [if_pos hf]
            exact extractScheme_head_not_alpha '#' _ (by decide)
        · rw [if_pos hnq]
          exact extractScheme_head_not_alpha '?' _ (by decide)
      · rw [hJ0, List.cons_append]
        exact extractScheme_head_not_alpha '/' _ (by decide)
  have htabn2 : ∀ c ∈ R.netloc, ¬(c = '\t' ∨ c = '\r' ∨ c = '\n') :=
    fun c hc => htabcomp c (Or.inl hc)
  have htabJ2 : ∀ c ∈ paramsNormal R.scheme R.path, ¬(c = '\t' ∨ c = '\r' ∨ c = '\n') :=
    fun c hc => htabcomp c (Or.inr (Or.inl (hJsub c hc)))
  have htabf2 : ∀ c ∈ R.fragment, ¬(c = '\t' ∨ c = '\r' ∨ c = '\n') :=
    fun c hc => htabcomp c (Or.inr (Or.inr (Or.inr hc)))
  obtain ⟨body, hsplit, hbodyfix, huns⟩ := reassemble_master R.scheme R.netloc
    (paramsNormal R.scheme R.path)
    (if ((parse_qs R.query).filter (fun kv => kv.1 ∉ UTM_PARAMS)) ≠ []
      then urlencode ((parse_qs R.query).filter (fun kv => kv.1 ∉ UTM_PARAMS)) else [])
    R.fragment hschemeF hnetF hbr1 hbr2 (paramsNormal_idem _ _) hnfJ hnqJ hnone hJhead
    htabn2 htabJ2 htabf2 hnewqF hdegJ
  have hnormval : normalize_url_list u = urlunsplit R.scheme R.netloc
      (paramsNormal R.scheme R.path)
      (if ((parse_qs R.query).filter (fun kv => kv.1 ∉ UTM_PARAMS)) ≠ []
        then urlencode ((parse_qs R.query).filter (fun kv => kv.1 ∉ UTM_PARAMS)) else [])
      R.fragment := by
    rw [normalize_url_list.eq_def, hpu]
    dsimp only []
    rw [if_neg hq]
    rfl
  have hparse_r : urlparse (normalize_url_list u) = some ⟨R.scheme, R.netloc,
      (splitParamsGuarded R.scheme body).1, (splitParamsGuarded R.scheme body).2,
      (if ((parse_qs R.query).filter (fun kv => kv.1 ∉ UTM_PARAMS)) ≠ []
        then urlencode ((parse_qs R.query).filter (fun kv => kv.1 ∉ UTM_PARAMS)) else []),
      R.fragment⟩ := by
    rw [hnormval, urlparse.eq_def, hsplit]
    rfl
  have hpq : parse_qs (if ((parse_qs R.query).filter (fun kv => kv.1 ∉ UTM_PARAMS)) ≠ []
      then urlencode ((parse_qs R.query).filter (fun kv => kv.1 ∉ UTM_PARAMS)) else [])
      = (parse_qs R.query).filter (fun kv => kv.1 ∉ UTM_PARAMS) := by
    by_cases hFne : (parse_qs R.query).filter (fun kv => kv.1 ∉ UTM_PARAMS) = []
    · rw [if_neg (fun hh => hh hFne), parse_qs_nil, hFne]
    · rw [if_pos hFne]
      exact parse_qs_urlencode _ hFwf.1 hFwf.2 hFne
  have hnorm2 : normalize_url_list (normalize_url_list u) = normalize_url_list u := by
    rw [normalize_url_list.eq_def, hparse_r]
    dsimp only []
    by_cases hFne : (parse_qs R.query).filter (fun kv => kv.1 ∉ UTM_PARAMS) = []
    · rw [if_pos (by rw [if_neg (fun hh => hh hFne)])]
    · have hencne : urlencode ((parse_qs R.query).filter (fun kv => kv.1 ∉ UTM_PARAMS)) ≠ [] :=
        urlencode_ne_nil _ hFwf.2 hFne
      rw [if_neg (by
        rw [if_pos hFne]
        exact hencne)]
      have hpq2 : (parse_qs (if ((parse_qs R.query).filter (fun kv => kv.1 ∉ UTM_PARAMS)) ≠ []
          then urlencode ((parse_qs R.query).filter (fun kv => kv.1 ∉ UTM_PARAMS))
          else ([] : PyStr))).filter (fun kv => kv.1 ∉ UTM_PARAMS)
          = (parse_qs R.query).filter (fun kv => kv.1 ∉ UTM_PARAMS) := by
        rw [hpq]
        exact filter_idem_list _ _
      rw [hpq2, hnormval]
      have hlhs : urlunparse ⟨R.scheme, R.netloc, (splitParamsGuarded R.scheme body).1,
          (splitParamsGuarded R.scheme body).2,
          (if ((parse_qs R.query).filter (fun kv => kv.1 ∉ UTM_PARAMS)) ≠ []
            then urlencode ((parse_qs R.query).filter (fun kv => kv.1 ∉ UTM_PARAMS)) else []),
          R.fragment⟩
          = urlunsplit R.scheme R.netloc (paramsNormal R.scheme body)
            (if ((parse_qs R.query).filter (fun kv => kv.1 ∉ UTM_PARAMS)) ≠ []
              then urlencode ((parse_qs R.query).filter (fun kv => kv.1 ∉ UTM_PARAMS)) else [])
            R.fragment := rfl
      rw [hlhs, hbodyfix]
      exact huns
  exact ⟨⟨R.scheme, R.netloc, (splitParamsGuarded R.scheme body).1,
    (splitParamsGuarded R.scheme body).2,
    (if ((parse_qs R.query).filter (fun kv => kv.1 ∉ UTM_PARAMS)) ≠ []
      then urlencode ((parse_qs R.query).filter (fun kv => kv.1 ∉ UTM_PARAMS)) else []),
    R.fragment⟩, hparse_r, rfl, rfl, rfl, hpq, hnorm2⟩

/-! Appending tracking parameters: stability of the parse. -/

/-- The text appended to a URL when the given tracking pairs are added to its
(non-empty) query: `&k1=v1&k2=v2...`. -/
def trackingSuffix (pairs : List (PyStr × PyStr)) : PyStr :=
  (pairs.map (fun kv => '&' :: (kv.1 ++ '=' :: kv.2))).flatten

theorem utm_key_facts : ∀ k ∈ UTM_PARAMS, '&' ∉ k ∧ '=' ∉ k ∧ '#' ∉ k ∧ '+' ∉ k ∧
    '%' ∉ k ∧ ':' ∉ k ∧ ∀ c ∈ k, ¬(c = '\t' ∨ c = '\r' ∨ c = '\n') := by decide

theorem take2_append_of_long (c1 c2 : Char) (t A : PyStr) :
    ((c1 :: c2 :: t) ++ A).take 2 = [c1, c2] := rfl

theorem drop2_append_of_long (c1 c2 : Char) (t A : PyStr) :
    ((c1 :: c2 :: t) ++ A).drop 2 = t ++ A := rfl

theorem span_append_mid (p : Char → Bool) (x A a b : PyStr) (h : x.span p = (a, b))
    (hb : b ≠ []) : (x ++ A).span p = (a, b ++ A) := by
  rw [List.span_eq_take_drop] at h ⊢
  injection h with h1 h2
  subst h1
  subst h2
  have hdw : (x.dropWhile p).isEmpty = false := by
    cases hx : x.dropWhile p with
    | nil => exact absurd hx hb
    | cons c t => rfl
  rw [Prod.mk.injEq]
  constructor
  · rw [List.takeWhile_append]
    rw [if_neg]
    intro hlen
    apply hb
    have := List.takeWhile_append_dropWhile p x
    have hlen2 := congrArg List.length this
    rw [List.length_append, hlen] at hlen2
    have : (x.dropWhile p).length = 0 := by omega
    exact List.eq_nil_of_length_eq_zero this
  · rw [List.dropWhile_append, hdw]
    simp

theorem extractScheme_append_some (s sc rest A : PyStr)
    (h : extractScheme s = some (sc, rest)) :
    extractScheme (s ++ A) = some (sc, rest ++ A) := by
  obtain ⟨a, hsu, hna, hane, hahead, hachars, hsc⟩ := extractScheme_some_inv s sc rest h
  have hform : s ++ A = a ++ ':' :: (rest ++ A) := by
    rw [hsu]
    simp
  rw [hform]
  obtain ⟨c, t, rfl⟩ := List.exists_cons_of_ne_nil hane
  unfold extractScheme
  rw [splitOnceChar_append ':' _ _ hna]
  dsimp only []
  rw [if_pos ⟨(hahead c t rfl).1, (hahead c t rfl).2, hachars⟩]
  rw [hsc]

theorem extractScheme_none_append (s A : PyStr) (h : extractScheme s = none)
    (hqs : '?' ∈ s) : extractScheme (s ++ A) = none := by
  cases hspl : splitOnceChar ':' (s ++ A) with
  | none =>
    exact extractScheme_none_of_no_colon _ ((splitOnceChar_eq_none_iff ':' _).mp hspl)
  | some ab =>
    obtain ⟨a', b'⟩ := ab
    obtain ⟨hsplit', hna'⟩ := splitOnceChar_eq_some ':' _ a' b' hspl
    apply extractScheme_none_of_split _ a' b' hspl
    by_cases hcolS : ':' ∈ s
    · obtain ⟨a, b, hJs⟩ := splitOnceChar_isSome_of_mem ':' s hcolS
      obtain ⟨hJdec, hna⟩ := splitOnceChar_eq_some ':' s a b hJs
      have hap : s ++ A = a ++ ':' :: (b ++ A) := by
        rw [hJdec]
        simp
      have hspl2 : splitOnceChar ':' (s ++ A) = some (a, b ++ A) := by
        rw [hap]
        exact splitOnceChar_append ':' a _ hna
      rw [hspl] at hspl2
      simp only [Option.some.injEq, Prod.mk.injEq] at hspl2
      obtain ⟨ha, -⟩ := hspl2
      subst ha
      rw [hJdec] at h
      exact (extractScheme_none_iff_decomp a' _ hna').mp h
    · rcases List.append_eq_append_iff.mp hsplit' with ⟨w1, haw, -⟩ | ⟨w1, hJw, hw2⟩
      · refine Or.inr fun c t hct hguard => ?_
        have hmem : '?' ∈ a' := by
          rw [haw]
          exact List.mem_append_left _ hqs
        rw [hct] at hmem
        exact absurd (hguard.2.2 '?' hmem) (by decide)
      · cases w1 with
        | nil =>
          rw [List.append_nil] at hJw
          refine Or.inr fun c t hct hguard => ?_
          have hmem : '?' ∈ a' := by
            rw [← hJw]
            exact hqs
          rw [hct] at hmem
          exact absurd (hguard.2.2 '?' hmem) (by decide)
        | cons w0 w1' =>
          exfalso
          apply hcolS
          rw [List.cons_append] at hw2
          injection hw2 with h1 h2
          rw [hJw, h1]
          exact List.mem_append_right _ (List.mem_cons_self _ _)

theorem pySplitAux_sep_boundary (sep : Char) (x y acc : PyStr) :
    pySplitAux sep (x ++ sep :: y) acc = pySplitAux sep x acc ++ pySplit sep y := by
  induction x generalizing acc with
  | nil =>
    rw [List.nil_append]
    show pySplitAux sep (sep :: y) acc = pySplitAux sep [] acc ++ pySplit sep y
    unfold pySplitAux
    rw [if_pos rfl]
    rfl
  | cons c cs ih =>
    by_cases hc : c = sep
    · subst hc
      rw [List.cons_append]
      show pySplitAux c (c :: (cs ++ c :: y)) acc = pySplitAux c (c :: cs) acc ++ pySplit c y
      unfold pySplitAux
      rw [if_pos rfl, if_pos rfl, ih []]
      rfl
    · rw [List.cons_append]
      show pySplitAux sep (c :: (cs ++ sep :: y)) acc
        = pySplitAux sep (c :: cs) acc ++ pySplit sep y
      unfold pySplitAux
      rw [if_neg hc, if_neg hc, ih (c :: acc)]

theorem pySplit_sep_boundary (sep : Char) (x y : PyStr) :
    pySplit sep (x ++ sep :: y) = pySplit sep x ++ pySplit sep y :=
  pySplitAux_sep_boundary sep x y []

theorem pySplit_trackingSuffix (q : PyStr) (pairs : List (PyStr × PyStr))
    (hamp : ∀ kv ∈ pairs, '&' ∉ kv.1 ∧ '&' ∉ kv.2) :
    pySplit '&' (q ++ trackingSuffix pairs)
      = pySplit '&' q ++ pairs.map (fun kv => kv.1 ++ '=' :: kv.2) := by
  induction pairs generalizing q with
  | nil =>
    unfold trackingSuffix
    simp
  | cons kv rest ih =>
    have hfield : '&' ∉ kv.1 ++ '=' :: kv.2 := by
      intro hmem
      rcases List.mem_append.mp hmem with h | h
      · exact (hamp kv (List.mem_cons_self _ _)).1 h
      · rcases List.mem_cons.mp h with h | h
        · exact absurd h (by decide)
        · exact (hamp kv (List.mem_cons_self _ _)).2 h
    have hts : trackingSuffix (kv :: rest)
        = '&' :: ((kv.1 ++ '=' :: kv.2) ++ trackingSuffix rest) := by
      unfold trackingSuffix
      simp
    rw [hts]
    rw [pySplit_sep_boundary '&' q _]
    rw [ih _ (fun kv2 h2 => hamp kv2 (List.mem_cons_of_mem _ h2))]
    rw [pySplit_no_sep '&' _ hfield]
    simp

theorem qslField_tracking (k v : PyStr) (hk : k ∈ UTM_PARAMS)
    (_hv : '&' ∉ v) :
    qslField (k ++ '=' :: v)
      = some (k, unquote (plusToSpace v)) := by
  obtain ⟨-, hkeq, -, hkplus, hkpct, -, -⟩ := utm_key_facts k hk
  unfold qslField
  rw [if_neg (by
    intro hnil
    have := congrArg List.length hnil
    simp at this)]
  rw [splitOnceChar_append '=' k v hkeq]
  dsimp only []
  have hplus : plusToSpace k = k := by
    unfold plusToSpace
    conv_rhs => rw [← List.map_id k]
    apply List.map_congr_left
    intro c hc
    rw [if_neg (show ¬ c = '+' from fun hce => hkplus (hce ▸ hc))]
    rfl
  have hunq : unquote k = k := by
    unfold unquote
    rw [if_pos hkpct]
  rw [hplus, hunq]

theorem filter_qsInsert_utm (D : List (PyStr × List PyStr)) (k : PyStr) (v : PyStr)
    (hk : k ∈ UTM_PARAMS) :
    (qsInsert D k v).filter (fun kv => kv.1 ∉ UTM_PARAMS)
      = D.filter (fun kv => kv.1 ∉ UTM_PARAMS) := by
  have hmap : ∀ ds : List (PyStr × List PyStr),
      (ds.map (fun kv => if kv.1 = k then (kv.1, kv.2 ++ [v]) else kv)).filter
        (fun kv => kv.1 ∉ UTM_PARAMS)
      = ds.filter (fun kv => kv.1 ∉ UTM_PARAMS) := by
    intro ds
    induction ds with
    | nil => rfl
    | cons d ds2 ih =>
      rw [List.map_cons, List.filter_cons, List.filter_cons]
      by_cases hd : d.1 = k
      · rw [if_pos hd]
        dsimp only []
        have hnotin : ¬(decide (d.1 ∉ UTM_PARAMS) = true) := by
          simp only [decide_eq_true_eq, not_not]
          rw [hd]
          exact hk
        rw [if_neg hnotin, if_neg hnotin]
        exact ih
      · rw [if_neg hd]
        by_cases hdu : d.1 ∉ UTM_PARAMS
        · rw [if_pos (by simpa using hdu), if_pos (by simpa using hdu)]
          rw [ih]
        · rw [if_neg (by simpa using hdu), if_neg (by simpa using hdu)]
          exact ih
  by_cases hmem : k ∈ qsKeys D
  · rw [qsInsert_mem_keys D k v hmem]
    exact hmap D
  · rw [qsInsert_not_mem_keys D k v hmem, List.filter_append]
    have hsingle : List.filter (fun kv => decide (kv.1 ∉ UTM_PARAMS))
        ([((k, [v]) : PyStr × List PyStr)]) = [] := by
      rw [List.filter_cons]
      rw [if_neg (by simpa using hk)]
      rfl
    rw [hsingle, List.append_nil]

theorem filter_foldl_qsInsert_utm (tr : List (PyStr × PyStr))
    (D : List (PyStr × List PyStr)) (htr : ∀ kv ∈ tr, kv.1 ∈ UTM_PARAMS) :
    (tr.foldl (fun d kv => qsInsert d kv.1 kv.2) D).filter (fun kv => kv.1 ∉ UTM_PARAMS)
      = D.filter (fun kv => kv.1 ∉ UTM_PARAMS) := by
  induction tr generalizing D with
  | nil => rfl
  | cons kv rest ih =>
    rw [List.foldl_cons]
    rw [ih _ (fun kv2 h2 => htr kv2 (List.mem_cons_of_mem _ h2))]
    exact filter_qsInsert_utm D kv.1 kv.2 (htr kv (List.mem_cons_self _ _))

theorem whatwgClean_subset (u : PyStr) : ∀ c ∈ whatwgClean u, c ∈ u := by
  intro c hc
  unfold whatwgClean at hc
  exact (List.dropWhile_sublist _).subset (List.mem_of_mem_filter hc)

theorem whatwgClean_append (u A : PyStr)
    (hd : u.dropWhile (fun c => c.toNat ≤ 32) ≠ [])
    (hA : ∀ c ∈ A, ¬(c = '\t' ∨ c = '\r' ∨ c = '\n')) :
    whatwgClean (u ++ A) = whatwgClean u ++ A := by
  unfold whatwgClean
  rw [List.dropWhile_append]
  rw [if_neg (by
    rw [List.isEmpty_iff]
    exact hd)]
  rw [List.filter_append]
  congr 1
  exact filter_eq_self_of _ A (fun c hc => by simpa using hA c hc)

theorem filterMap_tracking_fields (pairs : List (PyStr × PyStr))
    (h : ∀ kv ∈ pairs, kv.1 ∈ UTM_PARAMS ∧ '&' ∉ kv.2) :
    (pairs.map (fun kv => kv.1 ++ '=' :: kv.2)).filterMap qslField
      = pairs.map (fun kv => (kv.1, unquote (plusToSpace kv.2))) := by
  induction pairs with
  | nil => rfl
  | cons kv rest ih =>
    rw [List.map_cons, List.filterMap_cons,
      qslField_tracking kv.1 kv.2 (h kv (List.mem_cons_self _ _)).1
        (h kv (List.mem_cons_self _ _)).2,
      List.map_cons, ih (fun kv2 h2 => h kv2 (List.mem_cons_of_mem _ h2))]

/-- Parsing and grouping a query with a tracking suffix, then dropping the
tracking keys, gives the same result as without the suffix. -/
theorem parse_qs_trackingSuffix_filter (q : PyStr) (pairs : List (PyStr × PyStr))
    (hqne : q ≠ [])
    (hpairs : ∀ kv ∈ pairs, kv.1 ∈ UTM_PARAMS ∧ '&' ∉ kv.2) :
    (parse_qs (q ++ trackingSuffix pairs)).filter (fun kv => kv.1 ∉ UTM_PARAMS)
      = (parse_qs q).filter (fun kv => kv.1 ∉ UTM_PARAMS) := by
  have hamp : ∀ kv ∈ pairs, '&' ∉ kv.1 ∧ '&' ∉ kv.2 := by
    intro kv hkv
    exact ⟨(utm_key_facts kv.1 (hpairs kv hkv).1).1, (hpairs kv hkv).2⟩
  have hqAne : q ++ trackingSuffix pairs ≠ [] := by
    intro h0
    exact hqne (List.append_eq_nil.mp h0).1
  have hqsl : parse_qsl (q ++ trackingSuffix pairs)
      = parse_qsl q ++ pairs.map (fun kv => (kv.1, unquote (plusToSpace kv.2))) := by
    unfold parse_qsl
    rw [if_neg hqAne, if_neg hqne]
    rw [pySplit_trackingSuffix q pairs hamp, List.filterMap_append,
      filterMap_tracking_fields pairs (fun kv hkv => ⟨(hpairs kv hkv).1, (hpairs kv hkv).2⟩)]
  unfold parse_qs
  rw [hqsl, List.foldl_append]
  exact filter_foldl_qsInsert_utm _ _ (by
    intro kv hkv
    obtain ⟨kv2, hkv2, heq⟩ := List.mem_map.mp hkv
    rw [← heq]
    exact (hpairs kv2 hkv2).1)

set_option maxHeartbeats 1600000 in
/-- Appending tracking parameters to a URL with a non-empty query and no `#`
does not change the normalized output. -/
theorem append_tracking_master (u : PyStr) (p : ParseResult)
    (pairs : List (PyStr × PyStr))
    (hp : urlparse u = some p) (hq : p.query ≠ []) (hnf : '#' ∉ u)
    (hpairs : ∀ kv ∈ pairs, kv.1 ∈ UTM_PARAMS ∧
      ∀ c ∈ kv.2, ¬(c = '#' ∨ c = '&' ∨ c = '\t' ∨ c = '\r' ∨ c = '\n')) :
    normalize_url_list (u ++ trackingSuffix pairs) = normalize_url_list u := by
  cases hsp : urlsplit u with
  | none =>
    rw [urlparse.eq_def, hsp] at hp
    simp at hp
  | some R =>
  have hpu : urlparse u = some ⟨R.scheme, R.netloc, (splitParamsGuarded R.scheme R.path).1,
      (splitParamsGuarded R.scheme R.path).2, R.query, R.fragment⟩ := by
    rw [urlparse.eq_def, hsp]
    rfl
  have hpeq : p = ⟨R.scheme, R.netloc, (splitParamsGuarded R.scheme R.path).1,
      (splitParamsGuarded R.scheme R.path).2, R.query, R.fragment⟩ := by
    rw [hp] at hpu
    injection hpu
  subst hpeq
  dsimp only [] at hq
  obtain ⟨rest2, hsch, hrest⟩ := urlsplit_inv u R hsp
  obtain ⟨u3, u4, -, hnp, hbr1, hbr2, hfr, hqr0⟩ := urlsplitRest_inv R.scheme rest2 R hrest
  have hqr := hqr0.resolve_right (fun hB => hq hB.2.2)
  obtain ⟨hu4eq, hnqpath⟩ := splitOnceChar_eq_some '?' u4 R.path R.query hqr
  have hrest_sub : ∀ x, x ∈ rest2 → x ∈ whatwgClean u := by
    rcases hsch with hs | ⟨-, -, hid⟩
    · obtain ⟨a, hsu, -, -, -, -, -⟩ := extractScheme_some_inv _ _ _ hs
      intro x hx
      rw [hsu]
      exact List.mem_append_right a (List.mem_cons_of_mem ':' hx)
    · exact fun x hx => hid ▸ hx
  have hu3_sub : ∀ x, x ∈ u3 → x ∈ whatwgClean u := by
    rcases hnp with ⟨-, hsn⟩ | ⟨-, -, hid⟩
    · obtain ⟨hsplit, -, -⟩ := splitNetloc_inv _ _ _ hsn
      intro x hx
      apply hrest_sub
      exact List.mem_of_mem_drop (n := 2) (by rw [hsplit]; exact List.mem_append_right _ hx)
    · exact fun x hx => hrest_sub x (hid ▸ hx)
  have hnfu3 : '#' ∉ u3 := fun h => hnf (whatwgClean_subset u '#' (hu3_sub '#' h))
  rcases hfr with hfr | ⟨hfrnone, hu4u3, hfragnil⟩
  · obtain ⟨h1, -⟩ := splitOnceChar_eq_some '#' u3 u4 R.fragment hfr
    exact absurd (by rw [h1]; exact List.mem_append_right _ (List.mem_cons_self _ _)) hnfu3
  have hqu3 : '?' ∈ u3 := by
    rw [← hu4u3, hu4eq]
    exact List.mem_append_right _ (List.mem_cons_self _ _)
  have hqclean : '?' ∈ whatwgClean u := hu3_sub '?' hqu3
  have hdne : u.dropWhile (fun c => c.toNat ≤ 32) ≠ [] := by
    intro h0
    have hnil : whatwgClean u = [] := by
      unfold whatwgClean
      rw [h0]
      rfl
    rw [hnil] at hqclean
    simp at hqclean
  have hAtab : ∀ c ∈ trackingSuffix pairs, ¬(c = '\t' ∨ c = '\r' ∨ c = '\n') := by
    intro c hc
    unfold trackingSuffix at hc
    rw [List.mem_flatten] at hc
    obtain ⟨l, hl, hcl⟩ := hc
    obtain ⟨kv, hkv, rfl⟩ := List.mem_map.mp hl
    rcases List.mem_cons.mp hcl with rfl | hcl
    · decide
    rcases List.mem_append.mp hcl with hcl | hcl
    · exact (utm_key_facts kv.1 (hpairs kv hkv).1).2.2.2.2.2.2 c hcl
    rcases List.mem_cons.mp hcl with rfl | hcl
    · decide
    · intro hcon
      have hv := (hpairs kv hkv).2 c hcl
      rcases hcon with rfl | rfl | rfl
      · exact hv (Or.inr (Or.inr (Or.inl rfl)))
      · exact hv (Or.inr (Or.inr (Or.inr (Or.inl rfl))))
      · exact hv (Or.inr (Or.inr (Or.inr (Or.inr rfl))))
  have hAnf : '#' ∉ trackingSuffix pairs := by
    intro hc
    unfold trackingSuffix at hc
    rw [List.mem_flatten] at hc
    obtain ⟨l, hl, hcl⟩ := hc
    obtain ⟨kv, hkv, rfl⟩ := List.mem_map.mp hl
    rcases List.mem_cons.mp hcl with heq | hcl
    · exact absurd heq (by decide)
    rcases List.mem_append.mp hcl with hcl | hcl
    · exact (utm_key_facts kv.1 (hpairs kv hkv).1).2.2.1 hcl
    rcases List.mem_cons.mp hcl with heq | hcl
    · exact absurd heq (by decide)
    · exact (hpairs kv hkv).2 '#' hcl (Or.inl rfl)
  have hclean2 : whatwgClean (u ++ trackingSuffix pairs)
      = whatwgClean u ++ trackingSuffix pairs := whatwgClean_append u _ hdne hAtab
  have hnfu3A : '#' ∉ u3 ++ trackingSuffix pairs := by
    intro h
    rcases List.mem_append.mp h with h | h
    · exact hnfu3 h
    · exact hAnf h
  have hqsplitA : splitOnceChar '?' (u3 ++ trackingSuffix pairs)
      = some (R.path, R.query ++ trackingSuffix pairs) := by
    rw [← hu4u3, hu4eq]
    have hassoc : (R.path ++ '?' :: R.query) ++ trackingSuffix pairs
        = R.path ++ '?' :: (R.query ++ trackingSuffix pairs) := by
      simp
    rw [hassoc]
    exact splitOnceChar_append '?' R.path _ hnqpath
  have hresteval : urlsplitRest R.scheme (rest2 ++ trackingSuffix pairs)
      = some ⟨R.scheme, R.netloc, R.path, R.query ++ trackingSuffix pairs, []⟩ := by
    rcases hnp with ⟨htake2, hsn⟩ | ⟨htakene, hnl, hu3r⟩
    · obtain ⟨r1, r2, rt, hr2⟩ : ∃ a b t, rest2 = a :: b :: t := by
        cases rest2 with
        | nil => simp at htake2
        | cons a rest' =>
          cases rest' with
          | nil => simp at htake2
          | cons b t => exact ⟨a, b, t, rfl⟩
      have hr1r2 : r1 = '/' ∧ r2 = '/' := by
        rw [hr2] at htake2
        simp only [List.take_succ_cons, List.take_zero, List.cons.injEq, and_true] at htake2
        exact htake2
      have hu3ne : u3 ≠ [] := by
        intro h0
        rw [h0] at hqu3
        simp at hqu3
      have hsn2 : splitNetloc (rt ++ trackingSuffix pairs)
          = (R.netloc, u3 ++ trackingSuffix pairs) := by
        unfold splitNetloc
        apply span_append_mid _ rt _ _ _ ?hgiven hu3ne
        case hgiven =>
          have hsn3 := hsn
          rw [hr2] at hsn3
          exact hsn3
      rw [urlsplitRest.eq_def]
      dsimp only []
      rw [hr2]
      have htk : ((r1 :: r2 :: rt) ++ trackingSuffix pairs).take 2 = ['/', '/'] := by
        rw [take2_append_of_long, hr1r2.1, hr1r2.2]
      rw [if_pos htk]
      have hdr : ((r1 :: r2 :: rt) ++ trackingSuffix pairs).drop 2
          = rt ++ trackingSuffix pairs := rfl
      rw [hdr, hsn2]
      dsimp only []
      rw [if_neg hbr1, if_neg hbr2]
      rw [(splitOnceChar_eq_none_iff '#' _).mpr hnfu3A]
      dsimp only []
      rw [hqsplitA]
    · obtain ⟨r1, r2, rt, hr2⟩ : ∃ a b t, rest2 = a :: b :: t := by
        rw [← hu3r, ← hu4u3, hu4eq]
        obtain ⟨q0, q', hq0⟩ := List.exists_cons_of_ne_nil hq
        rw [hq0]
        cases R.path with
        | nil => exact ⟨'?', q0, q', by simp⟩
        | cons p0 pt =>
          cases pt with
          | nil => exact ⟨p0, '?', q0 :: q', by simp⟩
          | cons p1 pt' => exact ⟨p0, p1, pt' ++ '?' :: q0 :: q', by simp⟩
      rw [urlsplitRest.eq_def]
      dsimp only []
      rw [hr2]
      have htk : ((r1 :: r2 :: rt) ++ trackingSuffix pairs).take 2 ≠ ['/', '/'] := by
        rw [take2_append_of_long]
        rw [hr2] at htakene
        simpa using htakene
      rw [if_neg htk]
      dsimp only []
      rw [if_neg (by simp), if_neg (by simp)]
      have hu3A : (r1 :: r2 :: rt) ++ trackingSuffix pairs = u3 ++ trackingSuffix pairs := by
        rw [hu3r, hr2]
      rw [hu3A, (splitOnceChar_eq_none_iff '#' _).mpr hnfu3A]
      dsimp only []
      rw [hqsplitA]
      dsimp only []
      rw [hnl]
  have hsplitA : urlsplit (u ++ trackingSuffix pairs)
      = some ⟨R.scheme, R.netloc, R.path, R.query ++ trackingSuffix pairs, []⟩ := by
    rcases hsch with hs | ⟨hsnone, hs0, hrid⟩
    · have hsA : extractScheme (whatwgClean (u ++ trackingSuffix pairs))
          = some (R.scheme, rest2 ++ trackingSuffix pairs) := by
        rw [hclean2]
        exact extractScheme_append_some _ _ _ _ hs
      rw [urlsplit.eq_def]
      dsimp only []
      rw [hsA]
      exact hresteval
    · have hs1 : extractScheme rest2 = none := by
        rw [hrid]
        exact hsnone
      have hs2 : '?' ∈ rest2 := by
        rw [hrid]
        exact hqclean
      have hsA : extractScheme (whatwgClean (u ++ trackingSuffix pairs)) = none := by
        rw [hclean2, ← hrid]
        exact extractScheme_none_append rest2 (trackingSuffix pairs) hs1 hs2
      rw [urlsplit.eq_def]
      dsimp only []
      rw [hsA, hclean2, ← hrid, hs0]
      have hre2 := hresteval
      rw [hs0] at hre2
      exact hre2
  have hparseA : urlparse (u ++ trackingSuffix pairs) = some ⟨R.scheme, R.netloc,
      (splitParamsGuarded R.scheme R.path).1, (splitParamsGuarded R.scheme R.path).2,
      R.query ++ trackingSuffix pairs, []⟩ := by
    rw [urlparse.eq_def, hsplitA]
    rfl
  have hqAne : R.query ++ trackingSuffix pairs ≠ [] :=
    fun h => hq (List.append_eq_nil.mp h).1
  have hFF : (parse_qs (R.query ++ trackingSuffix pairs)).filter (fun kv => kv.1 ∉ UTM_PARAMS)
      = (parse_qs R.query).filter (fun kv => kv.1 ∉ UTM_PARAMS) :=
    parse_qs_trackingSuffix_filter R.query pairs hq (fun kv hkv => ⟨(hpairs kv hkv).1,
      fun h => (hpairs kv hkv).2 '&' h (Or.inr (Or.inl rfl))⟩)
  rw [normalize_url_list.eq_def, hparseA]
  dsimp only []
  rw [if_neg hqAne]
  rw [normalize_url_list.eq_def, hpu]
  dsimp only []
  rw [if_neg hq]
  rw [hFF, hfragnil]

/-! Claim theorems for the normalizer (C4, C5, C6). -/

/-- Inputs whose parse does not hit the degenerate
`netloc = '' ∧ path.startswith('//')` class. -/
def NormalizeSafe (u : PyStr) : Prop :=
  ∀ p, urlparse u = some p → ¬(p.netloc = [] ∧ p.path.take 2 = ['/', '/'])

instance (u : PyStr) : Decidable (NormalizeSafe u) :=
  match h : urlparse u with
  | none => isTrue (fun p hp => by rw [h] at hp; exact absurd hp (by simp))
  | some q =>
    if hq : q.netloc = [] ∧ q.path.take 2 = ['/', '/'] then
      isFalse (fun hall => hall q h hq)
    else
      isTrue (fun p hp => by
        rw [h] at hp
        injection hp with h2
        subst h2
        exact hq)

theorem normalize_idem_of_safe (u : PyStr) (h : NormalizeSafe u) :
    normalize_url_list (normalize_url_list u) = normalize_url_list u := by
  cases hp : urlparse u with
  | none =>
    have h1 : normalize_url_list u = u := by
      rw [normalize_url_list.eq_def, hp]
    rw [h1]
    exact h1
  | some p =>
    by_cases hq : p.query = []
    · have h1 : normalize_url_list u = u := by
        rw [normalize_url_list.eq_def, hp]
        dsimp only []
        rw [if_pos hq]
      rw [h1]
      exact h1
    · obtain ⟨p2, -, -, -, -, -, hfix⟩ := normalize_master u p hp hq (h p hp)
      exact hfix

/-- C5 (counterexample): `normalize_url` is not idempotent on every string;
on `"////?a=1"` the first pass yields `"//?a=1"` and the second `"?a=1"`. -/
theorem C5_counterexample :
    normalize_url (normalize_url "////?a=1") ≠ normalize_url "////?a=1" := by decide

/-- C5 (amended): `normalize_url` is idempotent on every input whose
`urlparse` does not produce an empty netloc together with a path starting
`//`. -/
theorem C5_normalize_idempotent (s : String) (h : NormalizeSafe s.data) :
    normalize_url (normalize_url s) = normalize_url s := by
  unfold normalize_url
  exact congrArg String.mk (normalize_idem_of_safe s.data h)

/-- C5 witness. -/
theorem C5_witness :
    normalize_url (normalize_url "https://example.com/a?b=1&utm_source=x")
      = normalize_url "https://example.com/a?b=1&utm_source=x" :=
  C5_normalize_idempotent "https://example.com/a?b=1&utm_source=x" (by decide)

/-- C4 (counterexample): appending a tracking parameter to a URL can change
the normalized output; a query-less URL is returned verbatim (uppercase
scheme kept), while the appended version is reassembled with a lowercased
scheme. -/
theorem C4_counterexample :
    normalize_url ("HTTP://example.com/a" ++ "?utm_source=x")
      ≠ normalize_url "HTTP://example.com/a" := by decide

/-- C4 (amended): for every URL that parses with a non-empty query and
contains no `#`, appending any list of tracking parameters (keys among the
nine `UTM_PARAMS`, values free of `#`, `&`, tab, CR, LF) to the query leaves
`normalize_url_list` unchanged. -/
theorem C4_tracking_append (u : PyStr) (p : ParseResult)
    (pairs : List (PyStr × PyStr))
    (hp : urlparse u = some p) (hq : p.query ≠ []) (hnf : '#' ∉ u)
    (hpairs : ∀ kv ∈ pairs, kv.1 ∈ UTM_PARAMS ∧
      ∀ c ∈ kv.2, ¬(c = '#' ∨ c = '&' ∨ c = '\t' ∨ c = '\r' ∨ c = '\n')) :
    normalize_url_list (u ++ trackingSuffix pairs) = normalize_url_list u :=
  append_tracking_master u p pairs hp hq hnf hpairs

/-- C4 witness. -/
theorem C4_witness :
    normalize_url_list ("https://example.com/a?b=1".toList
        ++ trackingSuffix [("utm_source".toList, "news".toList),
          ("utm_medium".toList, "mail".toList)])
      = normalize_url_list "https://example.com/a?b=1".toList :=
  C4_tracking_append "https://example.com/a?b=1".toList
    ⟨"https".toList, "example.com".toList, "/a".toList, [], "b=1".toList, []⟩
    [("utm_source".toList, "news".toList), ("utm_medium".toList, "mail".toList)]
    (by decide) (by decide) (by decide) (by decide)

/-- C6 (counterexample): a non-tracking query parameter does not survive
normalization verbatim: the value text `v%20w` is re-encoded as `v+w`. -/
theorem C6_counterexample :
    (urlparse "http://e/?k=v%20w".toList).map ParseResult.query
        = some "k=v%20w".toList ∧
      (urlparse (normalize_url_list "http://e/?k=v%20w".toList)).map ParseResult.query
        = some "k=v+w".toList ∧
      ("k=v%20w".toList : PyStr) ≠ "k=v+w".toList := by decide

/-- C6 (amended): outside the degenerate parse class, the output of
`normalize_url_list` parses to a query whose decoded parameters are exactly
the non-tracking decoded parameters of the input, and to the exact fragment
of the input. -/
theorem C6_query_fragment_preserved (u : PyStr) (p : ParseResult)
    (hp : urlparse u = some p)
    (hdeg : ¬(p.netloc = [] ∧ p.path.take 2 = ['/', '/'])) :
    ∃ p2, urlparse (normalize_url_list u) = some p2 ∧
      parse_qs p2.query = (parse_qs p.query).filter (fun kv => kv.1 ∉ UTM_PARAMS) ∧
      p2.fragment = p.fragment := by
  by_cases hq : p.query = []
  · have h1 : normalize_url_list u = u := by
      rw [normalize_url_list.eq_def, hp]
      dsimp only []
      rw [if_pos hq]
    refine ⟨p, by rw [h1]; exact hp, ?_, rfl⟩
    rw [hq]
    rfl
  · obtain ⟨p2, h1, -, -, hfrag, hpq, -⟩ := normalize_master u p hp hq hdeg
    exact ⟨p2, h1, hpq, hfrag⟩

/-- C6 witness. -/
theorem C6_witness :
    ∃ p2, urlparse (normalize_url_list "https://e.com/p?a=1&utm_medium=m#sec".toList)
        = some p2 ∧
      parse_qs p2.query
        = (parse_qs ("a=1&utm_medium=m".toList : PyStr)).filter
            (fun kv => kv.1 ∉ UTM_PARAMS) ∧
      p2.fragment = ("sec".toList : PyStr) :=
  C6_query_fragment_preserved "https://e.com/p?a=1&utm_medium=m#sec".toList
    ⟨"https".toList, "e.com".toList, "/p".toList, [], "a=1&utm_medium=m".toList,
      "sec".toList⟩ (by decide) (by decide)

/-! The title-refresh predicate of `app/tasks.py` (C2).  Python `str.strip()`
is modelled over the ASCII whitespace characters. -/

def pyWhitespace (c : Char) : Bool :=
  c = ' ' ∨ c = '\t' ∨ c = '\n' ∨ c = '\r' ∨ c = '\x0b' ∨ c = '\x0c'

/-- Python `str.strip()` (ASCII whitespace). -/
def pyStrip (s : PyStr) : PyStr :=
  ((s.dropWhile pyWhitespace).reverse.dropWhile pyWhitespace).reverse

/-- `_normalize_value` in `app/tasks.py`: strip a string, map `None` (or a
non-string) to the empty string. -/
def normalize_value (v : Option PyStr) : PyStr :=
  match v with
  | some s => pyStrip s
  | none => []

/-- The `title`/`url` attributes of a link as read by `needs_title_refresh`. -/
structure TitleUrl where
  title : Option PyStr
  url : Option PyStr
deriving DecidableEq

/-- `needs_title_refresh` in `app/tasks.py`. -/
def needs_title_refresh (link : TitleUrl) : Bool :=
  let title := normalize_value link.title
  let url := normalize_value link.url
  if url = [] then false
  else if title = [] then true
  else title = url

/-! The link records and the auditor of `check_link_images.py`
(C7, C9, C10), and `create_link` of `app/crud.py` (C1, C9).  Datetimes are
modelled as day counts (`Nat`); the `.days < 180` and `< cutoff_date`
comparisons act on the same scale. -/

structure LinkRec where
  id : Nat
  url : PyStr
  title : PyStr
  notes : Option PyStr
  image_url : Option PyStr
  image_check_status : Option PyStr
  image_checked_at : Option Nat
  link_status : Option PyStr
  http_status_code : Option Int
  last_checked_at : Option Nat
deriving DecidableEq

structure LinkCreatePayload where
  url : PyStr
  title : Option PyStr
  notes : Option PyStr
  image_url : Option PyStr
deriving DecidableEq

/-- The result dictionary of `fetch_link_metadata` in `app/link_preview.py`. -/
structure FetchResult where
  title : Option PyStr
  description : Option PyStr
  image : Option PyStr
  error : Option PyStr
  status_code : Option Int
  is_accessible : Bool
deriving DecidableEq

/-- Python truthiness of an optional string (`None` and `""` are falsy). -/
def truthyStr (s : Option PyStr) : Bool :=
  match s with
  | some s => !s.isEmpty
  | none => false

/-- `create_link` in `app/crud.py`, as the record it constructs.  The
metadata fetch is `some r` when `asyncio.run(fetch_link_metadata ...)`
returned `r`, and `none` when it raised (the exception is swallowed). -/
def create_link (payload : LinkCreatePayload) (fetched : Option FetchResult)
    (now : Nat) (id : Nat) : LinkRec :=
  let image_url :=
    if truthyStr payload.image_url then payload.image_url
    else match fetched with
      | some meta => if truthyStr meta.image then meta.image else payload.image_url
      | none => payload.image_url
  let title := match payload.title with
    | some t => if t ≠ [] then t else payload.url
    | none => payload.url
  { id := id, url := payload.url, title := title, notes := payload.notes,
    image_url := image_url,
    image_check_status := some (if truthyStr image_url then "success".toList
      else "pending".toList),
    image_checked_at := if truthyStr image_url then some now else none,
    link_status := some "active".toList,
    http_status_code := none,
    last_checked_at := some now }

/-- The skip condition at the top of `check_link_image`. -/
def auditSkip (link : LinkRec) (now : Nat) : Bool :=
  decide (link.image_check_status = some "not_found".toList) &&
    (match link.image_checked_at with
      | some t => decide (now - t < 180)
      | none => false)

/-- `check_link_image` in `check_link_images.py` (non-exception path):
returns the updated record and the `updated` flag. -/
def check_link_image (link : LinkRec) (meta : FetchResult) (now : Nat) :
    LinkRec × Bool :=
  if auditSkip link now then (link, false)
  else
    let l1 := { link with last_checked_at := some now }
    let l2 := match meta.status_code with
      | some c => { l1 with http_status_code := some c }
      | none => l1
    let statusStr :=
      if meta.is_accessible then "active".toList
      else if meta.status_code = some 404 ∨ meta.status_code = some 410 then
        "broken".toList
      else if (match meta.status_code with
          | some c => decide (c ≠ 0)
          | none => false) = true then "error".toList
      else "unreachable".toList
    let l3 := { l2 with link_status := some statusStr }
    let updated := truthyStr meta.image && !(truthyStr l3.image_url)
    let l4 := if updated then { l3 with image_url := meta.image } else l3
    let l5 := { l4 with
      image_checked_at := some now,
      image_check_status := some (if truthyStr meta.image then "success".toList
        else "not_found".toList) }
    (l5, updated)

/-- The exception handler of `check_link_image`. -/
def check_link_image_exc (link : LinkRec) (now : Nat) : LinkRec :=
  { link with
    image_checked_at := some now,
    image_check_status := some "failed".toList,
    link_status := some "error".toList,
    last_checked_at := some now }

/-- The selection filter of `check_missing_images` (SQL `NULL` comparisons
are falsy). -/
def check_missing_images_pred (link : LinkRec) (cutoff : Nat) : Bool :=
  (link.image_url = none ∧ link.image_checked_at = none) ∨
    (link.image_url = none ∧ link.image_check_status = some "failed".toList ∧
      (match link.image_checked_at with
        | some t => decide (t < cutoff)
        | none => false) = true) ∨
    (link.image_url ≠ none ∧ (link.image_checked_at = none ∨
      (match link.image_checked_at with
        | some t => decide (t < cutoff)
        | none => false) = true))

/-- The selection filter of `check_broken_images`. -/
def check_broken_images_pred (link : LinkRec) : Bool :=
  link.image_check_status = some "failed".toList

/-! `fetch_link_metadata` of `app/link_preview.py` (C8), as a function of the
network outcome: the four `return` sites of the source.  The HTML parsing of
the success branch is not modelled; the outcome carries the extracted
fields. -/

inductive FetchOutcome where
  | success (status : Int) (title description image : Option PyStr)
  | httpStatusError (status : Int) (msg : PyStr)
  | httpError (msg : PyStr)
  | otherError (msg : PyStr)
deriving DecidableEq

/-- Decimal rendering of an `Int`, as Python `str`/f-string formatting. -/
def intRepr (i : Int) : PyStr :=
  match i with
  | .ofNat n => Nat.toDigits 10 n
  | .negSucc n => '-' :: Nat.toDigits 10 (n + 1)

/-- `fetch_link_metadata`: each `except` branch returns its structured
dictionary; no branch raises. -/
def fetch_link_metadata : FetchOutcome → FetchResult
  | .success status title description image =>
    ⟨title, description, image, none, some status, true⟩
  | .httpStatusError status msg =>
    ⟨none, none, none, some ("HTTP ".toList ++ intRepr status ++ ':' :: ' ' :: msg),
      some status, false⟩
  | .httpError msg =>
    ⟨none, none, none, some ("Failed to fetch: ".toList ++ msg), none, false⟩
  | .otherError msg =>
    ⟨none, none, none, some ("Error: ".toList ++ msg), none, false⟩

/-! `get_link_by_url` of `app/crud.py` over a list of stored links, and the
duplicate check of `api_create_link` in `app/routers/api.py` (C1). -/

def get_link_by_url (links : List LinkRec) (url : PyStr) : Option LinkRec :=
  links.find? (fun link =>
    decide (normalize_url_list link.url = normalize_url_list url))

/-- The 409 detail dictionary of `api_create_link`. -/
structure ConflictDetail where
  message : PyStr
  existing_link_id : Nat
  existing_link_title : PyStr
  existing_link_url : PyStr
deriving DecidableEq

/-- `api_create_link` in `app/routers/api.py`: reject with a 409 conflict when
`get_link_by_url` finds a duplicate, otherwise create and store the link. -/
def api_create_link (links : List LinkRec) (payload : LinkCreatePayload)
    (fetched : Option FetchResult) (now : Nat) (newId : Nat) :
    Except ConflictDetail (List LinkRec × LinkRec) :=
  match get_link_by_url links payload.url with
  | some existing =>
    .error ⟨"Link already exists".toList, existing.id, existing.title,
      existing.url⟩
  | none =>
    let link := create_link payload fetched now newId
    .ok (links ++ [link], link)

/-- C1: whenever some stored link normalizes equal to the candidate URL,
`api_create_link` rejects with a 409 conflict carrying a normalize-equal
existing record's id, title and url, and creates nothing. -/
theorem C1_duplicate_conflict (links : List LinkRec)
    (payload : LinkCreatePayload) (fetched : Option FetchResult)
    (now newId : Nat) (L : LinkRec) (hL : L ∈ links)
    (hnorm : normalize_url_list payload.url = normalize_url_list L.url) :
    ∃ L2, L2 ∈ links ∧
      normalize_url_list L2.url = normalize_url_list payload.url ∧
      api_create_link links payload fetched now newId =
        .error ⟨"Link already exists".toList, L2.id, L2.title, L2.url⟩ := by
  cases hf : links.find? (fun link =>
      decide (normalize_url_list link.url = normalize_url_list payload.url)) with
  | none =>
    exfalso
    have hnone := List.find?_eq_none.mp hf L hL
    exact hnone (decide_eq_true hnorm.symm)
  | some L2 =>
    have hp := List.find?_some hf
    have hq : normalize_url_list L2.url = normalize_url_list payload.url :=
      of_decide_eq_true hp
    refine ⟨L2, List.mem_of_find?_eq_some hf, hq, ?_⟩
    simp only [api_create_link, get_link_by_url, hf]

theorem C1_witness :
    ∃ L2, L2 ∈ [create_link ⟨"https://example.com/a?utm_source=x".toList,
        none, none, none⟩ none 0 1] ∧
      normalize_url_list L2.url =
        normalize_url_list "https://example.com/a?utm_source=y".toList ∧
      api_create_link
          [create_link ⟨"https://example.com/a?utm_source=x".toList,
            none, none, none⟩ none 0 1]
          ⟨"https://example.com/a?utm_source=y".toList, none, none, none⟩
          none 3 2 =
        .error ⟨"Link already exists".toList, L2.id, L2.title, L2.url⟩ :=
  C1_duplicate_conflict _
    ⟨"https://example.com/a?utm_source=y".toList, none, none, none⟩ none 3 2
    (create_link ⟨"https://example.com/a?utm_source=x".toList,
      none, none, none⟩ none 0 1)
    (List.mem_singleton_self _) (by decide)

/-- C2 counterexample: for a link whose stripped URL is empty and whose
stripped title is empty, the claimed iff demands `true` (the trimmed title is
empty), but `needs_title_refresh` returns `false`. -/
theorem C2_counterexample :
    normalize_value (TitleUrl.mk (some []) (some [])).title = [] ∧
      needs_title_refresh ⟨some [], some []⟩ = false := by decide

/-- C2 (amended): whenever the stripped URL is non-empty,
`needs_title_refresh` returns true iff the stripped title is empty or equals
the stripped URL.  The unamended claim fails when the stripped URL is
empty. -/
theorem C2_needs_refresh_iff (link : TitleUrl)
    (h : normalize_value link.url ≠ []) :
    needs_title_refresh link = true ↔
      (normalize_value link.title = [] ∨
        normalize_value link.title = normalize_value link.url) := by
  simp only [needs_title_refresh]
  rw [if_neg h]
  by_cases ht : normalize_value link.title = []
  · simp [ht]
  · simp [ht]

theorem C2_witness :
    needs_title_refresh ⟨some "https://x.y/a".toList,
        some " https://x.y/a ".toList⟩ = true ↔
      (normalize_value (some "https://x.y/a".toList) = [] ∨
        normalize_value (some "https://x.y/a".toList) =
          normalize_value (some " https://x.y/a ".toList)) :=
  C2_needs_refresh_iff ⟨some "https://x.y/a".toList,
    some " https://x.y/a ".toList⟩ (by decide)

/-- C7: on the non-skipped, non-exception path the auditor classifies
`link_status` as: `active` when the fetch reported the page accessible;
`broken` when not accessible with observed status 404 or 410; `error` when
not accessible with any other observed (hence non-zero) status code;
`unreachable` when not accessible and no status code was obtained. -/
theorem C7_link_status_classification (link : LinkRec) (meta : FetchResult)
    (now : Nat) (hskip : auditSkip link now = false)
    (hhttp : ∀ c, meta.status_code = some c → c ≠ 0) :
    (meta.is_accessible = true →
      (check_link_image link meta now).1.link_status = some "active".toList) ∧
    (meta.is_accessible = false →
      (meta.status_code = some 404 ∨ meta.status_code = some 410) →
      (check_link_image link meta now).1.link_status = some "broken".toList) ∧
    (meta.is_accessible = false → ∀ c, meta.status_code = some c →
      c ≠ 404 → c ≠ 410 →
      (check_link_image link meta now).1.link_status = some "error".toList) ∧
    (meta.is_accessible = false → meta.status_code = none →
      (check_link_image link meta now).1.link_status =
        some "unreachable".toList) := by
  refine ⟨?_, ?_, ?_, ?_⟩
  · intro ha
    simp [check_link_image, hskip, ha, apply_ite LinkRec.link_status]
  · intro ha h45
    rcases h45 with h | h <;>
      simp [check_link_image, hskip, ha, h, apply_ite LinkRec.link_status]
  · intro ha c hc h404 h410
    simp [check_link_image, hskip, ha, hc, h404, h410, hhttp c hc,
      apply_ite LinkRec.link_status]
  · intro ha hn
    simp [check_link_image, hskip, ha, hn, apply_ite LinkRec.link_status]

theorem C7_witness :
    (check_link_image ⟨1, "https://e.x/a".toList, "t".toList, none, none,
        none, none, none, none, none⟩
      ⟨none, none, none, some "HTTP 404: err".toList, some 404, false⟩
      5).1.link_status = some "broken".toList :=
  (C7_link_status_classification _ _ 5 (by decide)
    (by intro c hc; injection hc with h; subst h; decide)).2.1 rfl (Or.inl rfl)

/-- C8: every branch of `fetch_link_metadata` returns the structured result
shape; an HTTP error status yields `is_accessible = false`, an error message
carrying the status, and the observed `status_code`; a network/transport
failure yields `is_accessible = false`, no status code and a descriptive
error; an unexpected exception is caught and surfaces as a generic error. -/
theorem C8_fetch_metadata_shape (o : FetchOutcome) :
    (∀ st msg, o = .httpStatusError st msg →
      (fetch_link_metadata o).is_accessible = false ∧
      (fetch_link_metadata o).status_code = some st ∧
      (fetch_link_metadata o).error =
        some ("HTTP ".toList ++ intRepr st ++ ':' :: ' ' :: msg)) ∧
    (∀ msg, o = .httpError msg →
      (fetch_link_metadata o).is_accessible = false ∧
      (fetch_link_metadata o).status_code = none ∧
      (fetch_link_metadata o).error =
        some ("Failed to fetch: ".toList ++ msg)) ∧
    (∀ msg, o = .otherError msg →
      (fetch_link_metadata o).is_accessible = false ∧
      (fetch_link_metadata o).status_code = none ∧
      (fetch_link_metadata o).error = some ("Error: ".toList ++ msg)) ∧
    (∀ st t d i, o = .success st t d i →
      (fetch_link_metadata o).is_accessible = true ∧
      (fetch_link_metadata o).status_code = some st ∧
      (fetch_link_metadata o).error = none) := by
  refine ⟨?_, ?_, ?_, ?_⟩
  · rintro st msg rfl; exact ⟨rfl, rfl, rfl⟩
  · rintro msg rfl; exact ⟨rfl, rfl, rfl⟩
  · rintro msg rfl; exact ⟨rfl, rfl, rfl⟩
  · rintro st t d i rfl; exact ⟨rfl, rfl, rfl⟩

theorem C8_witness :
    (fetch_link_metadata (.httpStatusError 404 "Not Found".toList)).is_accessible
        = false ∧
      (fetch_link_metadata
        (.httpStatusError 404 "Not Found".toList)).status_code = some 404 ∧
      (fetch_link_metadata (.httpStatusError 404 "Not Found".toList)).error =
        some ("HTTP ".toList ++ intRepr 404 ++ ':' :: ' ' :: "Not Found".toList) :=
  (C8_fetch_metadata_shape (.httpStatusError 404 "Not Found".toList)).1
    404 "Not Found".toList rfl

/-- C9: each writer of `link_status` sets `last_checked_at` in the same step:
`create_link` sets both `active` and the timestamp; the auditor's non-skipped
path stamps `last_checked_at` and records any observed status code in
`http_status_code`; the skipped path writes neither; the exception path sets
`error` together with the timestamp. -/
theorem C9_last_checked_invariant (payload : LinkCreatePayload)
    (fetched : Option FetchResult) (link : LinkRec) (meta : FetchResult)
    (now now2 id : Nat) :
    ((create_link payload fetched now id).link_status =
        some "active".toList ∧
      (create_link payload fetched now id).last_checked_at = some now) ∧
    (auditSkip link now2 = false →
      ((check_link_image link meta now2).1.last_checked_at = some now2 ∧
        ∀ c, meta.status_code = some c →
          (check_link_image link meta now2).1.http_status_code = some c)) ∧
    (auditSkip link now2 = true → (check_link_image link meta now2).1 = link) ∧
    ((check_link_image_exc link now2).link_status = some "error".toList ∧
      (check_link_image_exc link now2).last_checked_at = some now2) := by
  refine ⟨⟨rfl, rfl⟩, ?_, ?_, ⟨rfl, rfl⟩⟩
  · intro hskip
    cases hsc : meta.status_code with
    | none =>
      refine ⟨?_, ?_⟩
      · simp [check_link_image, hskip, hsc, apply_ite LinkRec.last_checked_at]
      · intro c hc; exact Option.noConfusion hc
    | some c =>
      refine ⟨?_, ?_⟩
      · simp [check_link_image, hskip, hsc, apply_ite LinkRec.last_checked_at]
      · intro c2 hc2
        injection hc2 with h
        subst h
        simp [check_link_image, hskip, hsc, apply_ite LinkRec.http_status_code]
  · intro hskip
    simp [check_link_image, hskip]

theorem C9_witness :
    (check_link_image ⟨1, "https://e.x/a".toList, "t".toList, none, none,
        none, none, none, none, none⟩
      ⟨none, none, none, none, some 500, false⟩ 7).1.last_checked_at =
        some 7 ∧
      (check_link_image ⟨1, "https://e.x/a".toList, "t".toList, none, none,
          none, none, none, none, none⟩
        ⟨none, none, none, none, some 500, false⟩ 7).1.http_status_code =
          some 500 :=
  have h := (C9_last_checked_invariant
    ⟨"u".toList, none, none, none⟩ none
    ⟨1, "https://e.x/a".toList, "t".toList, none, none, none, none, none,
      none, none⟩
    ⟨none, none, none, none, some 500, false⟩ 0 7 1).2.1 (by decide)
  ⟨h.1, h.2 500 rfl⟩

/-- C10: a link with no image whose `image_check_status` is `not_found` and
whose `image_checked_at` is set is never selected by the missing-image
sweep, however old the check is; among imageless previously-checked links
only those whose check left status `failed` (the broken-image job's filter)
are selected again. -/
theorem C10_not_found_excluded (link : LinkRec) (cutoff : Nat)
    (h1 : link.image_url = none) (h2 : link.image_checked_at ≠ none) :
    (link.image_check_status = some "not_found".toList →
      check_missing_images_pred link cutoff = false) ∧
    (check_missing_images_pred link cutoff = true →
      link.image_check_status = some "failed".toList ∧
      check_broken_images_pred link = true) := by
  obtain ⟨t, ht⟩ := Option.ne_none_iff_exists'.mp h2
  constructor
  · intro hnf
    simp [check_missing_images_pred, h1, ht, hnf]
  · intro hsel
    by_cases hf : link.image_check_status = some "failed".toList
    · exact ⟨hf, by simp [check_broken_images_pred, hf]⟩
    · exfalso
      simp [check_missing_images_pred, h1, ht] at hsel
      exact hf hsel.1

theorem C10_witness :
    check_missing_images_pred ⟨1, "https://e.x/a".toList, "t".toList, none,
        none, some "not_found".toList, some 2, some "active".toList, none,
        some 2⟩ 100000 = false :=
  (C10_not_found_excluded _ 100000 rfl (by decide)).1 rfl

/-! The Telegram poller of `app/telegram_poller.py` (C3): `extract_urls`
(a matcher specialised to the source pattern, greedy with backtracking as
`re.findall`), the SSRF validation of `fetch_url_metadata`, the per-URL
validation loop and `process_message`. -/

def asciiAlphaNum (c : Char) : Bool :=
  (65 ≤ c.toNat && c.toNat ≤ 90) || (97 ≤ c.toNat && c.toNat ≤ 122) ||
    (48 ≤ c.toNat && c.toNat ≤ 57)

/-- The character class `[-a-zA-Z0-9@:%._\+~#=]` of the URL pattern. -/
def urlClassBody (c : Char) : Bool :=
  asciiAlphaNum c || ['-', '@', ':', '%', '.', '_', '+', '~', '#', '='].contains c

/-- The character class `[a-zA-Z0-9()]` of the URL pattern. -/
def urlClassTld (c : Char) : Bool :=
  asciiAlphaNum c || c = '(' || c = ')'

/-- The character class `[-a-zA-Z0-9()@:%_\+.~#?&/=]` of the URL pattern. -/
def urlClassTail (c : Char) : Bool :=
  asciiAlphaNum c ||
    ['-', '(', ')', '@', ':', '%', '_', '+', '.', '~', '#', '?', '&', '/', '='].contains c

def isWordChar (c : Char) : Bool :=
  asciiAlphaNum c || c = '_'

/-- The `\b` word boundary between the last matched character and the next
input character. -/
def boundaryOk (lastc : Char) (next : Option Char) : Bool :=
  match next with
  | none => isWordChar lastc
  | some c => isWordChar lastc != isWordChar c

/-- Match `[a-zA-Z0-9()]{k}\b[-a-zA-Z0-9()@:%_\+.~#?&/=]*` at the head. -/
def tldAt (k : Nat) (r2 : PyStr) : Option (PyStr × PyStr) :=
  let pre := r2.take k
  if pre.length = k && pre.all urlClassTld && decide (1 ≤ k) then
    let r3 := r2.drop k
    match pre.getLast? with
    | some lastc =>
      if boundaryOk lastc r3.head? then
        some (pre ++ r3.takeWhile urlClassTail, r3.dropWhile urlClassTail)
      else none
    | none => none
  else none

/-- Backtracking over the `{1,6}` counter, longest (greedy) first. -/
def tldSearch : Nat → PyStr → Option (PyStr × PyStr)
  | 0, _ => none
  | k + 1, r2 =>
    match tldAt (k + 1) r2 with
    | some res => some res
    | none => tldSearch k r2

/-- Match `[-a-zA-Z0-9@:%._\+~#=]{k}\.` then the TLD part at the head. -/
def bodyAt (k : Nat) (t : PyStr) : Option (PyStr × PyStr) :=
  let pre := t.take k
  if pre.length = k && pre.all urlClassBody && decide (1 ≤ k) then
    match t.drop k with
    | '.' :: r2 =>
      match tldSearch 6 r2 with
      | some (tld, rest) => some (pre ++ '.' :: tld, rest)
      | none => none
    | _ => none
  else none

/-- Backtracking over the `{1,256}` counter, longest (greedy) first. -/
def bodySearch : Nat → PyStr → Option (PyStr × PyStr)
  | 0, _ => none
  | k + 1, t =>
    match bodyAt (k + 1) t with
    | some res => some res
    | none => bodySearch k t

/-- Match the pattern after the literal scheme, with the optional greedy
`(?:www\.)?`. -/
def matchAfterScheme (t0 : PyStr) : Option (PyStr × PyStr) :=
  match t0 with
  | 'w' :: 'w' :: 'w' :: '.' :: t1 =>
    match bodySearch 256 t1 with
    | some (m, r) => some ('w' :: 'w' :: 'w' :: '.' :: m, r)
    | none => bodySearch 256 t0
  | _ => bodySearch 256 t0

/-- Match the whole URL pattern at the head of `s`. -/
def matchUrlAt (s : PyStr) : Option (PyStr × PyStr) :=
  match s with
  | 'h' :: 't' :: 't' :: 'p' :: 's' :: ':' :: '/' :: '/' :: t0 =>
    (matchAfterScheme t0).map fun p => ("https://".toList ++ p.1, p.2)
  | 'h' :: 't' :: 't' :: 'p' :: ':' :: '/' :: '/' :: t0 =>
    (matchAfterScheme t0).map fun p => ("http://".toList ++ p.1, p.2)
  | _ => none

/-- `re.findall` scan: leftmost, non-overlapping. -/
def findUrlsAux : Nat → PyStr → List PyStr
  | 0, _ => []
  | _ + 1, [] => []
  | fuel + 1, c :: rest =>
    match matchUrlAt (c :: rest) with
    | some (m, r) => m :: findUrlsAux fuel r
    | none => findUrlsAux fuel rest

/-- `extract_urls` in `app/telegram_poller.py`. -/
def extract_urls (text : PyStr) : List PyStr :=
  findUrlsAux text.length text

/-- CPython `SplitResult.hostname`: strip userinfo and port from the netloc,
lowercase outside a `%`-zone, `None` when empty. -/
def hostnameOf (netloc : PyStr) : Option PyStr :=
  let hostinfo := match splitLastChar '@' netloc with
    | some p => p.2
    | none => netloc
  let hostname := match splitOnceChar '[' hostinfo with
    | some p =>
      (match splitOnceChar ']' p.2 with
       | some q => q.1
       | none => p.2)
    | none =>
      (match splitOnceChar ':' hostinfo with
       | some q => q.1
       | none => hostinfo)
  if hostname = [] then none
  else
    match splitOnceChar '%' hostname with
    | some p => some (p.1.map Char.toLower ++ '%' :: p.2)
    | none => some (hostname.map Char.toLower)

/-- Python `s.startswith(p)`. -/
def pyStartsWith (p s : PyStr) : Bool :=
  s.take p.length = p

/-- Python `str.replace`, leftmost non-overlapping, with fuel. -/
def pyReplaceAux (pat rep : PyStr) : Nat → PyStr → PyStr
  | 0, s => s
  | _ + 1, [] => []
  | fuel + 1, c :: rest =>
    if (c :: rest).take pat.length = pat then
      rep ++ pyReplaceAux pat rep fuel ((c :: rest).drop pat.length)
    else c :: pyReplaceAux pat rep fuel rest

def pyReplace (s pat rep : PyStr) : PyStr :=
  if pat = [] then s else pyReplaceAux pat rep s.length s

/-- The control-character class `[\x00-\x1f\x7f-\x9f]` removed by the
sanitising `re.sub` calls. -/
def ctrlChar (c : Char) : Bool :=
  c.toNat ≤ 31 || (127 ≤ c.toNat && c.toNat ≤ 159)

def sanitizeCtrl (s : PyStr) : PyStr :=
  s.filter fun c => !ctrlChar c

/-- The HTML escaping `.replace('&', '&amp;').replace('<', '&lt;')
.replace('>', '&gt;')` used for Telegram replies. -/
def htmlEscape (s : PyStr) : PyStr :=
  pyReplace (pyReplace (pyReplace s ['&'] "&amp;".toList) ['<'] "&lt;".toList)
    ['>'] "&gt;".toList

/-- The metadata dictionary returned by `fetch_url_metadata`. -/
structure TgMeta where
  title : Option PyStr
  domain : Option PyStr
  image : Option PyStr
deriving DecidableEq

def blockedHosts : List PyStr :=
  ["localhost", "127.0.0.1", "0.0.0.0", "::1"].map String.toList

def privateRanges : List PyStr :=
  ["10.", "192.168.", "172.16.", "172.17.", "172.18.", "172.19.", "172.20.",
    "172.21.", "172.22.", "172.23.", "172.24.", "172.25.", "172.26.",
    "172.27.", "172.28.", "172.29.", "172.30.", "172.31."].map String.toList

/-- The SSRF validation at the top of `fetch_url_metadata`: true when the
`try` body raises before any network access. -/
def tg_block (url : PyStr) : Bool :=
  match urlparse url with
  | none => true
  | some parsed =>
    if !(parsed.scheme = "http".toList || parsed.scheme = "https".toList) then
      true
    else
      match hostnameOf parsed.netloc with
      | none => true
      | some hostname =>
        decide (hostname.map Char.toLower ∈ blockedHosts) ||
          privateRanges.any (fun p => pyStartsWith p hostname)

/-- `fetch_url_metadata` in `app/telegram_poller.py`: the SSRF check (or any
other failure of the guarded body) falls back to domain-only metadata; `net`
is the metadata the network fetch would produce.  The fallback domain is
`urlparse(url).netloc.replace("www.", "")`. -/
def fetch_url_metadata (url : PyStr) (net : TgMeta) : TgMeta :=
  if tg_block url then
    match urlparse url with
    | some parsed => ⟨none, some (pyReplace parsed.netloc "www.".toList []), none⟩
    | none => ⟨none, none, none⟩
  else net

/-- The per-URL validation loop of `process_message` (scheme, netloc length,
URL length; a `urlparse` failure is skipped). -/
def tg_valid_url (url : PyStr) : Bool :=
  match urlparse url with
  | none => false
  | some parsed =>
    (parsed.scheme = "http".toList || parsed.scheme = "https".toList) &&
      !parsed.netloc.isEmpty && decide (3 ≤ parsed.netloc.length) &&
      decide (url.length ≤ 2048)

/-- The loop state of the link-saving loop of `process_message`: the stored
links, the `saved_links` entries `(url, title or url)` and the
`duplicate_links` entries `(url, existing title or url)`. -/
structure TgState where
  store : List LinkRec
  saved : List (PyStr × PyStr)
  dups : List (PyStr × PyStr)
  nextId : Nat
deriving DecidableEq

/-- One iteration of the link-saving loop of `process_message`. -/
def tg_handle_url (net : PyStr → TgMeta) (text : PyStr) (single : Bool)
    (now : Nat) (st : TgState) (url : PyStr) : TgState :=
  match get_link_by_url st.store url with
  | some existing =>
    { st with
      dups := st.dups ++
        [(url, if existing.title ≠ [] then existing.title else url)] }
  | none =>
    let metadata := fetch_url_metadata url (net url)
    let user_text0 : Option PyStr :=
      if single then some (pyStrip (pyReplace text url [])) else none
    let user_text : Option PyStr :=
      match user_text0 with
      | some t =>
        if t ≠ [] then
          (let t2 := pyStrip ((sanitizeCtrl t).take 500)
           if t2 ≠ [] then some t2 else none)
        else none
      | none => none
    let title : Option PyStr :=
      match user_text with
      | some t => some t
      | none => metadata.title
    let link := create_link ⟨url, title, none, metadata.image⟩ none now st.nextId
    { store := st.store ++ [link],
      saved := st.saved ++
        [(url, match title with
          | some t => if t ≠ [] then t else url
          | none => url)],
      dups := st.dups,
      nextId := st.nextId + 1 }

def natRepr (n : Nat) : PyStr :=
  Nat.toDigits 10 n

/-- The confirmation text assembled at the end of `process_message`. -/
def tg_reply (saved : List (PyStr × PyStr)) (dups : List (PyStr × PyStr)) :
    PyStr :=
  if saved.length = 0 ∧ 0 < dups.length then
    match dups with
    | [d] =>
      "⚠️ <b>Link already exists!</b>\n\n🔗 ".toList ++ htmlEscape d.1 ++
        '\n' :: "📄 ".toList ++ d.2 ++
        "\n\n💡 This link is already in your collection.".toList
    | _ =>
      "⚠️ <b>All ".toList ++ natRepr dups.length ++
        " links already exist!</b>\n\n💡 These links are already in your collection.".toList
  else if 0 < saved.length ∧ dups.length = 0 then
    match saved with
    | [li] =>
      "✅ <b>Link saved to your inbox!</b>\n\n🔗 ".toList ++
        htmlEscape li.1 ++ ['\n'] ++
        (if li.2 ≠ [] ∧ li.2 ≠ li.1 then
          "📄 ".toList ++ (htmlEscape li.2).take 200 ++ ['\n']
        else [])
    | _ => "✅ ".toList ++ natRepr saved.length ++ " links saved to your inbox!".toList
  else
    "✅ ".toList ++ natRepr saved.length ++ " new link(s) saved!\n".toList ++
      (if 0 < dups.length then
        "⚠️ ".toList ++ natRepr dups.length ++ " duplicate(s) skipped.".toList
      else [])

def tgWelcome : PyStr :=
  ("👋 <b>Welcome to NoteKeep Bot!</b>\n\n" ++
    "Send me a link and I\x27ll:\n• 📄 Automatically fetch the page title\n" ++
    "• 🏷️ Extract relevant tags\n• 💾 Save it to your inbox\n\n" ++
    "Send me any text and I\x27ll:\n• 📝 Create a note titled \x27FromTelegram\x27\n" ++
    "• 💾 Save your message for later\n\n" ++
    "Just send a URL or text and I\x27ll take care of the rest! �").toList

/-- `process_message` in `app/telegram_poller.py`, returning the stored links
and the reply text.  Notes (the no-URL path) live outside the link store;
`net` gives the would-be network metadata per URL. -/
def process_message (text : PyStr) (store : List LinkRec)
    (net : PyStr → TgMeta) (now startId : Nat) : List LinkRec × PyStr :=
  if 4000 < text.length then
    (store, "❌ Message too long. Please keep it under 4000 characters.".toList)
  else if pyStartsWith "/start".toList text then (store, tgWelcome)
  else
    let urls := extract_urls text
    if urls.isEmpty then (store, "✅ Note saved! 📝".toList)
    else if 10 < urls.length then
      (store, "❌ Too many URLs. Please send maximum 10 links at a time.".toList)
    else
      let valid_urls := urls.filter tg_valid_url
      if valid_urls.isEmpty then
        (store, "❌ No valid URLs found. URLs must start with http:// or https://".toList)
      else
        let single := valid_urls.length = 1
        let final := valid_urls.foldl (tg_handle_url net text single now)
          ⟨store, [], [], startId⟩
        (final.store, tg_reply final.saved final.dups)

/-- C3: the spec demands that the private-IP message "check this out
https://10.0.0.5/internal" saves zero links and replies "no valid URLs",
private-range hosts being rejected during per-URL validation.  The code does
not perform that check in the validation loop (only scheme, netloc length and
URL length), and the private-IP rejection inside `fetch_url_metadata` merely
degrades metadata: regardless of the network, the message saves exactly one
link, for the private-range URL itself, and replies with the link-saved
confirmation, not the no-valid-URLs message. -/
theorem C3_private_ip_link_saved (net : PyStr → TgMeta) :
    process_message "check this out https://10.0.0.5/internal".toList [] net 5 1 =
      ([⟨1, "https://10.0.0.5/internal".toList, "check this out".toList, none,
          none, some "pending".toList, none, some "active".toList, none,
          some 5⟩],
        "✅ <b>Link saved to your inbox!</b>\n\n🔗 https://10.0.0.5/internal\n📄 check this out\n".toList) ∧
    (process_message "check this out https://10.0.0.5/internal".toList [] net
        5 1).2 ≠
      "❌ No valid URLs found. URLs must start with http:// or https://".toList := by
  have h : process_message "check this out https://10.0.0.5/internal".toList
      [] net 5 1 =
      ([⟨1, "https://10.0.0.5/internal".toList, "check this out".toList, none,
          none, some "pending".toList, none, some "active".toList, none,
          some 5⟩],
        "✅ <b>Link saved to your inbox!</b>\n\n🔗 https://10.0.0.5/internal\n📄 check this out\n".toList) := rfl
  refine ⟨h, ?_⟩
  rw [h]
  decide

end NoteKeep